import Mathlib

/-!
PIC18F4520 library and demo application: serial line engine and UART commands.

A shallow embedding of `processSerialReceive`, `serialBegin`, the timer period macros and
the PWM duty macros (src/lib.h) and of `onReadLine`, `led4Bit`, the handler `H_ISR` with its button, Timer1,
Timer3 and conversion-complete blocks, and the start-up assignments of `main`
(src/main.c).

Conventions of the embedding

* `char` and `byte` values are natural numbers; XC8's plain `char` is unsigned, so the
  label `case 0xff` is reachable and a received byte is a value in 0..255.
* `int` is the 16-bit two's-complement integer of XC8; results of `int` arithmetic are
  wrapped into -32768..32767 by `wrapInt`.
* The hardware is seen through what the code reads and writes: a received byte is the
  value `serialRead` returns from `RCREG`, together with the `OERR` bit sampled at entry
  and the `FERR` bit sampled after the read; every store to `TXREG` appends to the log
  `tx`.  The busy wait on `TRMT` in `serialWrite`/`putch` is taken to end (the transmitter
  always drains).
* The callbacks reached through `serialOnReadLine` and `serialOnReadChar` act on the
  application state and on the transmitter only: neither `onReadLine` nor `onReadChar`
  writes `serialBuffer`, `serialBufferLen` or `serialLastChar`.
* Two ghost logs instrument the engine: `lines` records the arguments of every call made
  through `serialOnReadLine`, `access` records every index of `serialBuffer` the engine
  touches.
* `atoi` and `printf` belong to the C library; they are modelled by their ISO C
  behaviour (`printf` emits its characters through `putch`, which stores to `TXREG`).
* `H_ISR` acts on the application state, the four pending flags it tests, the Timer1
  counter and the transmitter; a ghost log `ran` records the blocks entered.  The pending
  flags are those found at entry: no source raises its flag while the handler runs.
* `double` is the IEEE 754 binary64 format.  The constant expressions of the Timer0,
  Timer1 and Timer3 period macros are evaluated as the compiler does, every operation
  rounded to the nearest binary64 number, ties to even (`toDouble`); the values are kept
  as rationals.  The other floating-point expressions (the PWM duty macros, the Timer2
  period macro, the scalings of the conversion handler) are evaluated in exact rational
  arithmetic.  A conversion to an integer type truncates toward zero.
-/

namespace PIC18

/-! ## Characters -/

/-- Character codes of a string literal. -/
def bytes (s : String) : List Nat := s.toList.map Char.toNat

/-- ASCII DEL, the label `'\x7f'`. -/
def DEL : Nat := 0x7f
/-- ASCII carriage return, the label `'\r'`. -/
def CR : Nat := 13
/-- ASCII line feed, the label `'\n'`. -/
def LF : Nat := 10

/-- A byte that reaches the `default:` label of the switch in `processSerialReceive`. -/
def isOrdinary (c : Nat) : Prop := c ≠ 0x7f ∧ c ≠ 13 ∧ c ≠ 10 ∧ c ≠ 0xff

instance (c : Nat) : Decidable (isOrdinary c) := by
  unfold isOrdinary; exact inferInstance

/-- Printable ASCII, 0x20..0x7E. -/
def isPrintable (c : Nat) : Prop := 0x20 ≤ c ∧ c ≤ 0x7e

instance (c : Nat) : Decidable (isPrintable c) := by
  unfold isPrintable; exact inferInstance

/-! ## Serial line engine (src/lib.h, `processSerialReceive`) -/

/-- One received byte as `processSerialReceive` sees it: the value read from `RCREG`,
`RCSTAbits.FERR` as tested after the read and `RCSTAbits.OERR` as tested at entry. -/
structure RxByte where
  c : Nat
  ferr : Bool
  oerr : Bool
  deriving DecidableEq, Repr

/-- A byte received with neither framing nor overrun error. -/
def clean (c : Nat) : RxByte := ⟨c, false, false⟩

/-- The two callback pointers `serialOnReadLine` and `serialOnReadChar`; `none` is the
null pointer.  A callback receives the buffer (the 64 bytes `line` points to) and the
length, acts on the application state and returns the bytes it transmitted. -/
structure Callbacks (α : Type) where
  serialOnReadLine : Option (List Nat → Nat → α → α × List Nat)
  serialOnReadChar : Option (Nat → α → α × List Nat)

/-- State of the serial engine together with the application state `app` the callbacks
act on. -/
structure Serial (α : Type) where
  /-- Contents of `char serialBuffer[64]`. -/
  serialBuffer : List Nat
  /-- Value of `byte serialBufferLen`. -/
  serialBufferLen : Nat
  /-- Value of `char serialLastChar`. -/
  serialLastChar : Nat
  /-- Bit `RCSTAbits.CREN`. -/
  CREN : Bool
  /-- Bytes stored to `TXREG`, oldest first. -/
  tx : List Nat
  /-- Ghost: arguments `(line, len)` of each call through `serialOnReadLine`. -/
  lines : List (List Nat × Nat)
  /-- Ghost: indices of `serialBuffer` used by the engine, oldest first. -/
  access : List Nat
  /-- State owned by the callbacks. -/
  app : α

/-- Engine state at start-up: the globals of lib.h as initialised (`serialBuffer` is
zero-initialised static storage, `serialBufferLen = 0`, `serialLastChar = '\0'`), the
receiver enabled by `serialBegin`, nothing transmitted yet. -/
def Serial.start {α : Type} (a : α) : Serial α :=
  { serialBuffer := List.replicate 64 0, serialBufferLen := 0, serialLastChar := 0,
    CREN := true, tx := [], lines := [], access := [], app := a }

/-- Body of `serialWrite(c)`: wait for `TRMT`, then `TXREG = c`. -/
def serialWrite {α : Type} (c : Nat) (s : Serial α) : Serial α :=
  { s with tx := s.tx ++ [c] }

/-- Store `serialBuffer[i] = v`, recording the index. -/
def bufStore {α : Type} (i v : Nat) (s : Serial α) : Serial α :=
  { s with serialBuffer := s.serialBuffer.set i v, access := s.access ++ [i] }

/-- Call through `serialOnReadLine` when it is not null:
`serialOnReadLine(serialBuffer, serialBufferLen)`. -/
def callReadLine {α : Type} (cb : Callbacks α) (s : Serial α) : Serial α :=
  match cb.serialOnReadLine with
  | none => s
  | some f =>
    let r := f s.serialBuffer s.serialBufferLen s.app
    { s with app := r.1, tx := s.tx ++ r.2,
             lines := s.lines ++ [(s.serialBuffer, s.serialBufferLen)] }

/-- Call through `serialOnReadChar` when it is not null: `serialOnReadChar(c)`. -/
def callReadChar {α : Type} (cb : Callbacks α) (c : Nat) (s : Serial α) : Serial α :=
  match cb.serialOnReadChar with
  | none => s
  | some g =>
    let r := g c s.app
    { s with app := r.1, tx := s.tx ++ r.2 }

/-- The `switch (c)` of `processSerialReceive`. -/
def dispatch {α : Type} (cb : Callbacks α) (c : Nat) (s : Serial α) : Serial α :=
  if c = 0x7f then
    -- case '\x7f'
    if s.serialBufferLen = 0 then s
    else
      let s1 := serialWrite 32 (serialWrite 8 s)
      let s2 := serialWrite 8 s1
      -- serialBuffer[--serialBufferLen] = '\0'
      let n := (s2.serialBufferLen + 255) % 256
      bufStore n 0 { s2 with serialBufferLen := n }
  else if c = 13 ∨ c = 10 then
    -- case '\r': case '\n':
    if c = 10 ∧ s.serialBufferLen = 0 ∧ s.serialLastChar = 13 then s
    else
      let s1 := serialWrite 10 s
      let s2 := bufStore s1.serialBufferLen 0 s1
      let s3 := callReadLine cb s2
      -- serialBuffer[serialBufferLen = 0] = '\0'
      bufStore 0 0 { s3 with serialBufferLen := 0 }
  else if c = 0xff then s
  else
    -- default:
    let s1 := callReadChar cb c s
    if s1.serialBufferLen < 64 - 1 then
      let s2 := serialWrite c s1
      -- serialBuffer[serialBufferLen++] = c
      bufStore s2.serialBufferLen c
        { s2 with serialBufferLen := (s2.serialBufferLen + 1) % 256 }
    else s1

/-- Function `processSerialReceive`.  The argument is `none` when `RCIF` is clear (the
function returns `false` at once) and the received byte otherwise. -/
def processSerialReceive {α : Type} (cb : Callbacks α) (rx : Option RxByte)
    (s : Serial α) : Bool × Serial α :=
  match rx with
  | none => (false, s)
  | some r =>
    -- serialReceiveEnable(0); Nop(); serialReceiveEnable(1);
    let s0 := if r.oerr then { s with CREN := true } else s
    if r.ferr then (true, s0)
    else
      let s1 := dispatch cb r.c s0
      (true, { s1 with serialLastChar := r.c })

/-- One activation of the engine on a received byte. -/
def step {α : Type} (cb : Callbacks α) (r : RxByte) (s : Serial α) : Serial α :=
  (processSerialReceive cb (some r) s).2

/-- Successive activations on a sequence of received bytes. -/
def feed {α : Type} (cb : Callbacks α) : List RxByte → Serial α → Serial α
  | [], s => s
  | r :: rs, s => feed cb rs (step cb r s)

/-! ## C library functions used by main.c -/

/-- Wrap a mathematical integer into the range of the 16-bit `int` of XC8. -/
def wrapInt (v : Int) : Int := (v + 32768) % 65536 - 32768

/-- Whitespace in the sense of `isspace`: space and the controls 9..13. -/
def isSpace (c : Nat) : Bool := decide (c = 32) || (decide (9 ≤ c) && decide (c ≤ 13))

/-- Digit loop of `atoi`: consume decimal digits, stop at the first other character
(the terminating NUL included). -/
def atoiDigits : List Nat → Nat → Nat
  | [], acc => acc
  | c :: cs, acc =>
    if 48 ≤ c ∧ c ≤ 57 then atoiDigits cs (acc * 10 + (c - 48)) else acc

/-- Optional sign followed by the digit loop. -/
def atoiSigned (cs : List Nat) : Int :=
  match cs with
  | [] => 0
  | c :: rest =>
    if c = 45 then -((atoiDigits rest 0 : Nat) : Int)
    else if c = 43 then ((atoiDigits rest 0 : Nat) : Int)
    else ((atoiDigits (c :: rest) 0 : Nat) : Int)

/-- C library `atoi` on the characters found at a `char*`: skip white space, read an
optional sign and the decimal digits.  The result is an `int`; a value outside its range
(undefined in ISO C) is wrapped. -/
def atoi (cs : List Nat) : Int := wrapInt (atoiSigned (cs.dropWhile isSpace))

/-- Decimal digits of a natural number as character codes. -/
def natDigits (n : Nat) : List Nat := (Nat.toDigits 10 n).map Char.toNat

/-- Conversion `%d` of `printf` applied to an `int`. -/
def fmtD (v : Int) : List Nat :=
  if v < 0 then 45 :: natDigits (-v).toNat else natDigits v.toNat

/-! ## Application state (globals of src/main.c and the registers it drives) -/

/-- Clock frequency `_XTAL_FREQ`. -/
def XTAL_FREQ : Nat := 4000000

/-- Globals of main.c and the output registers written by its handlers. -/
structure App where
  enableLedBinaryADC : Bool
  enableServoADC : Bool
  enableLedPwmADC : Bool
  enableLedMarqueeADC : Bool
  enableBinaryButtonCount : Bool
  enableServoTurnRangeSwitchButton : Bool
  enableSetServoAngleUart : Bool
  enableServoTurnAngleButton : Bool
  enableLedFlashADC : Bool
  enableLedMarqueeADC_Single : Bool
  enable10StateFromADC : Bool
  enable7TodayStateFromADC : Bool
  enableEvenOddADC : Bool
  enableSequentialLedButton : Bool
  enableSequentialLedButton_4 : Bool
  enableUartToBinary : Bool
  /-- Variable `uint8_t servoTurnRangeState`. -/
  servoTurnRangeState : Nat
  /-- Variable `uint16_t buttonClickCount`. -/
  buttonClickCount : Nat
  /-- Variable `int currentServoAngle`. -/
  currentServoAngle : Int
  /-- Variable `uint16_t servoAngleState`. -/
  servoAngleState : Nat
  adcIncreasing : Bool
  ledFlashCounter : Nat
  ledFlashThreshold : Nat
  ledFlashState : Bool
  ledFlashZone : Nat
  seqLedSpeedState : Nat
  seqLedPosition : Nat
  seqLedCounter : Nat
  seqLedThreshold : Nat
  lastADC : Nat
  /-- Latch bits `LATDbits.LD0` .. `LATDbits.LD3` (pins RD0..RD3). -/
  RD0 : Nat
  RD1 : Nat
  RD2 : Nat
  RD3 : Nat
  /-- Duty registers of CCP1: `CCP1CONbits.DC1B` (2 bits) and `CCPR1L`. -/
  DC1B : Nat
  CCPR1L : Nat
  /-- Duty registers of CCP2: `CCP2CONbits.DC2B` (2 bits) and `CCPR2L`. -/
  DC2B : Nat
  CCPR2L : Nat
  deriving DecidableEq, Repr

/-- Function `led4Bit(value)`: four `digitalWrite` to the one-bit latches of RD0..RD3. -/
def led4Bit (value : Nat) (a : App) : App :=
  { a with RD0 := ((value >>> 0) &&& 1) % 2,
           RD1 := ((value >>> 1) &&& 1) % 2,
           RD2 := ((value >>> 2) &&& 1) % 2,
           RD3 := ((value >>> 3) &&& 1) % 2 }

/-- The `unsigned int value` of `setCCP1PwmDutyCycle(length, prescale)`:
`(unsigned int)((length) / (1000000.0 / _XTAL_FREQ) / prescale)`, the quotient taken
exactly and truncated; a quotient outside the range of `unsigned int` (undefined in
ISO C) is wrapped. -/
def pwmDutyValue (length : ℚ) (prescale : ℚ) : Nat :=
  Int.toNat ⌊length / (1000000 / (XTAL_FREQ : ℚ)) / prescale⌋ % 65536

/-- Macro `setCCP1PwmDutyCycle(length, prescale)`. -/
def setCCP1PwmDutyCycle (length : ℚ) (prescale : ℚ) (a : App) : App :=
  let value := pwmDutyValue length prescale
  { a with DC1B := ((value % 256) &&& 3) % 4, CCPR1L := (value >>> 2) % 256 }

/-- Macro `setCCP1ServoAngle(angle, prescale)`. -/
def setCCP1ServoAngle (angle : Int) (prescale : ℚ) (a : App) : App :=
  setCCP1PwmDutyCycle (450 + ((2450 - 450) / 180) * (angle : ℚ)) prescale a

/-- Block `if (*line == 'r')` of `onReadLine`, up to the `return`. -/
def resetCommand (a : App) : App × List Nat :=
  let a1 := { a with buttonClickCount := 0, servoAngleState := 0, servoTurnRangeState := 1,
                     seqLedSpeedState := 1, seqLedPosition := 0, seqLedCounter := 0,
                     seqLedThreshold := 1 }
  let a2 := if a1.enableBinaryButtonCount then led4Bit (a1.buttonClickCount % 256) a1 else a1
  (a2, bytes "Reset OK\n")

/-- Value assigned to `currentServoAngle` by the block `if (enableSetServoAngleUart)` of
`onReadLine`: parse `i`, then `(i + 90) % 181`, plus 180 when negative. -/
def uartAngle (line : List Nat) : Int :=
  let i : Int := if line.headD 0 = 45 then wrapInt (-(atoi (line.drop 1))) else atoi line
  let r : Int := Int.tmod (wrapInt (i + 90)) 181
  if r < 0 then wrapInt (r + 180) else r

/-- Block `if (enableSetServoAngleUart)` of `onReadLine`. -/
def uartServoAngle (line : List Nat) (a : App) : App × List Nat :=
  let a1 := { a with currentServoAngle := uartAngle line }
  (setCCP1ServoAngle a1.currentServoAngle 16 a1,
   bytes "Servo Angle:" ++ fmtD a1.currentServoAngle ++ bytes "\n")

/-- Local `value` of the block `if (enableUartToBinary)` after the two clamping tests. -/
def uartValue (line : List Nat) : Int :=
  let v0 : Int := atoi line
  let v1 : Int := if v0 < 0 then 0 else v0
  if v1 > 15 then 15 else v1

/-- Block `if (enableUartToBinary)` of `onReadLine`.  After the clamping `value` lies in
0..15, so the shifts and masks of the `printf` arguments are taken on its natural-number
value. -/
def uartToBinary (line : List Nat) (a : App) : App × List Nat :=
  let value : Int := uartValue line
  let n : Nat := value.toNat
  (led4Bit (n % 256) a,
   bytes "Binary:" ++ fmtD value ++ bytes " -> " ++
     fmtD (((n >>> 3) &&& 1 : Nat) : Int) ++ fmtD (((n >>> 2) &&& 1 : Nat) : Int) ++
     fmtD (((n >>> 1) &&& 1 : Nat) : Int) ++ fmtD (((n >>> 0) &&& 1 : Nat) : Int) ++
     bytes "\n")

/-- Function `onReadLine(line, len)`.  `line` is the content of the buffer the pointer
designates; the result is the new application state and the characters printed. -/
def onReadLine (line : List Nat) (_len : Nat) (a : App) : App × List Nat :=
  if line.headD 0 = 114 then resetCommand a
  else
    let r1 := if a.enableSetServoAngleUart then uartServoAngle line a else (a, [])
    let r2 := if r1.1.enableUartToBinary then uartToBinary line r1.1 else (r1.1, [])
    (r2.1, r1.2 ++ r2.2)

/-- Function `onReadChar(c)`: empty body. -/
def onReadChar (_c : Nat) (a : App) : App × List Nat := (a, [])

/-- Callback pointers as `main` installs them. -/
def mainCallbacks : Callbacks App :=
  { serialOnReadLine := some onReadLine, serialOnReadChar := some onReadChar }

/-- Application state when `main` reaches its loop: the LED latches cleared, the servo
duty set by `setCCP1ServoAngle(0, 16)`, the feature flags and the variables as assigned in
stages nine and ten.  `main` never writes the CCP2 duty registers; their content is the
parameter. -/
def mainStart (dc2b ccpr2l : Nat) : App :=
  setCCP1ServoAngle 0 16
  { enableLedBinaryADC := false, enableServoADC := false, enableLedPwmADC := false,
    enableLedMarqueeADC := false, enableBinaryButtonCount := false,
    enableServoTurnRangeSwitchButton := false, enableSetServoAngleUart := true,
    enableServoTurnAngleButton := false, enableLedFlashADC := false,
    enableLedMarqueeADC_Single := false, enable10StateFromADC := false,
    enable7TodayStateFromADC := false, enableEvenOddADC := false,
    enableSequentialLedButton := false, enableSequentialLedButton_4 := false,
    enableUartToBinary := false,
    adcIncreasing := true, servoTurnRangeState := 1, seqLedSpeedState := 1,
    seqLedPosition := 0, seqLedCounter := 0, seqLedThreshold := 1,
    ledFlashCounter := 0, ledFlashThreshold := 50, ledFlashState := false,
    ledFlashZone := 1, buttonClickCount := 0, currentServoAngle := 0,
    servoAngleState := 0, lastADC := 0,
    RD0 := 0, RD1 := 0, RD2 := 0, RD3 := 0,
    DC1B := 0, CCPR1L := 0, DC2B := dc2b, CCPR2L := ccpr2l }

/-! ## Timing calculator (src/lib.h, the `setTimerNInterruptPeriod` macros) -/

/-- Conversion of a floating value to an integer: truncation toward zero. -/
def truncQ (x : ℚ) : Int := if 0 ≤ x then ⌊x⌋ else ⌈x⌉

/-- C conversion of a floating value to an unsigned integer type of `w` bits.  The value
is truncated toward zero; the conversion is defined only when the truncated value is
representable in the type. -/
def castUnsigned (w : Nat) (x : ℚ) : Option Nat :=
  if 0 ≤ truncQ x ∧ truncQ x < 2 ^ w then some (truncQ x).toNat else none

/-- The sub-expression `(period) / (1000000.0 / _XTAL_FREQ) / 4 / prescale` of the
Timer2 macro, in exact arithmetic: the number of prescaled instruction cycles in `period`
microseconds. -/
def timerCounts (period prescale : ℚ) : ℚ :=
  period / (1000000 / (XTAL_FREQ : ℚ)) / 4 / prescale

/-- The test `_Static_assert((uint32_t)(x) <= limit, "Period time too long")`: `true` when
the build goes on.  A conversion that is not defined is not a constant expression, so the
build stops as well. -/
def staticAssertLe (x : ℚ) (limit : Nat) : Bool :=
  match castUnsigned 32 x with
  | some n => decide (n ≤ limit)
  | none => false

/-- Round to the nearest integer, a tie going to the even neighbour. -/
def roundHalfEven (y : ℚ) : Int :=
  if y - ⌊y⌋ < 1 / 2 then ⌊y⌋
  else if 1 / 2 < y - ⌊y⌋ then ⌊y⌋ + 1
  else if ⌊y⌋ % 2 = 0 then ⌊y⌋ else ⌊y⌋ + 1

/-- Exponent of the unit in the last place of the IEEE 754 binary64 numbers around `x`:
53 significant bits, and -1074 in the subnormal range. -/
def ulpExp (x : ℚ) : Int := max (Int.log 2 |x| - 52) (-1074)

/-- The binary64 number nearest to `x`, ties to even, before the test for overflow. -/
def roundDouble (x : ℚ) : ℚ := (roundHalfEven (x / 2 ^ ulpExp x) : ℚ) * 2 ^ ulpExp x

/-- Result in `double` of an operation whose exact value is `x`, or of a constant written
as `x`: the nearest binary64 number; `none` when the rounded magnitude reaches 2^1024,
which is no finite value and no constant expression. -/
def toDouble (x : ℚ) : Option ℚ :=
  if |roundDouble x| < 2 ^ 1024 then some (roundDouble x) else none

/-- Division of two `double` values; a zero divisor gives no finite value. -/
def dDiv (x y : ℚ) : Option ℚ := if y = 0 then none else toDouble (x / y)

/-- The sub-expression `(period) / (1000000.0 / _XTAL_FREQ) / 4 / prescale` of the timer
macros as the compiler evaluates it in `double`: both arguments are converted to `double`,
and each of the four divisions is rounded. -/
def timerCountsD (period prescale : ℚ) : Option ℚ :=
  (toDouble period).bind fun p =>
  (toDouble prescale).bind fun s =>
  (dDiv 1000000 (XTAL_FREQ : ℚ)).bind fun c =>
  (dDiv p c).bind fun t2 =>
  (dDiv t2 4).bind fun t3 => dDiv t3 s

/-- The test
`_Static_assert((uint32_t)((period) / (1000000.0 / _XTAL_FREQ) / 4 / prescale + 1) <= limit, ...)`
of the Timer0, Timer1 and Timer3 macros, the operand evaluated in `double`. -/
def timerAssert (period prescale : ℚ) (limit : Nat) : Bool :=
  match (timerCountsD period prescale).bind fun t => toDouble (t + 1) with
  | some u => staticAssertLe u limit
  | none => false

/-- The operand `top - (period) / (1000000.0 / _XTAL_FREQ) / 4 / prescale + 1` of the
conversion in the Timer0, Timer1 and Timer3 macros, evaluated in `double`: the
subtraction is rounded, then the addition. -/
def timerReloadD (top period prescale : ℚ) : Option ℚ :=
  (timerCountsD period prescale).bind fun t =>
  (toDouble (top - t)).bind fun v => toDouble (v + 1)

/-- The expression stored by the 16-bit macros:
`(uint16_t)(65535 - (period) / (1000000.0 / _XTAL_FREQ) / 4 / prescale + 1)`. -/
def timerReload16 (period prescale : ℚ) : Option Nat :=
  (timerReloadD 65535 period prescale).bind (castUnsigned 16)

/-- The expression stored by the 8-bit macro:
`(byte)(255 - (period) / (1000000.0 / _XTAL_FREQ) / 4 / prescale + 1)`. -/
def timerReload8 (period prescale : ℚ) : Option Nat :=
  (timerReloadD 255 period prescale).bind (castUnsigned 8)

/-- Macro `setTimer1InterruptPeriod(period, prescale)`: the value stored in `TMR1`, or
`none` when the static assertion stops the build or the conversion is not defined. -/
def setTimer1InterruptPeriod (period prescale : ℚ) : Option Nat :=
  if timerAssert period prescale 65535 then timerReload16 period prescale else none

/-- Macro `setTimer3InterruptPeriod(period, prescale)`: the value stored in `TMR3`. -/
def setTimer3InterruptPeriod (period prescale : ℚ) : Option Nat :=
  if timerAssert period prescale 65535 then timerReload16 period prescale else none

/-- Macro `setTimer0InterruptPeriod16(period, prescale)`: the value stored in `TMR0`. -/
def setTimer0InterruptPeriod16 (period prescale : ℚ) : Option Nat :=
  if timerAssert period prescale 65535 then timerReload16 period prescale else none

/-- Macro `setTimer0InterruptPeriod8(period, prescale)`: the value stored in `TMR0`. -/
def setTimer0InterruptPeriod8 (period prescale : ℚ) : Option Nat :=
  if timerAssert period prescale 255 then timerReload8 period prescale else none

/-- Macro `setTimer2InterruptPeriod(period, prescale, postscale)`: the value stored in
`PR2`, `(byte)((period) / (1000000.0 / _XTAL_FREQ) / 4 / prescale / postscale - 1)`. -/
def setTimer2InterruptPeriod (period prescale postscale : ℚ) : Option Nat :=
  if staticAssertLe (timerCounts period prescale / postscale - 1) 255 then
    castUnsigned 8 (timerCounts period prescale / postscale - 1)
  else none

/-- Duration of one timer tick in microseconds with prescale 1: four oscillator periods,
`4 / FOSC`. -/
def tickUs : ℚ := 4 * 1000000 / (XTAL_FREQ : ℚ)

/-- Reload value in the words of the specification:
`(2^counterWidthBits - 1) - periodUs / (tickUs * prescale) + 1`, truncated toward zero. -/
def specReload (w : Nat) (period prescale : ℚ) : Int :=
  truncQ ((2 ^ w - 1 : ℚ) - period / (tickUs * prescale) + 1)

/-- Ideal reload value in the words of the specification, before any rounding:
`2^w - period / (tick * prescale)`. -/
def idealReload (w : Nat) (period prescale : ℚ) : ℚ :=
  (2 : ℚ) ^ w - period / (tickUs * prescale)

/-- PWM period in microseconds for a value of `PR2` and a Timer2 prescale:
`(PR2 + 1) * 4 * prescale / FOSC`. -/
def pwmPeriodUs (pr2 prescale : Nat) : ℚ :=
  ((pr2 : ℚ) + 1) * 4 * prescale * 1000000 / (XTAL_FREQ : ℚ)

/-! ## PWM duty controller, channel 2 -/

/-- Macro `setCCP2PwmDutyCycle(length, prescale)`. -/
def setCCP2PwmDutyCycle (length : ℚ) (prescale : ℚ) (a : App) : App :=
  let value := pwmDutyValue length prescale
  { a with DC2B := ((value % 256) &&& 3) % 4, CCPR2L := (value >>> 2) % 256 }

/-- Duty value in the words of the specification: `highTimeUs / (tickUs * prescale)` with
the oscillator period `1 / FOSC` as tick, integer part. -/
def specDuty (highTimeUs prescale : ℚ) : Int :=
  ⌊highTimeUs / ((1000000 / (XTAL_FREQ : ℚ)) * prescale)⌋

/-- The 10-bit duty value held by `CCPR1L:DC1B`. -/
def dutyCCP1 (a : App) : Nat := 4 * a.CCPR1L + a.DC1B

/-- The 10-bit duty value held by `CCPR2L:DC2B`. -/
def dutyCCP2 (a : App) : Nat := 4 * a.CCPR2L + a.DC2B

/-! ## Conversion-complete handler (src/main.c, `H_ISR`, block `interruptByADConverter`) -/

/-- Local `ADC` of the handler: `(lastADC + currentADC) / 2` in `uint16_t` arithmetic. -/
def adcSmoothed (lastADC currentADC : Nat) : Nat := ((lastADC + currentADC) % 65536) / 2

/-- Block `if (enableServoADC)`: `setCCP1ServoAngle((int)(ADC * 180.0 / 1024), 16)`. -/
def servoADC (ADC : Nat) (a : App) : App :=
  setCCP1ServoAngle (wrapInt (truncQ ((ADC : ℚ) * 180 / 1024))) 16 a

/-- Argument of `led4Bit` in the block `if (enableLedBinaryADC)`:
`(byte)(ADC * 15.0 / 1023)`. -/
def binaryFromADC (ADC : Nat) : Nat := (truncQ ((ADC : ℚ) * 15 / 1023)).toNat % 256

/-- Block `if (enableLedBinaryADC)`. -/
def ledBinaryADC (ADC : Nat) (a : App) : App := led4Bit (binaryFromADC ADC) a

/-- Block `if (enableLedPwmADC)`:
`setCCP2PwmDutyCycle((int)(ADC * 4100.0 / 1024), 16)`. -/
def ledPwmADC (ADC : Nat) (a : App) : App :=
  setCCP2PwmDutyCycle ((wrapInt (truncQ ((ADC : ℚ) * 4100 / 1024)) : Int) : ℚ) 16 a

/-- Block `if (enableLedMarqueeADC)`: `marqueePosition = (int)(ADC * 8 / (1024 - 4))` in
`unsigned` arithmetic, then `led4Bit((byte)(0b111100001111 >> marqueePosition))`. -/
def ledMarqueeADC (ADC : Nat) (a : App) : App :=
  let marqueePosition := ((ADC * 8) % 65536) / (1024 - 4)
  led4Bit ((0b111100001111 >>> marqueePosition) % 256) a

/-- Block `if (enableLedFlashADC)`. -/
def ledFlashADC (ADC : Nat) (a : App) : App :=
  let newZone : Nat := if ADC < 256 then 1 else if ADC < 512 then 2 else if ADC < 768 then 3 else 4
  let newThreshold : Nat :=
    if ADC < 256 then 50 else if ADC < 512 then 100 else if ADC < 768 then 150 else 200
  let a1 := if newZone ≠ a.ledFlashZone then
      { a with ledFlashZone := newZone, ledFlashCounter := 0 } else a
  let a2 := { a1 with ledFlashThreshold := newThreshold,
                      ledFlashCounter := (a1.ledFlashCounter + 1) % 65536 }
  if a2.ledFlashCounter ≥ a2.ledFlashThreshold then
    let a3 := { a2 with ledFlashCounter := 0, ledFlashState := !a2.ledFlashState }
    setCCP2PwmDutyCycle (if a3.ledFlashState then 1024 else 0) 16 a3
  else a2

/-- Block `if (enableLedMarqueeADC_Single)`. -/
def ledMarqueeADC_Single (ADC : Nat) (a : App) : App :=
  let p0 := (ADC / 171) % 256
  let ledPosition := if p0 > 5 then 5 else p0
  if ledPosition = 0 ∨ ledPosition = 5 then led4Bit 0 a
  else led4Bit ((1 <<< (ledPosition - 1)) % 256) a

/-- Block `if (enable10StateFromADC)`. -/
def tenStateFromADC (ADC : Nat) (a : App) : App :=
  let s0 := (ADC / 103) % 256
  let state := if s0 > 9 then 9 else s0
  led4Bit state a

/-- Table `dateDigits` of the block `if (enable7TodayStateFromADC)`. -/
def dateDigits : List Nat := [2, 0, 2, 5, 12, 0, 3]

/-- Block `if (enable7TodayStateFromADC)`. -/
def sevenTodayStateFromADC (ADC : Nat) (a : App) : App :=
  let s0 := (ADC / 147) % 256
  let state := if s0 > 6 then 6 else s0
  led4Bit (dateDigits.getD state 0) a

/-- Block `if (enableEvenOddADC)`. -/
def evenOddADC (ADC currentADC : Nat) (a : App) : App :=
  let adcDiff : Int := wrapInt (wrapInt (currentADC : Int) - wrapInt (a.lastADC : Int))
  let a1 := if adcDiff > 5 then { a with adcIncreasing := true }
            else if adcDiff < -5 then { a with adcIncreasing := false } else a
  let s0 := (ADC >>> 7) % 256
  let state := if s0 > 7 then 7 else s0
  let displayValue := if a1.adcIncreasing then (state * 2 + 1) % 256 else (state * 2) % 256
  led4Bit displayValue a1

/-- The mode blocks of the handler in source order, each behind its feature flag. -/
def adcModes (ADC currentADC : Nat) (a : App) : App :=
  let a1 := if a.enableServoADC then servoADC ADC a else a
  let a2 := if a1.enableLedBinaryADC then ledBinaryADC ADC a1 else a1
  let a3 := if a2.enableLedPwmADC then ledPwmADC ADC a2 else a2
  let a4 := if a3.enableLedMarqueeADC then ledMarqueeADC ADC a3 else a3
  let a5 := if a4.enableLedFlashADC then ledFlashADC ADC a4 else a4
  let a6 := if a5.enableLedMarqueeADC_Single then ledMarqueeADC_Single ADC a5 else a5
  let a7 := if a6.enable10StateFromADC then tenStateFromADC ADC a6 else a6
  let a8 := if a7.enable7TodayStateFromADC then sevenTodayStateFromADC ADC a7 else a7
  if a8.enableEvenOddADC then evenOddADC ADC currentADC a8 else a8

/-- Body of `if (interruptByADConverter())` in `H_ISR` for the conversion result
`currentADC = getADConverter()`: smooth, run the mode blocks, then
`lastADC = currentADC`. -/
def adcBlock (currentADC : Nat) (a : App) : App :=
  { adcModes (adcSmoothed a.lastADC currentADC) currentADC a with lastADC := currentADC }

/-! ## Runs of conversion-complete events and views of the state -/

/-- Successive conversion-complete events for a sequence of raw samples. -/
def adcRun : List Nat → App → App
  | [], a => a
  | r :: rs, a => adcRun rs (adcBlock r a)

/-- The smoothed values of a run that starts with the stored previous sample `p`. -/
def smoothedRun : List Nat → Nat → List Nat
  | [], _ => []
  | r :: rs, p => adcSmoothed p r :: smoothedRun rs r

/-- The number shown on the four outputs, RD0 the least significant bit. -/
def ledValue (a : App) : Nat := a.RD0 + 2 * a.RD1 + 4 * a.RD2 + 8 * a.RD3

/-- The numbers shown on the outputs after each event of a run. -/
def displayRun : List Nat → App → List Nat
  | [], _ => []
  | r :: rs, a => ledValue (adcBlock r a) :: displayRun rs (adcBlock r a)

/-- The levels of the four outputs, listed as RD3, RD2, RD1, RD0. -/
def ledsOf (a : App) : Nat × Nat × Nat × Nat := (a.RD3, a.RD2, a.RD1, a.RD0)

/-- The sixteen feature flags, in the order of their declaration. -/
def flagsOf (a : App) : List Bool :=
  [a.enableLedBinaryADC, a.enableServoADC, a.enableLedPwmADC, a.enableLedMarqueeADC,
   a.enableBinaryButtonCount, a.enableServoTurnRangeSwitchButton, a.enableSetServoAngleUart,
   a.enableServoTurnAngleButton, a.enableLedFlashADC, a.enableLedMarqueeADC_Single,
   a.enable10StateFromADC, a.enable7TodayStateFromADC, a.enableEvenOddADC,
   a.enableSequentialLedButton, a.enableSequentialLedButton_4, a.enableUartToBinary]

/-- The persistent variables of the blink mode: zone, counter, threshold, state. -/
def flashVars (a : App) : Nat × Nat × Nat × Bool :=
  (a.ledFlashZone, a.ledFlashCounter, a.ledFlashThreshold, a.ledFlashState)

/-- The mode blocks of the conversion handler as a list of flag tests and bodies, in
source order; `adcModes` runs them one after the other. -/
def adcBlockList (ADC currentADC : Nat) : List ((App → Bool) × (App → App)) :=
  [(fun a => a.enableServoADC, servoADC ADC),
   (fun a => a.enableLedBinaryADC, ledBinaryADC ADC),
   (fun a => a.enableLedPwmADC, ledPwmADC ADC),
   (fun a => a.enableLedMarqueeADC, ledMarqueeADC ADC),
   (fun a => a.enableLedFlashADC, ledFlashADC ADC),
   (fun a => a.enableLedMarqueeADC_Single, ledMarqueeADC_Single ADC),
   (fun a => a.enable10StateFromADC, tenStateFromADC ADC),
   (fun a => a.enable7TodayStateFromADC, sevenTodayStateFromADC ADC),
   (fun a => a.enableEvenOddADC, evenOddADC ADC currentADC)]

/-- Run a list of guarded blocks. -/
def runBlocks (bs : List ((App → Bool) × (App → App))) (a : App) : App :=
  bs.foldl (fun acc fb => if fb.1 acc then fb.2 acc else acc) a

/-! ## Button and Timer1 blocks of `H_ISR` (src/main.c) -/

/-- Statement `printf("Button%d\n", buttonClickCount++)`.  The `uint16_t` argument is read
by `%d` as an `int`, so its 16 bits are printed as a signed number. -/
def buttonCount (a : App) : App × List Nat :=
  ({ a with buttonClickCount := (a.buttonClickCount + 1) % 65536 },
   bytes "Button" ++ fmtD (wrapInt (a.buttonClickCount : Int)) ++ bytes "\n")

/-- Block `if (enableServoTurnRangeSwitchButton)` of the button handler. -/
def servoTurnRangeSwitchButton (a : App) : App × List Nat :=
  let a1 := { a with servoTurnRangeState := ((a.servoTurnRangeState % 5) + 1) % 256 }
  (a1, bytes "Servo Range State:" ++ fmtD (a1.servoTurnRangeState : Int) ++ bytes "\n")

/-- Block `if (enableServoTurnAngleButton)` of the button handler. -/
def servoTurnAngleButton (a : App) : App :=
  let angle1 : Int :=
    if a.servoAngleState = 0 then wrapInt (a.currentServoAngle + 45)
    else if a.servoAngleState = 1 then wrapInt (a.currentServoAngle + 90)
    else if a.servoAngleState = 2 then wrapInt (a.currentServoAngle + 180)
    else a.currentServoAngle
  let a1 := { a with currentServoAngle := angle1 }
  let a2 := { a1 with servoAngleState := ((a1.servoAngleState + 1) % 65536) % 3 }
  let a3 := { a2 with currentServoAngle := Int.tmod a2.currentServoAngle 180 }
  setCCP1ServoAngle a3.currentServoAngle 16 a3

/-- Block `if (enableSequentialLedButton)` of the button handler. -/
def sequentialLedButton (a : App) : App × List Nat :=
  let st := ((a.seqLedSpeedState % 3) + 1) % 256
  let thr := if st = 1 then 1 else if st = 2 then 2 else if st = 3 then 4
             else a.seqLedThreshold
  ({ a with seqLedSpeedState := st, seqLedThreshold := thr, seqLedCounter := 0 },
   bytes "SeqLED State:" ++ fmtD (st : Int) ++ bytes "\n")

/-- Block `if (enableSequentialLedButton_4)` of the button handler. -/
def sequentialLedButton_4 (a : App) : App × List Nat :=
  let st := ((a.seqLedSpeedState % 4) + 1) % 256
  let thr := if st = 1 then 1 else if st = 2 then 2 else if st = 3 then 3
             else if st = 4 then 4 else a.seqLedThreshold
  ({ a with seqLedSpeedState := st, seqLedThreshold := thr, seqLedCounter := 0 },
   bytes "SeqLED4 State:" ++ fmtD (st : Int) ++ bytes "\n")

/-- Body of `if (interruptByRB0External())` in `H_ISR`, without the clearing of the
flag: the new application state and the characters printed.  The busy wait
`__delay_ms(200)` changes no variable. -/
def buttonBlock (a : App) : App × List Nat :=
  let r0 := buttonCount a
  let a1 := if r0.1.enableBinaryButtonCount then
      led4Bit (r0.1.buttonClickCount % 256) r0.1 else r0.1
  let r2 := if a1.enableServoTurnRangeSwitchButton then servoTurnRangeSwitchButton a1
            else (a1, [])
  let a3 := if r2.1.enableServoTurnAngleButton then servoTurnAngleButton r2.1 else r2.1
  let r4 := if a3.enableSequentialLedButton then sequentialLedButton a3 else (a3, [])
  let r5 := if r4.1.enableSequentialLedButton_4 then sequentialLedButton_4 r4.1
            else (r4.1, [])
  (r5.1, r0.2 ++ r2.2 ++ r4.2 ++ r5.2)

/-- Block `if (enableSequentialLedButton)` of the Timer1 handler. -/
def timer1SequentialLed (a : App) : App :=
  let a1 := { a with seqLedCounter := (a.seqLedCounter + 1) % 256 }
  if a1.seqLedCounter ≥ a1.seqLedThreshold then
    let pos := ((a1.seqLedPosition + 1) % 3) % 256
    { a1 with seqLedCounter := 0, seqLedPosition := pos,
              RD0 := if pos = 0 then 1 else 0,
              RD1 := if pos = 1 then 1 else 0,
              RD2 := if pos = 2 then 1 else 0 }
  else a1

/-- Block `if (enableSequentialLedButton_4)` of the Timer1 handler. -/
def timer1SequentialLed_4 (a : App) : App :=
  let a1 := { a with seqLedCounter := (a.seqLedCounter + 1) % 256 }
  if a1.seqLedCounter ≥ a1.seqLedThreshold then
    let pos := ((a1.seqLedPosition + 1) % 4) % 256
    { a1 with seqLedCounter := 0, seqLedPosition := pos,
              RD0 := if pos = 0 then 1 else 0,
              RD1 := if pos = 1 then 1 else 0,
              RD2 := if pos = 2 then 1 else 0,
              RD3 := if pos = 3 then 1 else 0 }
  else a1

/-- Body of `if (interruptByTimer1Overflow())` in `H_ISR` on the application state,
without the reload of `TMR1` and the clearing of the flag. -/
def timer1Block (a : App) : App :=
  let a1 := if a.enableSequentialLedButton then timer1SequentialLed a else a
  if a1.enableSequentialLedButton_4 then timer1SequentialLed_4 a1 else a1

/-! ## The high-priority handler `H_ISR` (src/main.c) -/

/-- The four interrupt sources tested by `H_ISR`. -/
inductive Source where
  | button
  | timer1
  | timer3
  | adc
  deriving DecidableEq, Repr

/-- What `H_ISR` reads and writes: the application state, the four pending flags, the
Timer1 counter and the transmitter, with a ghost log of the handler blocks that ran. -/
structure Machine where
  app : App
  /-- Flag `INTCONbits.INT0IF`. -/
  INT0IF : Bool
  /-- Flag `PIR1bits.TMR1IF`. -/
  TMR1IF : Bool
  /-- Flag `PIR2bits.TMR3IF`. -/
  TMR3IF : Bool
  /-- Flag `PIR1bits.ADIF`. -/
  ADIF : Bool
  /-- Register pair `TMR1`. -/
  TMR1 : Nat
  /-- Bytes stored to `TXREG`, oldest first. -/
  tx : List Nat
  /-- Ghost: the handler blocks entered, oldest first. -/
  ran : List Source

/-- Function `H_ISR` for the conversion result `ADRES` found by `getADConverter()`.  The
pending flags are those of the state; the hardware raises no further flag while the
handler runs. -/
def H_ISR (ADRES : Nat) (m : Machine) : Machine :=
  let m1 := if m.INT0IF then
      let r := buttonBlock m.app
      { m with app := r.1, tx := m.tx ++ r.2, INT0IF := false, ran := m.ran ++ [Source.button] }
    else m
  let m2 := if m1.TMR1IF then
      { m1 with TMR1 := (setTimer1InterruptPeriod 250000 8).getD m1.TMR1,
                app := timer1Block m1.app, TMR1IF := false,
                ran := m1.ran ++ [Source.timer1] }
    else m1
  let m3 := if m2.TMR3IF then { m2 with TMR3IF := false, ran := m2.ran ++ [Source.timer3] }
    else m2
  if m3.ADIF then
    { m3 with app := adcBlock ADRES m3.app, ADIF := false, ran := m3.ran ++ [Source.adc] }
  else m3

/-! ## State selection of the N-state modes -/

/-- Local `state` of the block `if (enable10StateFromADC)`: `uint8_t state = ADC / 103`,
then `if (state > 9) state = 9`. -/
def tenState (ADC : Nat) : Nat :=
  let s0 := (ADC / 103) % 256
  if s0 > 9 then 9 else s0

/-- Local `state` of the block `if (enable7TodayStateFromADC)`: `uint8_t state = ADC / 147`,
then `if (state > 6) state = 6`. -/
def sevenState (ADC : Nat) : Nat :=
  let s0 := (ADC / 147) % 256
  if s0 > 6 then 6 else s0

/-- N-state quantisation in the words of the specification:
`min(floor(smoothed / (1024 / N)), N - 1)`, the quotient `1024 / N` taken exactly. -/
def specNState (n s : Nat) : Int := min ⌊(s : ℚ) / (1024 / (n : ℚ))⌋ ((n : Int) - 1)

/-! ## Further locals of `onReadLine` and of the conversion handler -/

/-- Local `i` of the block `if (enableSetServoAngleUart)` of `onReadLine`:
`-atoi(line + 1)` when the line starts with '-', `atoi(line)` otherwise. -/
def uartInput (line : List Nat) : Int :=
  if line.headD 0 = 45 then wrapInt (-(atoi (line.drop 1))) else atoi line

/-- Local `ledPosition` of the block `if (enableLedMarqueeADC_Single)`:
`uint8_t ledPosition = ADC / 171`, then `if (ledPosition > 5) ledPosition = 5`. -/
def singleLedPosition (ADC : Nat) : Nat :=
  let p0 := (ADC / 171) % 256
  if p0 > 5 then 5 else p0

/-- Successive Timer1 overflow events on the application state. -/
def timer1Run : Nat → App → App
  | 0, a => a
  | n + 1, a => timer1Run n (timer1Block a)

/-! ## Serial port set-up (src/lib.h, `serialBegin`) -/

/-- Register bits written by `serialBegin`. -/
structure Uart where
  /-- Direction bit of RC6 (TX): 0 is output. -/
  TRISC6 : Nat
  /-- Direction bit of RC7 (RX): 1 is input. -/
  TRISC7 : Nat
  /-- Bit `TXSTAbits.SYNC`. -/
  SYNC : Bool
  /-- Bit `BAUDCONbits.BRG16`. -/
  BRG16 : Bool
  /-- Bit `TXSTAbits.BRGH`. -/
  BRGH : Bool
  SPBRGH : Nat
  SPBRG : Nat
  /-- Bit `RCSTAbits.SPEN`. -/
  SPEN : Bool
  /-- Bit `TXSTAbits.TXEN`. -/
  TXEN : Bool
  /-- Bit `RCSTAbits.CREN`. -/
  CREN : Bool
  /-- Flag `PIR1bits.RCIF` as written by `clearInterrupt_ReceiveUART`. -/
  RCIF : Bool
  /-- Bit `PIE1bits.RCIE`. -/
  RCIE : Bool
  /-- Bit `IPR1bits.RCIP`. -/
  RCIP : Nat
  deriving DecidableEq, Repr

/-- Local `long baudRateGenerator` of `serialBegin` after the divisions: `_XTAL_FREQ /
baudRate`, then divided by 64, 16 or 4 according to SYNC = 0, BRG16 = 1 and
BRGH = (baudRate > 2400).  The divisions are those of C, truncating; a `baudRate` of 0
(undefined in C) gives 0 here. -/
def baudRateGenerator (baudRate : Int) : Int :=
  let sync : Bool := false
  let brg16 : Bool := true
  let brgh : Bool := decide (baudRate > 2400)
  let g0 : Int := Int.tdiv (XTAL_FREQ : Int) baudRate
  if !sync && !brg16 && !brgh then Int.tdiv g0 64
  else if !sync && (brg16 != brgh) then Int.tdiv g0 16
  else Int.tdiv g0 4

/-- Function `serialBegin(baudRate, receiveInterruptPriority)`: the register bits it
leaves.  `(byte)(baudRateGenerator >> 8)` and `(byte)baudRateGenerator` are the second and
the first byte of the two's-complement value. -/
def serialBegin (baudRate : Int) (receiveInterruptPriority : Nat) : Uart :=
  { TRISC6 := 0, TRISC7 := 1,
    SYNC := false, BRG16 := true, BRGH := decide (baudRate > 2400),
    SPBRGH := ((baudRateGenerator baudRate / 256) % 256).toNat,
    SPBRG := (baudRateGenerator baudRate % 256).toNat,
    SPEN := true, TXEN := true, CREN := true,
    RCIF := false, RCIE := true, RCIP := receiveInterruptPriority % 2 }

/-! ## Lemmas on lists -/

/-- Storing at index `n` and keeping the first `n + 1` elements. -/
theorem take_set_succ (l : List Nat) (n v : Nat) (h : n < l.length) :
    (l.set n v).take (n + 1) = l.take n ++ [v] := by
  induction l generalizing n with
  | nil => simp at h
  | cons a l ih =>
    cases n with
    | zero => simp
    | succ n =>
      simp only [List.length_cons, Nat.add_lt_add_iff_right] at h
      simp [ih n h]

/-! ## Lemmas on one activation of the engine -/

/-- The engine never changes the size of the buffer. -/
theorem step_buffer_length {α : Type} (cb : Callbacks α) (r : RxByte) (s : Serial α) :
    (step cb r s).serialBuffer.length = s.serialBuffer.length := by
  obtain ⟨c, f, o⟩ := r
  cases f <;> cases o <;> cases h : cb.serialOnReadLine <;>
    cases h2 : cb.serialOnReadChar <;>
    simp [step, processSerialReceive, dispatch, callReadChar, callReadLine, serialWrite,
      bufStore, h, h2] <;> split_ifs <;> simp

/-- Effect of an ordinary byte when the buffer has room. -/
theorem step_ordinary {α : Type} (cb : Callbacks α) (r : RxByte) (s : Serial α)
    (hf : r.ferr = false) (ho : isOrdinary r.c) (hl : s.serialBufferLen < 63) :
    (step cb r s).serialBufferLen = s.serialBufferLen + 1 ∧
    (step cb r s).serialBuffer = s.serialBuffer.set s.serialBufferLen r.c ∧
    (step cb r s).lines = s.lines ∧
    (step cb r s).serialLastChar = r.c ∧
    (step cb r s).access = s.access ++ [s.serialBufferLen] ∧
    (step cb r s).tx = (callReadChar cb r.c s).tx ++ [r.c] ∧
    (step cb r s).app = (callReadChar cb r.c s).app := by
  obtain ⟨c, f, o⟩ := r
  obtain ⟨h1, h2, h3, h4⟩ := ho
  simp only at hf h1 h2 h3 h4
  subst hf
  have hm : (s.serialBufferLen + 1) % 256 = s.serialBufferLen + 1 := by omega
  cases o <;> cases h : cb.serialOnReadChar <;>
    simp [step, processSerialReceive, dispatch, callReadChar, serialWrite,
      bufStore, h, h1, h2, h3, h4, hl, hm]

/-- Effect of CR, or of LF outside the CRLF case, with a line callback installed: the
whole state after the activation. -/
theorem step_newline {α : Type} (f : List Nat → Nat → α → α × List Nat)
    (g : Option (Nat → α → α × List Nat)) (r : RxByte) (s : Serial α)
    (hf : r.ferr = false) (hc : r.c = 13 ∨ r.c = 10)
    (hs : ¬ (r.c = 10 ∧ s.serialBufferLen = 0 ∧ s.serialLastChar = 13)) :
    step ⟨some f, g⟩ r s =
      { serialBuffer := (s.serialBuffer.set s.serialBufferLen 0).set 0 0,
        serialBufferLen := 0,
        serialLastChar := r.c,
        CREN := s.CREN || r.oerr,
        tx := s.tx ++ [10] ++
          (f (s.serialBuffer.set s.serialBufferLen 0) s.serialBufferLen s.app).2,
        lines := s.lines ++ [(s.serialBuffer.set s.serialBufferLen 0, s.serialBufferLen)],
        access := s.access ++ [s.serialBufferLen, 0],
        app := (f (s.serialBuffer.set s.serialBufferLen 0) s.serialBufferLen s.app).1 } := by
  obtain ⟨c, fe, o⟩ := r
  simp only at hf hc hs
  subst hf
  have h7 : c ≠ 127 := by omega
  cases o <;>
    simp [step, processSerialReceive, dispatch, callReadLine, serialWrite, bufStore, h7, hc, hs]

/-- Effect of LF right after CR on an empty buffer: only `serialLastChar` (and `CREN` on
overrun) is written. -/
theorem step_crlf_skip {α : Type} (cb : Callbacks α) (r : RxByte) (s : Serial α)
    (hf : r.ferr = false) (hc : r.c = 10) (h0 : s.serialBufferLen = 0)
    (hl : s.serialLastChar = 13) :
    step cb r s = { s with serialLastChar := 10, CREN := s.CREN || r.oerr } := by
  obtain ⟨c, fe, o⟩ := r
  simp only at hf hc
  subst hf hc
  cases o <;> simp [step, processSerialReceive, dispatch, h0, hl]

/-- Feeding ordinary bytes that fit: they are appended in order, no line is completed. -/
theorem feed_ordinary {α : Type} (cb : Callbacks α) (rs : List RxByte) :
    ∀ s : Serial α, s.serialBuffer.length = 64 →
      s.serialBufferLen + rs.length ≤ 63 →
      (∀ r ∈ rs, r.ferr = false ∧ isOrdinary r.c) →
      (feed cb rs s).serialBufferLen = s.serialBufferLen + rs.length ∧
      (feed cb rs s).serialBuffer =
        s.serialBuffer.take s.serialBufferLen ++ rs.map (fun r => r.c) ++
          s.serialBuffer.drop (s.serialBufferLen + rs.length) ∧
      (feed cb rs s).lines = s.lines := by
  induction rs with
  | nil => intro s _ _ _; simp [feed]
  | cons r rs ih =>
    intro s hb hn ho
    have hr := ho r (List.mem_cons_self _ _)
    simp only [List.length_cons] at hn
    have hl : s.serialBufferLen < 63 := by omega
    obtain ⟨e1, e2, e3, -, -, -, -⟩ := step_ordinary cb r s hr.1 hr.2 hl
    have hb1 : (step cb r s).serialBuffer.length = 64 := by
      rw [step_buffer_length]; exact hb
    have ih1 := ih (step cb r s) hb1 (by rw [e1]; omega)
      (fun x hx => ho x (List.mem_cons_of_mem _ hx))
    obtain ⟨i1, i2, i3⟩ := ih1
    have hfe : feed cb (r :: rs) s = feed cb rs (step cb r s) := rfl
    rw [hfe, i1, i2, i3, e1, e2, e3]
    refine ⟨?_, ?_, rfl⟩
    · simp only [List.length_cons]; omega
    · simp only [List.map_cons, List.length_cons]
      have ht : (s.serialBuffer.set s.serialBufferLen r.c).take (s.serialBufferLen + 1) =
          s.serialBuffer.take s.serialBufferLen ++ [r.c] := by
        exact take_set_succ _ _ _ (by omega)
      have hd : (s.serialBuffer.set s.serialBufferLen r.c).drop
          (s.serialBufferLen + 1 + rs.length) =
          s.serialBuffer.drop (s.serialBufferLen + (rs.length + 1)) := by
        rw [List.drop_set_of_lt _ _ (by omega)]
        congr 1; omega
      rw [ht, hd]; simp

/-- Feeding a concatenation is feeding its parts in turn. -/
theorem feed_append {α : Type} (cb : Callbacks α) (xs ys : List RxByte) :
    ∀ s : Serial α, feed cb (xs ++ ys) s = feed cb ys (feed cb xs s) := by
  induction xs with
  | nil => intro s; rfl
  | cons x xs ih => intro s; exact ih (step cb x s)

/-- Writing the terminator behind `cs` in a buffer that starts with `cs`. -/
theorem set_after_prefix (cs l : List Nat) (h : cs.length < l.length) :
    (cs ++ l.drop cs.length).set cs.length 0 = cs ++ 0 :: l.drop (cs.length + 1) := by
  rw [List.set_append_right _ _ (Nat.le_refl _), Nat.sub_self,
    List.drop_eq_getElem_cons h]
  rfl

/-- Ordinary bytes that fit, then a line feed that is not the second half of CR LF: one
call of the line callback with those bytes, NUL-terminated. -/
theorem feed_line {α : Type} (f : List Nat → Nat → α → α × List Nat)
    (g : Option (Nat → α → α × List Nat)) (rs : List RxByte) (lf : RxByte)
    (s : Serial α)
    (hbuf : s.serialBuffer.length = 64) (hlen : s.serialBufferLen = 0)
    (hn : rs.length ≤ 63) (hord : ∀ r ∈ rs, r.ferr = false ∧ isOrdinary r.c)
    (hlf : lf.c = 10 ∧ lf.ferr = false)
    (hcr : 1 ≤ rs.length ∨ s.serialLastChar ≠ 13) :
    (feed ⟨some f, g⟩ (rs ++ [lf]) s).lines =
      s.lines ++ [(rs.map (fun r => r.c) ++ 0 :: s.serialBuffer.drop (rs.length + 1),
                   rs.length)] ∧
    (feed ⟨some f, g⟩ (rs ++ [lf]) s).serialBufferLen = 0 := by
  obtain ⟨i1, i2, i3⟩ := feed_ordinary ⟨some f, g⟩ rs s hbuf (by omega) hord
  rw [hlen] at i1 i2
  simp only [Nat.zero_add, List.take_zero, List.nil_append] at i1 i2
  have hskip : ¬ (lf.c = 10 ∧ (feed ⟨some f, g⟩ rs s).serialBufferLen = 0 ∧
      (feed ⟨some f, g⟩ rs s).serialLastChar = 13) := by
    rintro ⟨-, h0, h13⟩
    rcases hcr with h | h
    · omega
    · have : rs = [] := List.length_eq_zero.mp (by omega)
      subst this
      exact h h13
  have hst := step_newline f g lf (feed ⟨some f, g⟩ rs s) hlf.2 (Or.inr hlf.1) hskip
  have hfe : feed ⟨some f, g⟩ (rs ++ [lf]) s = step ⟨some f, g⟩ lf (feed ⟨some f, g⟩ rs s) := by
    rw [feed_append]; rfl
  have hset := set_after_prefix (rs.map (fun r => r.c)) s.serialBuffer
    (by simp only [List.length_map]; omega)
  simp only [List.length_map] at hset
  rw [hfe, hst]
  refine ⟨?_, rfl⟩
  simp only [i1, i2, i3, hset]

/-! ## C1: line completion -/

/-- C1. From an empty line buffer, n <= 63 ordinary bytes received without framing error
and then one LF (with n >= 1, or the last recorded byte not CR) make exactly one call of
the line callback: its buffer argument holds the n bytes in order followed by NUL, its
length argument is n; afterwards the buffered length is 0. -/
theorem line_completion {α : Type} (f : List Nat → Nat → α → α × List Nat)
    (g : Option (Nat → α → α × List Nat)) (rs : List RxByte) (lf : RxByte)
    (s : Serial α)
    (hbuf : s.serialBuffer.length = 64) (hlen : s.serialBufferLen = 0)
    (hn : rs.length ≤ 63) (hord : ∀ r ∈ rs, r.ferr = false ∧ isOrdinary r.c)
    (hlf : lf.c = 10 ∧ lf.ferr = false)
    (hcr : 1 ≤ rs.length ∨ s.serialLastChar ≠ 13) :
    (feed ⟨some f, g⟩ (rs ++ [lf]) s).lines =
      s.lines ++ [(rs.map (fun r => r.c) ++ 0 :: s.serialBuffer.drop (rs.length + 1),
                   rs.length)] ∧
    (feed ⟨some f, g⟩ (rs ++ [lf]) s).serialBufferLen = 0 :=
  feed_line f g rs lf s hbuf hlen hn hord hlf hcr

/-- C1, witness: the bytes '9', '0', LF from the start-up state give one call with content
"90" followed by NUL and length 2. -/
theorem line_completion_witness :
    (feed mainCallbacks ([clean 57, clean 48] ++ [clean 10])
        (Serial.start (mainStart 0 0))).lines =
      [] ++ [([57, 48] ++ 0 :: List.replicate 61 0, 2)] ∧
    (feed mainCallbacks ([clean 57, clean 48] ++ [clean 10])
        (Serial.start (mainStart 0 0))).serialBufferLen = 0 :=
  line_completion onReadLine (some onReadChar) [clean 57, clean 48] (clean 10)
    (Serial.start (mainStart 0 0)) (by decide) rfl (by decide) (by decide) (by decide)
    (by decide)

/-! ## C2: CR LF gives one line -/

/-- C2. In every state, with a line callback installed, CR then LF (no framing error,
any overrun flags) call the line callback exactly once, on the CR; the LF activation
calls nothing, transmits nothing and leaves the buffer, its length (0) and the
application state as they were. -/
theorem crlf_one_line {α : Type} (f : List Nat → Nat → α → α × List Nat)
    (g : Option (Nat → α → α × List Nat)) (o1 o2 : Bool) (s : Serial α) :
    (step ⟨some f, g⟩ ⟨13, false, o1⟩ s).lines =
      s.lines ++ [(s.serialBuffer.set s.serialBufferLen 0, s.serialBufferLen)] ∧
    (step ⟨some f, g⟩ ⟨13, false, o1⟩ s).serialBufferLen = 0 ∧
    (feed ⟨some f, g⟩ [⟨13, false, o1⟩, ⟨10, false, o2⟩] s).lines =
      (step ⟨some f, g⟩ ⟨13, false, o1⟩ s).lines ∧
    (feed ⟨some f, g⟩ [⟨13, false, o1⟩, ⟨10, false, o2⟩] s).tx =
      (step ⟨some f, g⟩ ⟨13, false, o1⟩ s).tx ∧
    (feed ⟨some f, g⟩ [⟨13, false, o1⟩, ⟨10, false, o2⟩] s).serialBuffer =
      (step ⟨some f, g⟩ ⟨13, false, o1⟩ s).serialBuffer ∧
    (feed ⟨some f, g⟩ [⟨13, false, o1⟩, ⟨10, false, o2⟩] s).serialBufferLen = 0 ∧
    (feed ⟨some f, g⟩ [⟨13, false, o1⟩, ⟨10, false, o2⟩] s).app =
      (step ⟨some f, g⟩ ⟨13, false, o1⟩ s).app := by
  have h1 := step_newline f g ⟨13, false, o1⟩ s rfl (Or.inl rfl) (by simp)
  have h2 := step_crlf_skip ⟨some f, g⟩ ⟨10, false, o2⟩ (step ⟨some f, g⟩ ⟨13, false, o1⟩ s)
    rfl rfl (by rw [h1]) (by rw [h1])
  have hfe : feed ⟨some f, g⟩ [⟨13, false, o1⟩, ⟨10, false, o2⟩] s =
      step ⟨some f, g⟩ ⟨10, false, o2⟩ (step ⟨some f, g⟩ ⟨13, false, o1⟩ s) := rfl
  rw [hfe, h2]
  refine ⟨by rw [h1], by rw [h1], rfl, rfl, rfl, by rw [h1], rfl⟩

/-! ## C3: LF alone, LF after CR -/

set_option maxRecDepth 200000 in
/-- C3, as stated, fails for k = 64: after CR, sixty-four bytes 'a' and LF the second call
of the line callback carries sixty-three bytes (length argument 63), the sixty-fourth was
dropped. -/
theorem lf_after_cr_counterexample :
    (feed mainCallbacks (clean 13 :: (List.replicate 64 (clean 97) ++ [clean 10]))
        (Serial.start (mainStart 0 0))).lines =
      [(List.replicate 64 0, 0), (List.replicate 63 97 ++ [0], 63)] := by
  decide

/-- C3, amended. With a line callback installed, an LF received without framing error
leaves everything but the last-character record (and `CREN` on overrun) untouched exactly
when the buffer is empty and the last recorded byte is CR; in every other state it echoes
the newline, terminates the line, calls the callback with the buffer and length and
clears the length. CR, then k ordinary bytes with 1 <= k <= 63, then LF make two calls,
the second with exactly those k bytes followed by NUL and length k. -/
theorem lf_pairs_or_terminates {α : Type} (f : List Nat → Nat → α → α × List Nat)
    (g : Option (Nat → α → α × List Nat)) (o : Bool) (s : Serial α)
    (cr : RxByte) (rs : List RxByte) (lf : RxByte)
    (hbuf : s.serialBuffer.length = 64)
    (hcr : cr.c = 13 ∧ cr.ferr = false)
    (hk : 1 ≤ rs.length ∧ rs.length ≤ 63)
    (hord : ∀ r ∈ rs, r.ferr = false ∧ isOrdinary r.c)
    (hlf : lf.c = 10 ∧ lf.ferr = false) :
    (step ⟨some f, g⟩ ⟨10, false, o⟩ s =
        { s with serialLastChar := 10, CREN := s.CREN || o } ↔
      (s.serialBufferLen = 0 ∧ s.serialLastChar = 13)) ∧
    (¬ (s.serialBufferLen = 0 ∧ s.serialLastChar = 13) →
      (step ⟨some f, g⟩ ⟨10, false, o⟩ s).lines =
        s.lines ++ [(s.serialBuffer.set s.serialBufferLen 0, s.serialBufferLen)] ∧
      (step ⟨some f, g⟩ ⟨10, false, o⟩ s).tx = s.tx ++ [10] ++
        (f (s.serialBuffer.set s.serialBufferLen 0) s.serialBufferLen s.app).2 ∧
      (step ⟨some f, g⟩ ⟨10, false, o⟩ s).serialBufferLen = 0) ∧
    (feed ⟨some f, g⟩ (cr :: (rs ++ [lf])) s).lines =
      s.lines ++ [(s.serialBuffer.set s.serialBufferLen 0, s.serialBufferLen),
        (rs.map (fun r => r.c) ++
            0 :: ((s.serialBuffer.set s.serialBufferLen 0).set 0 0).drop (rs.length + 1),
          rs.length)] := by
  have hterm : ¬ (s.serialBufferLen = 0 ∧ s.serialLastChar = 13) →
      step ⟨some f, g⟩ ⟨10, false, o⟩ s = _ := fun h =>
    step_newline f g ⟨10, false, o⟩ s rfl (Or.inr rfl) (fun hh => h hh.2)
  refine ⟨⟨?_, ?_⟩, ?_, ?_⟩
  · intro h
    by_contra hne
    have e := congrArg Serial.lines ((hterm hne).symm.trans h)
    simp at e
  · rintro ⟨h0, h13⟩
    exact step_crlf_skip ⟨some f, g⟩ ⟨10, false, o⟩ s rfl rfl h0 h13
  · intro hne
    rw [hterm hne]
    exact ⟨rfl, rfl, rfl⟩
  · have h1 := step_newline f g cr s hcr.2 (Or.inl hcr.1) (by rw [hcr.1]; simp)
    have hb1 : (step ⟨some f, g⟩ cr s).serialBuffer.length = 64 := by
      rw [step_buffer_length]; exact hbuf
    have h2 := (feed_line f g rs lf (step ⟨some f, g⟩ cr s) hb1 (by rw [h1])
      hk.2 hord hlf (Or.inl hk.1)).1
    have hfe : feed ⟨some f, g⟩ (cr :: (rs ++ [lf])) s =
        feed ⟨some f, g⟩ (rs ++ [lf]) (step ⟨some f, g⟩ cr s) := rfl
    rw [hfe, h2, h1]
    simp

/-- C3, witness: CR, the byte 'a', LF from the start-up state. -/
theorem lf_pairs_or_terminates_witness :
    (feed mainCallbacks (clean 13 :: ([clean 97] ++ [clean 10]))
        (Serial.start (mainStart 0 0))).lines =
      [(List.replicate 64 0, 0), (97 :: 0 :: List.replicate 62 0, 1)] :=
  (lf_pairs_or_terminates onReadLine (some onReadChar) false (Serial.start (mainStart 0 0))
    (clean 13) [clean 97] (clean 10) (by decide) (by decide) (by decide) (by decide)
    (by decide)).2.2

/-! ## C4: backspace -/

/-- Effect of DEL on the buffered length. -/
theorem step_del_length {α : Type} (cb : Callbacks α) (r : RxByte) (s : Serial α)
    (hf : r.ferr = false) (hc : r.c = 0x7f) (hl : s.serialBufferLen ≤ 255) :
    (step cb r s).serialBufferLen = s.serialBufferLen - 1 := by
  obtain ⟨c, fe, o⟩ := r
  simp only at hf hc
  subst hf hc
  by_cases h0 : s.serialBufferLen = 0
  · cases o <;> simp [step, processSerialReceive, dispatch, h0]
  · have hm : (s.serialBufferLen + 255) % 256 = s.serialBufferLen - 1 := by omega
    cases o <;> simp [step, processSerialReceive, dispatch, serialWrite, bufStore, h0, hm]

/-- Printable characters reach the `default:` label. -/
theorem isOrdinary_of_isPrintable (c : Nat) (h : isPrintable c) : isOrdinary c := by
  unfold isPrintable at h
  unfold isOrdinary
  omega

set_option maxRecDepth 200000 in
/-- C4, as stated, fails for N = 64: sixty-four printable characters 'a' followed by DEL
leave a buffered length of 62, not 63, because the sixty-fourth character was dropped. -/
theorem backspace_counterexample :
    (feed mainCallbacks (List.replicate 64 (clean 97) ++ [clean 0x7f])
        (Serial.start (mainStart 0 0))).serialBufferLen = 62 := by
  decide

/-- C4, amended. From an empty buffer, N <= 63 printable characters received without
framing error followed by one DEL leave a buffered length of N - 1, and of 0 when N = 0
(truncated subtraction). -/
theorem backspace_length {α : Type} (cb : Callbacks α) (rs : List RxByte) (del : RxByte)
    (s : Serial α)
    (hbuf : s.serialBuffer.length = 64) (hlen : s.serialBufferLen = 0)
    (hn : rs.length ≤ 63) (hpr : ∀ r ∈ rs, r.ferr = false ∧ isPrintable r.c)
    (hdel : del.c = 0x7f ∧ del.ferr = false) :
    (feed cb (rs ++ [del]) s).serialBufferLen = rs.length - 1 := by
  have hord : ∀ r ∈ rs, r.ferr = false ∧ isOrdinary r.c := fun r hr =>
    ⟨(hpr r hr).1, isOrdinary_of_isPrintable _ (hpr r hr).2⟩
  obtain ⟨i1, -, -⟩ := feed_ordinary cb rs s hbuf (by omega) hord
  have hfe : feed cb (rs ++ [del]) s = step cb del (feed cb rs s) := by
    rw [feed_append]; rfl
  rw [hfe, step_del_length cb del _ hdel.2 hdel.1 (by omega), i1, hlen, Nat.zero_add]

/-- C4, witness: 'a', 'b', DEL from the start-up state leave one buffered character. -/
theorem backspace_length_witness :
    (feed mainCallbacks ([clean 97, clean 98] ++ [clean 0x7f])
        (Serial.start (mainStart 0 0))).serialBufferLen = 2 - 1 :=
  backspace_length mainCallbacks [clean 97, clean 98] (clean 0x7f)
    (Serial.start (mainStart 0 0)) (by decide) rfl (by decide) (by decide) (by decide)

/-! ## C5: the line buffer bound -/

/-- The line callback leaves length and index log alone. -/
theorem callReadLine_fields {α : Type} (cb : Callbacks α) (s : Serial α) :
    (callReadLine cb s).serialBufferLen = s.serialBufferLen ∧
    (callReadLine cb s).access = s.access := by
  unfold callReadLine
  cases cb.serialOnReadLine <;> exact ⟨rfl, rfl⟩

/-- The character callback leaves length and index log alone. -/
theorem callReadChar_fields {α : Type} (cb : Callbacks α) (c : Nat) (s : Serial α) :
    (callReadChar cb c s).serialBufferLen = s.serialBufferLen ∧
    (callReadChar cb c s).access = s.access := by
  unfold callReadChar
  cases cb.serialOnReadChar <;> exact ⟨rfl, rfl⟩

/-- The switch keeps the length at most 63 and every index used inside 0..63. -/
theorem dispatch_invariant {α : Type} (cb : Callbacks α) (c : Nat) (s : Serial α)
    (hl : s.serialBufferLen ≤ 63) (ha : ∀ i ∈ s.access, i < 64) :
    (dispatch cb c s).serialBufferLen ≤ 63 ∧ ∀ i ∈ (dispatch cb c s).access, i < 64 := by
  unfold dispatch
  by_cases h1 : c = 0x7f
  · rw [if_pos h1]
    by_cases h0 : s.serialBufferLen = 0
    · rw [if_pos h0]; exact ⟨hl, ha⟩
    · rw [if_neg h0]
      simp only [bufStore, serialWrite, List.mem_append, List.mem_singleton]
      refine ⟨by omega, fun i hi => ?_⟩
      rcases hi with hi | hi
      · exact ha i hi
      · omega
  · rw [if_neg h1]
    by_cases h2 : c = 13 ∨ c = 10
    · rw [if_pos h2]
      by_cases h3 : c = 10 ∧ s.serialBufferLen = 0 ∧ s.serialLastChar = 13
      · rw [if_pos h3]; exact ⟨hl, ha⟩
      · rw [if_neg h3]
        simp only [bufStore, List.mem_append, List.mem_singleton]
        refine ⟨Nat.zero_le _, fun i hi => ?_⟩
        rcases hi with hi | hi
        · rw [(callReadLine_fields cb _).2] at hi
          simp only [serialWrite, List.mem_append, List.mem_singleton] at hi
          rcases hi with hi | hi
          · exact ha i hi
          · omega
        · omega
    · rw [if_neg h2]
      by_cases h4 : c = 0xff
      · rw [if_pos h4]; exact ⟨hl, ha⟩
      · rw [if_neg h4]
        simp only
        obtain ⟨e1, e2⟩ := callReadChar_fields cb c s
        by_cases h5 : (callReadChar cb c s).serialBufferLen < 64 - 1
        · rw [if_pos h5]
          simp only [bufStore, serialWrite, List.mem_append, List.mem_singleton]
          rw [e1] at h5 ⊢
          rw [e2]
          refine ⟨by omega, fun i hi => ?_⟩
          rcases hi with hi | hi
          · exact ha i hi
          · omega
        · rw [if_neg h5, e1, e2]; exact ⟨hl, ha⟩

/-- One activation keeps the buffer at 64 bytes, the length at most 63 and every index
used inside 0..63. -/
theorem step_invariant {α : Type} (cb : Callbacks α) (r : RxByte) (s : Serial α)
    (h : s.serialBuffer.length = 64 ∧ s.serialBufferLen ≤ 63 ∧ ∀ i ∈ s.access, i < 64) :
    (step cb r s).serialBuffer.length = 64 ∧ (step cb r s).serialBufferLen ≤ 63 ∧
      ∀ i ∈ (step cb r s).access, i < 64 := by
  obtain ⟨hb, hl, ha⟩ := h
  refine ⟨by rw [step_buffer_length]; exact hb, ?_⟩
  obtain ⟨c, fe, o⟩ := r
  cases fe
  · cases o
    · exact dispatch_invariant cb c s hl ha
    · exact dispatch_invariant cb c { s with CREN := true } hl ha
  · cases o
    · exact ⟨hl, ha⟩
    · exact ⟨hl, ha⟩

/-- A run keeps the invariant of `step_invariant`. -/
theorem feed_invariant {α : Type} (cb : Callbacks α) (rs : List RxByte) :
    ∀ s : Serial α,
      (s.serialBuffer.length = 64 ∧ s.serialBufferLen ≤ 63 ∧ ∀ i ∈ s.access, i < 64) →
      (feed cb rs s).serialBuffer.length = 64 ∧ (feed cb rs s).serialBufferLen ≤ 63 ∧
        ∀ i ∈ (feed cb rs s).access, i < 64 := by
  induction rs with
  | nil => intro s h; exact h
  | cons r rs ih => intro s h; exact ih (step cb r s) (step_invariant cb r s h)

/-- C5. From the start-up state, after every finite sequence of received bytes with any
framing and overrun flags and with any callbacks, `serialBufferLen` is at most 63 and
every index of `serialBuffer` the engine has used lies in 0..63. -/
theorem line_buffer_bound {α : Type} (cb : Callbacks α) (a : α) (rs : List RxByte) :
    (feed cb rs (Serial.start a)).serialBufferLen ≤ 63 ∧
    ∀ i ∈ (feed cb rs (Serial.start a)).access, i ≤ 63 := by
  have h := feed_invariant cb rs (Serial.start a)
    ⟨by simp [Serial.start], by simp [Serial.start], by simp [Serial.start]⟩
  exact ⟨h.2.1, fun i hi => Nat.lt_succ_iff.mp (h.2.2 i hi)⟩

/-! ## C6: ordinary bytes, room and no room -/

/-- An ordinary byte on a full buffer only runs the character callback. -/
theorem step_ordinary_full {α : Type} (cb : Callbacks α) (r : RxByte) (s : Serial α)
    (hf : r.ferr = false) (ho : isOrdinary r.c) (hl : s.serialBufferLen = 63) :
    (step cb r s).serialBufferLen = s.serialBufferLen ∧
    (step cb r s).serialBuffer = s.serialBuffer ∧
    (step cb r s).lines = s.lines ∧
    (step cb r s).tx = (callReadChar cb r.c s).tx := by
  obtain ⟨c, f, o⟩ := r
  obtain ⟨h1, h2, h3, h4⟩ := ho
  simp only at hf h1 h2 h3 h4
  subst hf
  cases o <;> cases h : cb.serialOnReadChar <;>
    simp [step, processSerialReceive, dispatch, callReadChar, h, h1, h2, h3, h4, hl]

/-- A character callback that prints nothing leaves the transmit log alone. -/
theorem callReadChar_tx {α : Type} (cb : Callbacks α) (c : Nat) (s : Serial α)
    (hq : ∀ g, cb.serialOnReadChar = some g → ∀ x a, (g x a).2 = []) :
    (callReadChar cb c s).tx = s.tx := by
  unfold callReadChar
  cases h : cb.serialOnReadChar with
  | none => rfl
  | some g => simp [hq g h]

/-- C6. An ordinary byte c received without framing error, the character callback being
null or printing nothing: below 63 buffered characters c is stored at index len (it
becomes the last buffered character, the others stay), the length grows by exactly 1 and
exactly the one byte c is transmitted; at 63 the buffer and the length are unchanged,
nothing is transmitted and the line callback is not called. -/
theorem ordinary_byte {α : Type} (cb : Callbacks α) (c : Nat) (o : Bool) (s : Serial α)
    (hbuf : s.serialBuffer.length = 64) (hord : isOrdinary c)
    (hq : ∀ g, cb.serialOnReadChar = some g → ∀ x a, (g x a).2 = []) :
    (s.serialBufferLen < 63 →
      (step cb ⟨c, false, o⟩ s).serialBuffer = s.serialBuffer.set s.serialBufferLen c ∧
      (step cb ⟨c, false, o⟩ s).serialBuffer[s.serialBufferLen]? = some c ∧
      (step cb ⟨c, false, o⟩ s).serialBufferLen = s.serialBufferLen + 1 ∧
      (step cb ⟨c, false, o⟩ s).tx = s.tx ++ [c] ∧
      (step cb ⟨c, false, o⟩ s).lines = s.lines) ∧
    (s.serialBufferLen = 63 →
      (step cb ⟨c, false, o⟩ s).serialBuffer = s.serialBuffer ∧
      (step cb ⟨c, false, o⟩ s).serialBufferLen = s.serialBufferLen ∧
      (step cb ⟨c, false, o⟩ s).tx = s.tx ∧
      (step cb ⟨c, false, o⟩ s).lines = s.lines) := by
  constructor
  · intro hl
    obtain ⟨e1, e2, e3, -, -, e6, -⟩ := step_ordinary cb ⟨c, false, o⟩ s rfl hord hl
    refine ⟨e2, ?_, e1, ?_, e3⟩
    · rw [e2, List.getElem?_set_self (by omega)]
    · rw [e6, callReadChar_tx cb c s hq]
  · intro hl
    obtain ⟨e1, e2, e3, e4⟩ := step_ordinary_full cb ⟨c, false, o⟩ s rfl hord hl
    exact ⟨e2, e1, by rw [e4, callReadChar_tx cb c s hq], e3⟩

/-- C6, witness: the byte 'a' in the start-up state with the callbacks of `main`. -/
theorem ordinary_byte_witness :
    (step mainCallbacks ⟨97, false, false⟩ (Serial.start (mainStart 0 0))).serialBufferLen =
      0 + 1 ∧
    (step mainCallbacks ⟨97, false, false⟩ (Serial.start (mainStart 0 0))).tx = [] ++ [97] :=
  have h := (ordinary_byte mainCallbacks 97 false (Serial.start (mainStart 0 0)) (by decide)
    (by decide) (by intro g hg x a; cases hg; rfl)).1 (by decide)
  ⟨h.2.2.1, h.2.2.2.1⟩

/-! ## C7: framing errors -/

/-- C7, as stated, fails: the byte 'A' received with the framing-error flag set in the
start-up state is not recorded as last character. -/
theorem framing_error_counterexample :
    (step mainCallbacks ⟨65, true, false⟩ (Serial.start (mainStart 0 0))).serialLastChar
      ≠ 65 := by
  decide

/-- C7, amended. A byte received with the framing-error flag set is discarded whole:
buffer, length, transmit log, callback log, application state and also the last-character
record are unchanged; only `CREN` is set again when the overrun flag was set. -/
theorem framing_error_discards {α : Type} (cb : Callbacks α) (c : Nat) (o : Bool)
    (s : Serial α) :
    step cb ⟨c, true, o⟩ s = { s with CREN := s.CREN || o } ∧
    processSerialReceive cb (some ⟨c, true, o⟩) s = (true, step cb ⟨c, true, o⟩ s) := by
  cases o <;> simp [step, processSerialReceive]

/-! ## Lemmas on `atoi`, `printf` and `onReadLine` -/

/-- The `%d` conversion writes the usual decimal numeral. -/
theorem fmtD_eq (v : Int) : fmtD v = bytes (toString v) := by
  cases v with
  | ofNat m =>
    have h : ¬ ((m : Int) < 0) := Int.not_lt.mpr (Int.ofNat_nonneg m)
    simp [fmtD, h, natDigits, bytes, toString, Int.repr, Nat.repr, List.asString]
  | negSucc m =>
    have h : (Int.negSucc m) < 0 := Int.negSucc_lt_zero m
    have e : (-(Int.negSucc m)).toNat = m + 1 := by
      rw [Int.neg_negSucc]; rfl
    simp [fmtD, h, e, natDigits, bytes, toString, Int.repr, Nat.repr, List.asString]

/-- The digit loop stops at the terminating NUL. -/
theorem atoiDigits_cut (rest : List Nat) (ds : List Nat) :
    ∀ acc, atoiDigits (ds ++ 0 :: rest) acc = atoiDigits (ds ++ [0]) acc := by
  induction ds with
  | nil => intro acc; simp [atoiDigits]
  | cons d ds ih => intro acc; simp [atoiDigits, ih]

/-- Function `atoi` reads nothing behind the terminating NUL. -/
theorem atoi_cut (rest : List Nat) (ds : List Nat) :
    atoi (ds ++ 0 :: rest) = atoi (ds ++ [0]) := by
  unfold atoi
  congr 1
  induction ds with
  | nil => simp [isSpace, atoiSigned, atoiDigits]
  | cons d ds ih =>
    by_cases hsp : isSpace d = true
    · simpa [List.dropWhile, hsp] using ih
    · have e1 := atoiDigits_cut rest ds 0
      have e2 := atoiDigits_cut rest (d :: ds) 0
      simp only [List.cons_append] at e2
      simp only [List.cons_append, List.dropWhile, hsp, atoiSigned]
      simp only [List.append_eq, e1, e2]

/-- The angle computed from a line depends on the characters before the NUL only. -/
theorem uartAngle_cut (rest : List Nat) (ds : List Nat) :
    uartAngle (ds ++ 0 :: rest) = uartAngle (ds ++ [0]) := by
  cases ds with
  | nil =>
    have e := atoi_cut rest []
    simp only [List.nil_append] at e
    simp [uartAngle, e]
  | cons d ds =>
    have e1 := atoi_cut rest ds
    have e2 := atoi_cut rest (d :: ds)
    simp only [List.cons_append] at e2
    simp [uartAngle, e1, e2]

set_option maxRecDepth 100000 in
/-- Decimal numerals of -90..90: short, made of ordinary bytes, not starting with 'r', and
read back by the angle block as the number plus 90. -/
theorem decimal_angle (n : Int) (h1 : -90 ≤ n) (h2 : n ≤ 90) :
    uartAngle (bytes (toString n) ++ [0]) = n + 90 ∧
    (bytes (toString n)).length ≤ 63 ∧ 1 ≤ (bytes (toString n)).length ∧
    (∀ c ∈ bytes (toString n), isOrdinary c) ∧
    (bytes (toString n) ++ [0]).headD 0 ≠ 114 := by
  interval_cases n <;> decide

/-- Function `onReadLine` with only the angle mode enabled, on a line that is not the
reset command. -/
theorem onReadLine_angle (line : List Nat) (len : Nat) (a : App)
    (hr : line.headD 0 ≠ 114) (h1 : a.enableSetServoAngleUart = true)
    (h2 : a.enableUartToBinary = false) :
    (onReadLine line len a).1.currentServoAngle = uartAngle line ∧
    (onReadLine line len a).2 =
      bytes "Servo Angle:" ++ fmtD (uartAngle line) ++ bytes "\n" := by
  unfold onReadLine
  rw [if_neg hr]
  simp [h1, h2, uartServoAngle, setCCP1ServoAngle, setCCP1PwmDutyCycle]

/-- A character callback without effect leaves the state alone. -/
theorem callReadChar_quiet {α : Type} (cb : Callbacks α) (c : Nat) (s : Serial α)
    (hq : ∀ g, cb.serialOnReadChar = some g → ∀ x a, g x a = (a, [])) :
    callReadChar cb c s = s := by
  unfold callReadChar
  cases h : cb.serialOnReadChar with
  | none => rfl
  | some g => simp [hq g h]

/-- Feeding ordinary bytes that fit, the character callback having no effect: the bytes
are echoed and the application state stays. -/
theorem feed_ordinary_quiet {α : Type} (cb : Callbacks α)
    (hq : ∀ g, cb.serialOnReadChar = some g → ∀ x a, g x a = (a, []))
    (rs : List RxByte) :
    ∀ s : Serial α, s.serialBufferLen + rs.length ≤ 63 →
      (∀ r ∈ rs, r.ferr = false ∧ isOrdinary r.c) →
      (feed cb rs s).tx = s.tx ++ rs.map (fun r => r.c) ∧ (feed cb rs s).app = s.app := by
  induction rs with
  | nil => intro s _ _; simp [feed]
  | cons r rs ih =>
    intro s hn ho
    have hr := ho r (List.mem_cons_self _ _)
    simp only [List.length_cons] at hn
    obtain ⟨e1, -, -, -, -, e6, e7⟩ := step_ordinary cb r s hr.1 hr.2 (by omega)
    rw [callReadChar_quiet cb r.c s hq] at e6 e7
    obtain ⟨i1, i2⟩ := ih (step cb r s) (by rw [e1]; omega)
      (fun x hx => ho x (List.mem_cons_of_mem _ hx))
    have hfe : feed cb (r :: rs) s = feed cb rs (step cb r s) := rfl
    rw [hfe, i1, i2, e6, e7]
    simp

/-- The callbacks of `main`: the character callback has no effect. -/
theorem mainCallbacks_quiet :
    ∀ g, mainCallbacks.serialOnReadChar = some g → ∀ x a, g x a = (a, []) := by
  intro g hg x a
  cases hg
  rfl

/-! ## C8: the angle command end to end -/

/-- C8. With the angle mode enabled and the binary mode disabled, for every integer n in
-90..90, feeding the decimal numeral of n and LF from an empty buffer sets
`currentServoAngle` to n + 90 and transmits the echo of the numeral, the echoed newline
and then exactly the line "Servo Angle:" followed by the numeral of n + 90 and LF. -/
theorem angle_command (n : Int) (s : Serial App)
    (hn : -90 ≤ n ∧ n ≤ 90)
    (hbuf : s.serialBuffer.length = 64) (hlen : s.serialBufferLen = 0)
    (hmode : s.app.enableSetServoAngleUart = true ∧ s.app.enableUartToBinary = false) :
    (feed mainCallbacks ((bytes (toString n) ++ [10]).map clean) s).app.currentServoAngle
      = n + 90 ∧
    (feed mainCallbacks ((bytes (toString n) ++ [10]).map clean) s).tx =
      s.tx ++ bytes (toString n) ++ [10] ++
        (bytes "Servo Angle:" ++ bytes (toString (n + 90)) ++ bytes "\n") := by
  obtain ⟨d1, d2, d3, d4, d5⟩ := decimal_angle n hn.1 hn.2
  generalize bytes (toString n) = cs at d1 d2 d3 d4 d5 ⊢
  have hord : ∀ r ∈ cs.map clean, r.ferr = false ∧ isOrdinary r.c := by
    intro r hr
    obtain ⟨c, hc, rfl⟩ := List.mem_map.mp hr
    exact ⟨rfl, d4 c hc⟩
  have hmap : (cs.map clean).map (fun r => r.c) = cs := by
    simp [List.map_map, Function.comp_def, clean]
  have hl : (cs.map clean).length = cs.length := List.length_map _ _
  obtain ⟨i1, i2, -⟩ := feed_ordinary mainCallbacks (cs.map clean) s hbuf
    (by rw [hl]; omega) hord
  obtain ⟨q1, q2⟩ := feed_ordinary_quiet mainCallbacks mainCallbacks_quiet (cs.map clean) s
    (by rw [hl]; omega) hord
  rw [hmap] at i2 q1
  rw [hl, hlen, Nat.zero_add] at i1 i2
  simp only [List.take_zero, List.nil_append] at i2
  have hst := step_newline onReadLine (some onReadChar) (clean 10)
    (feed mainCallbacks (cs.map clean) s) rfl (Or.inr rfl)
    (by rintro ⟨-, h0, -⟩; rw [i1] at h0; omega)
  have hfe : feed mainCallbacks ((cs ++ [10]).map clean) s =
      step mainCallbacks (clean 10) (feed mainCallbacks (cs.map clean) s) := by
    rw [List.map_append, feed_append]; rfl
  have hset := set_after_prefix cs s.serialBuffer (by omega)
  have hcut := uartAngle_cut (s.serialBuffer.drop (cs.length + 1)) cs
  have hhead : (cs ++ 0 :: s.serialBuffer.drop (cs.length + 1)).headD 0 ≠ 114 := by
    cases cs with
    | nil => simp
    | cons c cs => simpa using d5
  obtain ⟨o1, o2⟩ := onReadLine_angle (cs ++ 0 :: s.serialBuffer.drop (cs.length + 1))
    cs.length s.app hhead hmode.1 hmode.2
  rw [hfe]
  change (step ⟨some onReadLine, some onReadChar⟩ (clean 10) _).app.currentServoAngle = _ ∧
    (step ⟨some onReadLine, some onReadChar⟩ (clean 10) _).tx = _
  rw [hst]
  simp only [i1, i2, q1, q2, hset, o1, o2, hcut, d1, fmtD_eq]
  exact ⟨trivial, by simp⟩

/-- C8, witness: "90" and LF from the start-up state give the reply "Servo Angle:180",
and "-90" gives "Servo Angle:0". -/
theorem angle_command_witness :
    (feed mainCallbacks ((bytes "90\n").map clean) (Serial.start (mainStart 0 0))).tx =
      bytes "90\nServo Angle:180\n" ∧
    (feed mainCallbacks ((bytes "-90\n").map clean) (Serial.start (mainStart 0 0))).tx =
      bytes "-90\nServo Angle:0\n" := by
  have h1 := (angle_command 90 (Serial.start (mainStart 0 0)) (by decide) (by decide) rfl
    (by decide)).2
  have h2 := (angle_command (-90) (Serial.start (mainStart 0 0)) (by decide) (by decide) rfl
    (by decide)).2
  have e1 : bytes (toString (-90 : Int)) ++ [10] = bytes "-90\n" := by decide
  have e2 : (Serial.start (mainStart 0 0)).tx ++ bytes (toString (-90 : Int)) ++ [10] ++
      (bytes "Servo Angle:" ++ bytes (toString ((-90 : Int) + 90)) ++ bytes "\n") =
      bytes "-90\nServo Angle:0\n" := by decide
  rw [e1, e2] at h2
  exact ⟨h1, h2⟩

/-! ## C9: the binary-display command -/

/-- The two clamping tests compute min(max(v, 0), 15). -/
theorem uartValue_eq (line : List Nat) : uartValue line = min (max (atoi line) 0) 15 := by
  unfold uartValue
  simp only
  split_ifs <;> omega

/-- Function `onReadLine` with only the binary mode enabled, on a line that is not the
reset command. -/
theorem onReadLine_binary (line : List Nat) (len : Nat) (a : App)
    (hr : line.headD 0 ≠ 114) (h1 : a.enableSetServoAngleUart = false)
    (h2 : a.enableUartToBinary = true) :
    onReadLine line len a = uartToBinary line a := by
  unfold onReadLine
  rw [if_neg hr]
  simp [h1, h2]

/-- C9, as stated, fails on the line "r": `atoi` parses it to 0, yet with only the binary
mode enabled `onReadLine` does not reply "Binary:0 -> 0000"; it runs the reset command. -/
theorem binary_command_counterexample :
    atoi (114 :: List.replicate 63 0) = 0 ∧
    (onReadLine (114 :: List.replicate 63 0) 1
        { mainStart 0 0 with enableSetServoAngleUart := false, enableUartToBinary := true }).2
      ≠ bytes "Binary:0 -> 0000\n" := by
  decide

/-- C9, amended. With only the binary mode enabled, for every line whose first character
is not 'r' and which `atoi` parses to v, `onReadLine` takes c = min(max(v, 0), 15), drives
RD0..RD3 to bits 0..3 of c and replies exactly "Binary:" c " -> " b3 b2 b1 b0 LF, the b
being the binary digits of c. -/
theorem binary_command (line : List Nat) (len : Nat) (a : App) (c : Int)
    (hmode : a.enableSetServoAngleUart = false ∧ a.enableUartToBinary = true)
    (hr : line.headD 0 ≠ 114)
    (hc : c = min (max (atoi line) 0) 15) :
    (onReadLine line len a).1.RD0 = c.toNat / 2 ^ 0 % 2 ∧
    (onReadLine line len a).1.RD1 = c.toNat / 2 ^ 1 % 2 ∧
    (onReadLine line len a).1.RD2 = c.toNat / 2 ^ 2 % 2 ∧
    (onReadLine line len a).1.RD3 = c.toNat / 2 ^ 3 % 2 ∧
    (onReadLine line len a).2 =
      bytes "Binary:" ++ bytes (toString c) ++ bytes " -> " ++
        [48 + c.toNat / 2 ^ 3 % 2, 48 + c.toNat / 2 ^ 2 % 2,
         48 + c.toNat / 2 ^ 1 % 2, 48 + c.toNat / 2 ^ 0 % 2] ++ bytes "\n" := by
  rw [onReadLine_binary line len a hr hmode.1 hmode.2]
  have hv := uartValue_eq line
  rw [← hc] at hv
  have h0 : 0 ≤ c := by omega
  have h15 : c ≤ 15 := by omega
  obtain ⟨n, rfl⟩ := Int.eq_ofNat_of_zero_le h0
  have hn : n ≤ 15 := by omega
  simp only [uartToBinary, led4Bit, hv, Int.toNat_ofNat, ← fmtD_eq]
  clear hv hc h0 h15
  interval_cases n <;> exact ⟨rfl, rfl, rfl, rfl, by decide⟩

/-- C9, witness: the line "20" is clamped to 15 and shown as 1111. -/
theorem binary_command_witness :
    (onReadLine (bytes "20" ++ List.replicate 62 0) 2
        { mainStart 0 0 with enableSetServoAngleUart := false, enableUartToBinary := true }).2
      = bytes "Binary:" ++ bytes (toString (15 : Int)) ++ bytes " -> " ++
        [48 + (15 : Int).toNat / 2 ^ 3 % 2, 48 + (15 : Int).toNat / 2 ^ 2 % 2,
         48 + (15 : Int).toNat / 2 ^ 1 % 2, 48 + (15 : Int).toNat / 2 ^ 0 % 2] ++
        bytes "\n" :=
  (binary_command (bytes "20" ++ List.replicate 62 0) 2
    { mainStart 0 0 with enableSetServoAngleUart := false, enableUartToBinary := true } 15
    (by decide) (by decide) (by decide)).2.2.2.2

/-! ## C10: the reset command -/

/-- Effect of the reset command in general: the reply is "Reset OK", seven variables take
their start-up values, and `currentServoAngle` and the four blink variables keep the
values they had. -/
theorem resetCommand_effect (line : List Nat) (len : Nat) (a : App)
    (hr : line.headD 0 = 114) :
    (onReadLine line len a).2 = bytes "Reset OK\n" ∧
    (onReadLine line len a).1.buttonClickCount = 0 ∧
    (onReadLine line len a).1.servoAngleState = 0 ∧
    (onReadLine line len a).1.servoTurnRangeState = 1 ∧
    (onReadLine line len a).1.seqLedSpeedState = 1 ∧
    (onReadLine line len a).1.seqLedPosition = 0 ∧
    (onReadLine line len a).1.seqLedCounter = 0 ∧
    (onReadLine line len a).1.seqLedThreshold = 1 ∧
    (onReadLine line len a).1.currentServoAngle = a.currentServoAngle ∧
    (onReadLine line len a).1.ledFlashCounter = a.ledFlashCounter ∧
    (onReadLine line len a).1.ledFlashThreshold = a.ledFlashThreshold ∧
    (onReadLine line len a).1.ledFlashState = a.ledFlashState ∧
    (onReadLine line len a).1.ledFlashZone = a.ledFlashZone := by
  unfold onReadLine
  rw [if_pos hr]
  unfold resetCommand
  cases a.enableBinaryButtonCount <;> simp [led4Bit]

set_option maxRecDepth 100000 in
/-- C10, the code at the failing input: with the configuration of `main`, the lines "90"
and "r" received from the start-up state leave `currentServoAngle` at 180, whereas `main`
gives it 0 at start-up; the reply to "r" is "Reset OK". -/
theorem reset_keeps_servo_angle :
    (feed mainCallbacks ((bytes "90\nr\n").map clean)
        (Serial.start (mainStart 0 0))).app.currentServoAngle = 180 ∧
    (mainStart 0 0).currentServoAngle = 0 ∧
    (feed mainCallbacks ((bytes "90\nr\n").map clean) (Serial.start (mainStart 0 0))).tx =
      bytes "90\nServo Angle:180\nr\nReset OK\n" := by
  decide

/-! ## Lemmas on the conversions of floating values -/

/-- Truncation of a non-negative value is its integer part. -/
theorem truncQ_of_nonneg (x : ℚ) (h : 0 ≤ x) : truncQ x = ⌊x⌋ := by
  unfold truncQ
  rw [if_pos h]

/-- Truncation toward zero is monotone. -/
theorem truncQ_mono (x y : ℚ) (h : x ≤ y) : truncQ x ≤ truncQ y := by
  unfold truncQ
  by_cases hx : 0 ≤ x
  · rw [if_pos hx, if_pos (le_trans hx h)]
    exact Int.floor_mono h
  · rw [if_neg hx]
    by_cases hy : 0 ≤ y
    · rw [if_pos hy]
      have h1 : ⌈x⌉ ≤ 0 := Int.ceil_le.mpr (by push_cast; linarith)
      have h2 : (0 : Int) ≤ ⌊y⌋ := Int.floor_nonneg.mpr hy
      exact le_trans h1 h2
    · rw [if_neg hy]
      exact Int.ceil_mono h

/-- A value in the range of the type converts to its integer part. -/
theorem castUnsigned_of_range (w : Nat) (x : ℚ) (h0 : 0 ≤ x) (h1 : x < 2 ^ w) :
    castUnsigned w x = some ⌊x⌋.toNat := by
  unfold castUnsigned
  rw [truncQ_of_nonneg x h0]
  have a0 : (0 : Int) ≤ ⌊x⌋ := Int.floor_nonneg.mpr h0
  have a1 : ⌊x⌋ < 2 ^ w := by
    rw [Int.floor_lt]
    push_cast
    exact h1
  rw [if_pos ⟨a0, a1⟩]

/-- A defined conversion returns the truncated value. -/
theorem castUnsigned_eq_some (w : Nat) (x : ℚ) (n : Nat) (h : castUnsigned w x = some n) :
    truncQ x = (n : Int) ∧ (n : Int) < 2 ^ w := by
  unfold castUnsigned at h
  split_ifs at h with hc
  simp only [Option.some.injEq] at h
  have e : truncQ x = (n : Int) := by rw [← h, Int.toNat_of_nonneg hc.1]
  exact ⟨e, by rw [← e]; exact hc.2⟩

/-- Defined conversions are monotone. -/
theorem castUnsigned_mono (w : Nat) (x y : ℚ) (a b : Nat) (h : x ≤ y)
    (hx : castUnsigned w x = some a) (hy : castUnsigned w y = some b) : a ≤ b := by
  have e1 := (castUnsigned_eq_some w x a hx).1
  have e2 := (castUnsigned_eq_some w y b hy).1
  have := truncQ_mono x y h
  omega

/-- A static assertion that passes bounds its operand. -/
theorem staticAssertLe_lt (x : ℚ) (limit : Nat) (h : staticAssertLe x limit = true) :
    x < (limit : ℚ) + 1 := by
  unfold staticAssertLe at h
  cases hc : castUnsigned 32 x with
  | none => rw [hc] at h; simp at h
  | some n =>
    rw [hc] at h
    simp only [decide_eq_true_eq] at h
    have e := (castUnsigned_eq_some 32 x n hc).1
    by_cases hx : 0 ≤ x
    · rw [truncQ_of_nonneg x hx] at e
      have h2 : ⌊x⌋ < (limit : Int) + 1 := by omega
      have h3 := Int.floor_lt.mp h2
      push_cast at h3
      exact h3
    · have : (0 : ℚ) ≤ (limit : ℚ) := Nat.cast_nonneg _
      linarith

/-- With the 4 MHz clock the number of prescaled cycles is `period / prescale`. -/
theorem timerCounts_eq (p s : ℚ) : timerCounts p s = p / s := by
  unfold timerCounts XTAL_FREQ
  norm_num
  ring

/-- With the 4 MHz clock one tick lasts one microsecond. -/
theorem tickUs_eq : tickUs = 1 := by
  unfold tickUs XTAL_FREQ
  norm_num

/-! ## Lemmas on rounding to binary64 -/

/-- Rounding to the nearest integer goes up by at most one half. -/
theorem roundHalfEven_le (y : ℚ) : (roundHalfEven y : ℚ) ≤ y + 1 / 2 := by
  have h1 := Int.floor_le y
  have h2 := Int.lt_floor_add_one y
  unfold roundHalfEven
  split_ifs <;> push_cast <;> linarith

/-- Rounding to the nearest integer goes down by at most one half. -/
theorem roundHalfEven_ge (y : ℚ) : y - 1 / 2 ≤ (roundHalfEven y : ℚ) := by
  have h1 := Int.floor_le y
  have h2 := Int.lt_floor_add_one y
  unfold roundHalfEven
  split_ifs <;> push_cast <;> linarith

/-- An integer rounds to itself. -/
theorem roundHalfEven_intCast (n : Int) : roundHalfEven (n : ℚ) = n := by
  unfold roundHalfEven
  rw [Int.floor_intCast]
  norm_num

/-- Rounding to the nearest integer is monotone. -/
theorem roundHalfEven_mono (x y : ℚ) (h : x ≤ y) : roundHalfEven x ≤ roundHalfEven y := by
  by_contra hlt
  push_neg at hlt
  have h1 := roundHalfEven_le x
  have h2 := roundHalfEven_ge y
  have h3 : (roundHalfEven y : ℚ) + 1 ≤ (roundHalfEven x : ℚ) := by exact_mod_cast hlt
  have hxy : x = y := by linarith
  rw [hxy] at hlt
  exact lt_irrefl _ hlt

/-- Powers of two are positive. -/
theorem two_zpow_pos (k : Int) : (0 : ℚ) < 2 ^ k := by positivity

/-- A power of two with a natural exponent is an integer. -/
theorem two_zpow_intCast (k : Int) (hk : 0 ≤ k) : ((2 : ℚ) ^ k) = ((2 ^ k.toNat : Int) : ℚ) := by
  obtain ⟨n, rfl⟩ := Int.eq_ofNat_of_zero_le hk
  simp

/-- The binary exponent of a positive value. -/
theorem log_bounds (x : ℚ) (hx : 0 < x) :
    (2 : ℚ) ^ Int.log 2 x ≤ x ∧ x < (2 : ℚ) ^ (Int.log 2 x + 1) := by
  have h1 := Int.zpow_log_le_self (b := 2) (r := x) (by norm_num) hx
  have h2 := Int.lt_zpow_succ_log_self (b := 2) (by norm_num) x
  simp only [Nat.cast_ofNat] at h1 h2
  exact ⟨h1, h2⟩

/-- Zero is a binary64 number. -/
theorem roundDouble_zero : roundDouble 0 = 0 := by
  unfold roundDouble
  simp [roundHalfEven]

/-- A nonnegative value rounds to a nonnegative binary64 number. -/
theorem roundDouble_nonneg (x : ℚ) (hx : 0 ≤ x) : 0 ≤ roundDouble x := by
  unfold roundDouble
  have hq := two_zpow_pos (ulpExp x)
  have h0 : (0 : ℚ) ≤ x / 2 ^ ulpExp x := div_nonneg hx hq.le
  have h1 := roundHalfEven_mono 0 _ h0
  have h2 : roundHalfEven 0 = 0 := by simpa using roundHalfEven_intCast 0
  rw [h2] at h1
  have : (0 : ℚ) ≤ (roundHalfEven (x / 2 ^ ulpExp x) : ℚ) := by exact_mod_cast h1
  positivity

/-- A value that is not positive rounds to a binary64 number that is not positive. -/
theorem roundDouble_nonpos (x : ℚ) (hx : x ≤ 0) : roundDouble x ≤ 0 := by
  unfold roundDouble
  have hq := two_zpow_pos (ulpExp x)
  have h0 : x / 2 ^ ulpExp x ≤ 0 := div_nonpos_of_nonpos_of_nonneg hx hq.le
  have h1 := roundHalfEven_mono _ 0 h0
  have h2 : roundHalfEven 0 = 0 := by simpa using roundHalfEven_intCast 0
  rw [h2] at h1
  have : (roundHalfEven (x / 2 ^ ulpExp x) : ℚ) ≤ 0 := by exact_mod_cast h1
  exact mul_nonpos_of_nonpos_of_nonneg this hq.le

/-- A value that is an integer multiple of its unit in the last place is kept. -/
theorem roundDouble_of_multiple (x : ℚ) (n : Int) (h : x = n * 2 ^ ulpExp x) :
    roundDouble x = x := by
  have hq := two_zpow_pos (ulpExp x)
  unfold roundDouble
  have e : x / 2 ^ ulpExp x = (n : ℚ) := by
    rw [div_eq_iff hq.ne']
    exact h
  rw [e, roundHalfEven_intCast]
  exact h.symm

/-- A number m * 2^j with fewer than 54 significant bits and an exponent of at least
-1074 is a binary64 number (or overflows). -/
theorem roundDouble_dyadic (m j : Int) (hm : |m| < 2 ^ 53) (hj : -1074 ≤ j) :
    roundDouble ((m : ℚ) * 2 ^ j) = (m : ℚ) * 2 ^ j := by
  by_cases h0 : m = 0
  · subst h0
    simp [roundDouble_zero]
  have hpos : (0 : ℚ) < |(m : ℚ) * 2 ^ j| := by
    rw [abs_pos]
    have : (m : ℚ) ≠ 0 := by exact_mod_cast h0
    have := (two_zpow_pos j).ne'
    positivity
  have hlt : |(m : ℚ) * 2 ^ j| < (2 : ℚ) ^ (53 + j) := by
    rw [abs_mul, abs_of_pos (two_zpow_pos j), zpow_add₀ (by norm_num : (2 : ℚ) ≠ 0)]
    have hm' : |(m : ℚ)| < 2 ^ (53 : ℤ) := by
      have : ((|m| : Int) : ℚ) < ((2 ^ 53 : Int) : ℚ) := by exact_mod_cast hm
      push_cast at this
      exact_mod_cast this
    exact mul_lt_mul_of_pos_right hm' (two_zpow_pos j)
  have hlog : Int.log 2 |(m : ℚ) * 2 ^ j| < 53 + j := by
    rw [← Int.lt_zpow_iff_log_lt (by norm_num) hpos]
    simpa using hlt
  have hu : ulpExp ((m : ℚ) * 2 ^ j) ≤ j := by
    unfold ulpExp
    apply max_le <;> omega
  apply roundDouble_of_multiple _ (m * 2 ^ (j - ulpExp ((m : ℚ) * 2 ^ j)).toNat)
  have hd : 0 ≤ j - ulpExp ((m : ℚ) * 2 ^ j) := by omega
  push_cast
  rw [mul_assoc]
  congr 1
  have := two_zpow_intCast _ hd
  push_cast at this
  rw [← this, ← zpow_add₀ (by norm_num : (2 : ℚ) ≠ 0)]
  congr 1
  ring

/-- Integers of magnitude below 2^53 are binary64 numbers. -/
theorem roundDouble_intCast (n : Int) (hn : |n| < 2 ^ 53) : roundDouble (n : ℚ) = n := by
  have := roundDouble_dyadic n 0 hn (by norm_num)
  simpa using this

/-- Rounding does not pass a multiple of the unit in the last place from below. -/
theorem roundDouble_le_of_le_multiple (x : ℚ) (n : Int) (h : x ≤ n * 2 ^ ulpExp x) :
    roundDouble x ≤ n * 2 ^ ulpExp x := by
  have hq := two_zpow_pos (ulpExp x)
  unfold roundDouble
  have h1 : x / 2 ^ ulpExp x ≤ (n : ℚ) := by
    rw [div_le_iff₀ hq]
    exact h
  have h2 := roundHalfEven_mono _ _ h1
  rw [roundHalfEven_intCast] at h2
  have h3 : (roundHalfEven (x / 2 ^ ulpExp x) : ℚ) ≤ (n : ℚ) := by exact_mod_cast h2
  exact mul_le_mul_of_nonneg_right h3 hq.le

/-- Rounding does not pass a multiple of the unit in the last place from above. -/
theorem roundDouble_ge_of_ge_multiple (x : ℚ) (n : Int) (h : (n : ℚ) * 2 ^ ulpExp x ≤ x) :
    (n : ℚ) * 2 ^ ulpExp x ≤ roundDouble x := by
  have hq := two_zpow_pos (ulpExp x)
  unfold roundDouble
  have h1 : (n : ℚ) ≤ x / 2 ^ ulpExp x := by
    rw [le_div_iff₀ hq]
    exact h
  have h2 := roundHalfEven_mono _ _ h1
  rw [roundHalfEven_intCast] at h2
  have h3 : (n : ℚ) ≤ (roundHalfEven (x / 2 ^ ulpExp x) : ℚ) := by exact_mod_cast h2
  exact mul_le_mul_of_nonneg_right h3 hq.le

/-- A power of two as a multiple of a smaller power of two. -/
theorem two_zpow_multiple (k u : Int) (h : u ≤ k) :
    (2 : ℚ) ^ k = ((2 ^ (k - u).toNat : Int) : ℚ) * 2 ^ u := by
  rw [← two_zpow_intCast _ (by omega), ← zpow_add₀ (by norm_num : (2 : ℚ) ≠ 0)]
  congr 1
  ring

/-- Rounding is monotone on the positive values. -/
theorem roundDouble_mono_pos (x y : ℚ) (hx : 0 < x) (h : x ≤ y) :
    roundDouble x ≤ roundDouble y := by
  have hy : 0 < y := lt_of_lt_of_le hx h
  have hle : Int.log 2 x ≤ Int.log 2 y := Int.log_mono_right hx h
  obtain ⟨-, bx2⟩ := log_bounds x hx
  obtain ⟨by1, -⟩ := log_bounds y hy
  have ux : ulpExp x = max (Int.log 2 x - 52) (-1074) := by
    unfold ulpExp; rw [abs_of_pos hx]
  have uy : ulpExp y = max (Int.log 2 y - 52) (-1074) := by
    unfold ulpExp; rw [abs_of_pos hy]
  by_cases heq : ulpExp x = ulpExp y
  · unfold roundDouble
    rw [heq]
    have hq := two_zpow_pos (ulpExp y)
    have h1 : x / 2 ^ ulpExp y ≤ y / 2 ^ ulpExp y := div_le_div_of_nonneg_right h hq.le
    have h2 := roundHalfEven_mono _ _ h1
    have h3 : (roundHalfEven (x / 2 ^ ulpExp y) : ℚ) ≤ (roundHalfEven (y / 2 ^ ulpExp y) : ℚ) := by
      exact_mod_cast h2
    exact mul_le_mul_of_nonneg_right h3 hq.le
  · have hlt : ulpExp x < ulpExp y := by
      rw [ux, uy] at heq ⊢
      omega
    have huy : ulpExp y = Int.log 2 y - 52 := by
      rw [ux, uy] at hlt
      rw [uy]
      omega
    have hex : Int.log 2 x + 1 ≤ Int.log 2 y := by
      rw [ux, uy] at hlt
      omega
    have hux : ulpExp x ≤ Int.log 2 y := by omega
    have hpow : (2 : ℚ) ^ (Int.log 2 x + 1) ≤ 2 ^ Int.log 2 y :=
      zpow_le_zpow_right₀ (by norm_num) hex
    have m1 := two_zpow_multiple (Int.log 2 y) (ulpExp x) hux
    have m2 := two_zpow_multiple (Int.log 2 y) (ulpExp y) (by omega)
    have up : roundDouble x ≤ 2 ^ Int.log 2 y := by
      have := roundDouble_le_of_le_multiple x _ (by rw [← m1]; linarith)
      rw [← m1] at this
      exact this
    have lo : (2 : ℚ) ^ Int.log 2 y ≤ roundDouble y := by
      have := roundDouble_ge_of_ge_multiple y _ (by rw [← m2]; exact by1)
      rw [← m2] at this
      exact this
    exact le_trans up lo

/-- Rounding is monotone below a nonnegative value. -/
theorem roundDouble_mono (x y : ℚ) (hy : 0 ≤ y) (h : x ≤ y) :
    roundDouble x ≤ roundDouble y := by
  by_cases hx : 0 < x
  · exact roundDouble_mono_pos x y hx h
  · exact le_trans (roundDouble_nonpos x (by linarith)) (roundDouble_nonneg y hy)

/-! ## Lemmas on the timer macros in double arithmetic -/

/-- A defined `double` result is the rounded value, of magnitude below 2^1024. -/
theorem toDouble_eq_some (x y : ℚ) (h : toDouble x = some y) :
    y = roundDouble x ∧ |y| < 2 ^ 1024 := by
  unfold toDouble at h
  split_ifs at h with hc
  simp only [Option.some.injEq] at h
  rw [← h]
  exact ⟨rfl, hc⟩

/-- A binary64 number of magnitude below 2^1024 is the result of its own conversion. -/
theorem toDouble_of_exact (x : ℚ) (h : roundDouble x = x) (hb : |x| < 2 ^ 1024) :
    toDouble x = some x := by
  unfold toDouble
  rw [h, if_pos hb]

/-- A rounded value between 0 and a natural number below 2^64 is a finite result. -/
theorem toDouble_of_bounds (x : ℚ) (b : Nat) (h0 : 0 ≤ roundDouble x)
    (h1 : roundDouble x ≤ b) (hb : b < 2 ^ 64) : toDouble x = some (roundDouble x) := by
  unfold toDouble
  have h2 : ((b : ℚ)) < 2 ^ 64 := by exact_mod_cast hb
  have h3 : (2 : ℚ) ^ 64 ≤ 2 ^ 1024 := pow_le_pow_right₀ (by norm_num) (by norm_num)
  rw [if_pos]
  rw [abs_of_nonneg h0]
  linarith

/-- A number m * 2^j with |m| < 2^53 and -1074 <= j <= 900 is the result of its own
conversion. -/
theorem toDouble_dyadic (x : ℚ) (m j : Int) (hx : x = (m : ℚ) * 2 ^ j) (hm : |m| < 2 ^ 53)
    (hj : -1074 ≤ j) (hj2 : j ≤ 900) : toDouble x = some x := by
  have e : roundDouble x = x := by rw [hx]; exact roundDouble_dyadic m j hm hj
  apply toDouble_of_exact x e
  have h1 : |(m : ℚ)| < 2 ^ 53 := by
    have : ((|m| : Int) : ℚ) < ((2 ^ 53 : Int) : ℚ) := Int.cast_lt.mpr hm
    simpa using this
  have h2 : (2 : ℚ) ^ j ≤ 2 ^ ((900 : Nat) : Int) :=
    zpow_le_zpow_right₀ (by norm_num) (by omega)
  rw [zpow_natCast] at h2
  have h3 : |x| = |(m : ℚ)| * 2 ^ j := by
    rw [hx, abs_mul, abs_of_pos (two_zpow_pos j)]
  have h4 : |(m : ℚ)| * 2 ^ j ≤ 2 ^ 53 * 2 ^ 900 :=
    mul_le_mul h1.le h2 (two_zpow_pos j).le (by positivity)
  have h5 : (2 : ℚ) ^ 53 * 2 ^ 900 < 2 ^ 1024 := by
    rw [← pow_add]
    exact pow_lt_pow_right₀ (by norm_num) (by norm_num)
  rw [h3]
  linarith

/-- A defined division is the rounded quotient by a non-zero divisor. -/
theorem dDiv_eq_some (x y z : ℚ) (h : dDiv x y = some z) :
    y ≠ 0 ∧ z = roundDouble (x / y) := by
  unfold dDiv at h
  split_ifs at h with hy
  exact ⟨hy, (toDouble_eq_some _ _ h).1⟩

/-- The constant `1000000.0 / _XTAL_FREQ` is 0.25. -/
theorem dDiv_quarter : dDiv 1000000 (XTAL_FREQ : ℚ) = some (1 / 4) := by
  unfold dDiv XTAL_FREQ
  rw [if_neg (by norm_num)]
  have e : (1000000 : ℚ) / ((4000000 : Nat) : ℚ) = 1 / 4 := by norm_num
  rw [e]
  exact toDouble_dyadic (1 / 4) 1 (-2) (by norm_num) (by norm_num) (by norm_num) (by norm_num)

/-- A binary64 number is m * 2^j with |m| < 2^53 and j >= -1074. -/
theorem double_form (x : ℚ) (h : roundDouble x = x) :
    ∃ m j : Int, |m| < 2 ^ 53 ∧ -1074 ≤ j ∧ x = (m : ℚ) * 2 ^ j := by
  refine ⟨roundHalfEven (x / 2 ^ ulpExp x), ulpExp x, ?_, le_max_right _ _, ?_⟩
  · by_cases hx : x = 0
    · rw [hx, zero_div]
      have : roundHalfEven 0 = 0 := by
        have := roundHalfEven_intCast 0
        simpa using this
      rw [this]
      norm_num
    · have hpos : 0 < |x| := abs_pos.mpr hx
      have hl := (log_bounds |x| hpos).2
      have hu : Int.log 2 |x| + 1 ≤ ulpExp x + 53 := by
        have : Int.log 2 |x| - 52 ≤ ulpExp x := le_max_left _ _
        omega
      have h2 : (2 : ℚ) ^ (Int.log 2 |x| + 1) ≤ 2 ^ (ulpExp x + 53) :=
        zpow_le_zpow_right₀ (by norm_num) hu
      have h3 : (2 : ℚ) ^ (ulpExp x + 53) = 2 ^ 53 * 2 ^ ulpExp x := by
        rw [zpow_add₀ (by norm_num)]
        have : (2 : ℚ) ^ (53 : Int) = 2 ^ 53 := zpow_ofNat 2 53
        rw [this, mul_comm]
      have h4 : |x| = |((roundHalfEven (x / 2 ^ ulpExp x) : Int) : ℚ)| * 2 ^ ulpExp x := by
        conv_lhs => rw [← h]
        unfold roundDouble
        rw [abs_mul, abs_of_pos (two_zpow_pos _)]
      have h5 : |((roundHalfEven (x / 2 ^ ulpExp x) : Int) : ℚ)| * 2 ^ ulpExp x
          < 2 ^ 53 * 2 ^ ulpExp x := by
        rw [← h4]; linarith
      have h6 := lt_of_mul_lt_mul_right h5 (two_zpow_pos _).le
      rw [← Int.cast_abs] at h6
      exact_mod_cast h6
  · conv_lhs => rw [← h]
    unfold roundDouble
    rfl

/-- A binary64 number times a power of two with a nonnegative exponent is a binary64
number (before the test for overflow). -/
theorem roundDouble_scale (x : ℚ) (k : Nat) (h : roundDouble x = x) :
    roundDouble (2 ^ k * x) = 2 ^ k * x := by
  obtain ⟨m, j, hm, hj, e⟩ := double_form x h
  have e2 : (2 : ℚ) ^ k * x = (m : ℚ) * 2 ^ (j + k) := by
    rw [e, zpow_add₀ (by norm_num), zpow_natCast]
    ring
  rw [e2]
  exact roundDouble_dyadic m (j + k) hm (by omega)

/-- Rounding keeps a value between two integers of magnitude below 2^53 between them. -/
theorem roundDouble_between (x : ℚ) (a b : Int) (h0 : 0 ≤ a) (hb : b < 2 ^ 53)
    (h1 : (a : ℚ) ≤ x) (h2 : x ≤ b) : (a : ℚ) ≤ roundDouble x ∧ roundDouble x ≤ b := by
  have hx0 : (0 : ℚ) ≤ x := le_trans (by exact_mod_cast h0) h1
  have hb0 : (0 : ℚ) ≤ b := le_trans hx0 h2
  have hab : (a : ℚ) ≤ b := le_trans h1 h2
  have hab2 : a ≤ b := by exact_mod_cast hab
  have hbz : (0 : Int) ≤ b := by exact_mod_cast hb0
  have ea : roundDouble (a : ℚ) = a := roundDouble_intCast a (by rw [abs_of_nonneg h0]; omega)
  have eb : roundDouble (b : ℚ) = b := roundDouble_intCast b (by rw [abs_of_nonneg hbz]; omega)
  constructor
  · rw [← ea]; exact roundDouble_mono _ _ hx0 h1
  · rw [← eb]; exact roundDouble_mono _ _ hb0 h2

/-- A defined cycle count is the chain of the four rounded divisions, by a non-zero
prescale. -/
theorem timerCountsD_eq_some (p s t : ℚ) (h : timerCountsD p s = some t) :
    roundDouble s ≠ 0 ∧
    t = roundDouble (roundDouble (roundDouble (roundDouble p / (1 / 4)) / 4) /
      roundDouble s) := by
  unfold timerCountsD at h
  simp only [Option.bind_eq_some] at h
  obtain ⟨p', hp, s', hs, c, hc, t2, h2, t3, h3, h4⟩ := h
  rw [dDiv_quarter] at hc
  simp only [Option.some.injEq] at hc
  have e1 := (toDouble_eq_some _ _ hp).1
  have e2 := (toDouble_eq_some _ _ hs).1
  have e3 := (dDiv_eq_some _ _ _ h2).2
  have e4 := (dDiv_eq_some _ _ _ h3).2
  obtain ⟨n5, e5⟩ := dDiv_eq_some _ _ _ h4
  rw [e2] at n5
  refine ⟨n5, ?_⟩
  rw [e5, e4, e3, ← hc, e1, e2]

/-- The chain of rounded divisions is monotone in the period. -/
theorem counts_chain_mono (p1 p2 s : ℚ) (hs : 0 < s) (hp2 : 0 ≤ p2) (hp : p1 ≤ p2) :
    roundDouble (roundDouble (roundDouble (roundDouble p1 / (1 / 4)) / 4) / s) ≤
    roundDouble (roundDouble (roundDouble (roundDouble p2 / (1 / 4)) / 4) / s) := by
  have a0 : 0 ≤ roundDouble p2 := roundDouble_nonneg p2 hp2
  have a1 : roundDouble p1 ≤ roundDouble p2 := roundDouble_mono p1 p2 hp2 hp
  have b0' : 0 ≤ roundDouble p2 / (1 / 4) := div_nonneg a0 (by norm_num)
  have b0 := roundDouble_nonneg _ b0'
  have b1 := roundDouble_mono _ _ b0'
    (div_le_div_of_nonneg_right a1 (by norm_num : (0 : ℚ) ≤ 1 / 4))
  have c0' : 0 ≤ roundDouble (roundDouble p2 / (1 / 4)) / 4 := div_nonneg b0 (by norm_num)
  have c0 := roundDouble_nonneg _ c0'
  have c1 := roundDouble_mono _ _ c0'
    (div_le_div_of_nonneg_right b1 (by norm_num : (0 : ℚ) ≤ 4))
  have d0' : 0 ≤ roundDouble (roundDouble (roundDouble p2 / (1 / 4)) / 4) / s :=
    div_nonneg c0 hs.le
  exact roundDouble_mono _ _ d0' (div_le_div_of_nonneg_right c1 hs.le)

/-- The chain of rounded divisions of a period that is not positive is not positive. -/
theorem counts_chain_nonpos (p s : ℚ) (hs : 0 < s) (hp : p ≤ 0) :
    roundDouble (roundDouble (roundDouble (roundDouble p / (1 / 4)) / 4) / s) ≤ 0 := by
  have a0 : roundDouble p ≤ 0 := roundDouble_nonpos p hp
  have b0 := roundDouble_nonpos _ (div_nonpos_of_nonpos_of_nonneg a0 (by norm_num : (0 : ℚ) ≤ 1 / 4))
  have c0 := roundDouble_nonpos _ (div_nonpos_of_nonpos_of_nonneg b0 (by norm_num : (0 : ℚ) ≤ 4))
  exact roundDouble_nonpos _ (div_nonpos_of_nonpos_of_nonneg c0 hs.le)

/-- The rounded value of a positive prescale that divides is positive. -/
theorem prescale_pos (s : ℚ) (hs : 0 < s) (h : roundDouble s ≠ 0) : 0 < roundDouble s :=
  lt_of_le_of_ne (roundDouble_nonneg s hs.le) (Ne.symm h)

/-- Defined cycle counts are monotone in the period. -/
theorem timerCountsD_mono (p1 p2 s t1 t2 : ℚ) (hs : 0 < s) (hp2 : 0 ≤ p2) (hp : p1 ≤ p2)
    (h1 : timerCountsD p1 s = some t1) (h2 : timerCountsD p2 s = some t2) : t1 ≤ t2 := by
  obtain ⟨n1, e1⟩ := timerCountsD_eq_some p1 s t1 h1
  obtain ⟨_, e2⟩ := timerCountsD_eq_some p2 s t2 h2
  rw [e1, e2]
  exact counts_chain_mono p1 p2 _ (prescale_pos s hs n1) hp2 hp

/-- A defined cycle count of a period that is not positive is not positive. -/
theorem timerCountsD_nonpos (p s t : ℚ) (hs : 0 < s) (hp : p ≤ 0)
    (h : timerCountsD p s = some t) : t ≤ 0 := by
  obtain ⟨n1, e1⟩ := timerCountsD_eq_some p s t h
  rw [e1]
  exact counts_chain_nonpos p _ (prescale_pos s hs n1) hp

/-- For binary64 arguments the cycle count is the quotient period / prescale, rounded
once: the divisions by 0.25 and by 4 are exact. -/
theorem timerCountsD_double (p s t : ℚ) (hp : roundDouble p = p) (hs : roundDouble s = s)
    (h : timerCountsD p s = some t) : s ≠ 0 ∧ t = roundDouble (p / s) := by
  obtain ⟨n1, e1⟩ := timerCountsD_eq_some p s t h
  rw [hs] at n1 e1
  refine ⟨n1, ?_⟩
  have a : roundDouble p / (1 / 4) = 2 ^ 2 * p := by rw [hp]; ring
  have b : roundDouble (2 ^ 2 * p) / 4 = p := by rw [roundDouble_scale p 2 hp]; ring
  rw [e1, a, b, hp]

/-- Binary64 arguments of moderate size with a quotient of moderate size have a defined
cycle count, the rounded quotient. -/
theorem timerCountsD_of_double (p s q : ℚ) (hp : roundDouble p = p) (hs : roundDouble s = s)
    (hs0 : s ≠ 0) (hq : roundDouble (p / s) = q) (hpb : |p| < 2 ^ 1000)
    (hsb : |s| < 2 ^ 1000) (hqb : |q| < 2 ^ 1000) : timerCountsD p s = some q := by
  have big : (2 : ℚ) ^ 1000 < 2 ^ 1024 := pow_lt_pow_right₀ (by norm_num) (by norm_num)
  have e1 : toDouble p = some p := toDouble_of_exact p hp (by linarith)
  have e2 : toDouble s = some s := toDouble_of_exact s hs (by linarith)
  have a : p / (1 / 4) = 2 ^ 2 * p := by ring
  have e3 : dDiv p (1 / 4) = some (2 ^ 2 * p) := by
    unfold dDiv
    rw [if_neg (by norm_num), a]
    apply toDouble_of_exact _ (roundDouble_scale p 2 hp)
    rw [abs_mul, abs_of_pos (by norm_num : (0 : ℚ) < 2 ^ 2)]
    have : (2 : ℚ) ^ 2 * 2 ^ 1000 < 2 ^ 1024 := by
      rw [← pow_add]; exact pow_lt_pow_right₀ (by norm_num) (by norm_num)
    nlinarith
  have b : 2 ^ 2 * p / 4 = p := by ring
  have e4 : dDiv (2 ^ 2 * p) 4 = some p := by
    unfold dDiv
    rw [if_neg (by norm_num), b]
    exact e1
  have e5 : dDiv p s = some q := by
    unfold dDiv toDouble
    rw [if_neg hs0, hq, if_pos (by linarith)]
  unfold timerCountsD
  rw [e1, e2, dDiv_quarter]
  simp only [Option.some_bind]
  rw [e3]
  simp only [Option.some_bind]
  rw [e4]
  simp only [Option.some_bind]
  exact e5

/-- A passing static assertion of the Timer0, Timer1 and Timer3 macros: the cycle count
is defined and below the limit. -/
theorem timerAssert_true (p s : ℚ) (limit : Nat) (hl : limit < 2 ^ 52)
    (h : timerAssert p s limit = true) :
    ∃ t, timerCountsD p s = some t ∧ t < (limit : ℚ) := by
  unfold timerAssert at h
  cases hc : timerCountsD p s with
  | none => rw [hc] at h; simp at h
  | some t =>
    rw [hc] at h
    simp only [Option.some_bind] at h
    cases hu : toDouble (t + 1) with
    | none => rw [hu] at h; simp at h
    | some u =>
      rw [hu] at h
      have h1 : u < (limit : ℚ) + 1 := staticAssertLe_lt u limit h
      refine ⟨t, rfl, ?_⟩
      by_contra hge
      push_neg at hge
      have e := (toDouble_eq_some _ _ hu).1
      have h2 : ((limit : Int) : ℚ) + 1 ≤ t + 1 := by push_cast; linarith
      have h0 : (0 : ℚ) ≤ t + 1 := by
        have : (0 : ℚ) ≤ (limit : ℚ) := Nat.cast_nonneg _
        linarith
      have h3 := roundDouble_mono _ _ h0 h2
      have h4 : roundDouble (((limit : Int) : ℚ) + 1) = ((limit : Int) : ℚ) + 1 := by
        have := roundDouble_intCast ((limit : Int) + 1) (by
          rw [abs_of_nonneg (by omega)]
          have : (2 : Int) ^ 52 < 2 ^ 53 := by norm_num
          have : ((limit : Int)) < 2 ^ 52 := by exact_mod_cast hl
          omega)
        push_cast at this
        exact this
      rw [h4, ← e] at h3
      push_cast at h3
      linarith

/-- The reload operand `top - t + 1` for a cycle count `t` with `top - t` between two
integers of 0..top: both rounded operations are defined and keep the bounds. -/
theorem timerReloadD_between (top : Nat) (p s t : ℚ) (lo hi : Int)
    (hc : timerCountsD p s = some t) (hlo : 0 ≤ lo) (hhi : hi ≤ top) (htop : top < 2 ^ 52)
    (h1 : (lo : ℚ) ≤ (top : ℚ) - t) (h2 : (top : ℚ) - t ≤ hi) :
    ∃ w, timerReloadD (top : ℚ) p s = some w ∧ (lo : ℚ) + 1 ≤ w ∧ w ≤ (hi : ℚ) + 1 := by
  have hz : ((top : Int)) < 2 ^ 52 := by exact_mod_cast htop
  have p52 : (2 : Int) ^ 52 < 2 ^ 53 := by norm_num
  have n52 : (2 : Nat) ^ 52 < 2 ^ 64 := by norm_num
  obtain ⟨a1, a2⟩ := roundDouble_between ((top : ℚ) - t) lo hi hlo (by omega) h1 h2
  have hhiq : (hi : ℚ) ≤ (top : ℚ) := by exact_mod_cast hhi
  have hloq : (0 : ℚ) ≤ (lo : ℚ) := by exact_mod_cast hlo
  have e1 : toDouble ((top : ℚ) - t) = some (roundDouble ((top : ℚ) - t)) :=
    toDouble_of_bounds _ top (by linarith) (by linarith) (by omega)
  have b1 : ((lo + 1 : Int) : ℚ) ≤ roundDouble ((top : ℚ) - t) + 1 := by push_cast; linarith
  have b2 : roundDouble ((top : ℚ) - t) + 1 ≤ ((hi + 1 : Int) : ℚ) := by push_cast; linarith
  obtain ⟨c1, c2⟩ := roundDouble_between _ (lo + 1) (hi + 1) (by omega) (by omega) b1 b2
  push_cast at c1 c2
  have e2 : toDouble (roundDouble ((top : ℚ) - t) + 1) =
      some (roundDouble (roundDouble ((top : ℚ) - t) + 1)) :=
    toDouble_of_bounds _ (top + 1) (by linarith) (by push_cast; linarith) (by omega)
  refine ⟨roundDouble (roundDouble ((top : ℚ) - t) + 1), ?_, c1, c2⟩
  unfold timerReloadD
  rw [hc]
  simp only [Option.some_bind]
  rw [e1]
  simp only [Option.some_bind]
  exact e2

/-- An integer minus a value has the integer minus the ceiling as integer part. -/
theorem floor_int_sub_eq (n : Int) (x : ℚ) : ⌊(n : ℚ) - x⌋ = n - ⌈x⌉ := by
  rw [sub_eq_add_neg, Int.floor_int_add, Int.floor_neg]
  ring

/-- For binary64 arguments with a positive prescale and a period of at least one
prescaled tick that pass the static assertion with limit `top = 2^w - 1`, the macro
stores a value: `top + 1` minus the number of prescaled ticks rounded up, or one more;
the value lies in 1..top and the number of ticks is below `top`. -/
theorem reload_of_accepted (w top : Nat) (p s : ℚ) (htop : top + 1 = 2 ^ w) (hw : w ≤ 32)
    (hp : roundDouble p = p) (hs : roundDouble s = s) (hs0 : 0 < s) (hx : s ≤ p)
    (hacc : timerAssert p s top = true) :
    ∃ v : Nat, (timerReloadD (top : ℚ) p s).bind (castUnsigned w) = some v ∧
      ((v : Int) = (top : Int) + 1 - ⌈p / s⌉ ∨ (v : Int) = (top : Int) + 2 - ⌈p / s⌉) ∧
      1 ≤ v ∧ v ≤ top ∧ 1 ≤ p / s ∧ p / s < (top : ℚ) := by
  have hw2 : (2 : Nat) ^ w ≤ 2 ^ 32 := Nat.pow_le_pow_right (by norm_num) hw
  have htopn : top < 2 ^ 52 := by
    have : (2 : Nat) ^ 32 < 2 ^ 52 := by norm_num
    omega
  have hz : ((top : Int)) < 2 ^ 52 := by exact_mod_cast htopn
  have p52 : (2 : Int) ^ 52 < 2 ^ 53 := by norm_num
  obtain ⟨t, hc, ht⟩ := timerAssert_true p s top htopn hacc
  obtain ⟨_, et⟩ := timerCountsD_double p s t hp hs hc
  have hx1 : 1 ≤ p / s := (one_le_div hs0).mpr hx
  have hxt : p / s < (top : ℚ) := by
    by_contra hge
    push_neg at hge
    have h0 : (0 : ℚ) ≤ p / s := by linarith
    have := roundDouble_mono _ _ h0 hge
    have e := roundDouble_intCast (top : Int) (by rw [abs_of_nonneg (by omega)]; omega)
    push_cast at e
    rw [e, ← et] at this
    linarith
  have hc1 : (1 : Int) ≤ ⌈p / s⌉ := Int.one_le_ceil_iff.mpr (by linarith)
  have hc2 : ⌈p / s⌉ ≤ (top : Int) := Int.ceil_le.mpr (by push_cast; linarith)
  have hc3 : p / s ≤ (⌈p / s⌉ : ℚ) := Int.le_ceil _
  have hc4 : ((⌈p / s⌉ - 1 : Int) : ℚ) ≤ p / s := by
    have := Int.ceil_lt_add_one (p / s)
    push_cast
    linarith
  obtain ⟨t1, t2⟩ := roundDouble_between (p / s) (⌈p / s⌉ - 1) ⌈p / s⌉ (by omega) (by omega)
    hc4 hc3
  obtain ⟨t3, _⟩ := roundDouble_between (p / s) 1 top (by norm_num) (by omega)
    (by push_cast; linarith) (by push_cast; linarith)
  rw [← et] at t1 t2 t3
  push_cast at t1 t3
  have g1 : (((top : Int) - ⌈p / s⌉ : Int) : ℚ) ≤ (top : ℚ) - t := by push_cast; linarith
  have g2 : (top : ℚ) - t ≤ ((min ((top : Int) - ⌈p / s⌉ + 1) ((top : Int) - 1) : Int) : ℚ) := by
    rcases min_choice ((top : Int) - ⌈p / s⌉ + 1) ((top : Int) - 1) with hm | hm
    · rw [hm]; push_cast; linarith
    · rw [hm]; push_cast; linarith
  obtain ⟨r, hr, r1, r2⟩ := timerReloadD_between top p s t ((top : Int) - ⌈p / s⌉)
    (min ((top : Int) - ⌈p / s⌉ + 1) ((top : Int) - 1)) hc (by omega)
    (le_trans (min_le_right _ _) (by omega)) htopn g1 g2
  have r3 : r ≤ (((top : Int) - ⌈p / s⌉ + 1 : Int) : ℚ) + 1 :=
    le_trans r2 (by
      have : ((min ((top : Int) - ⌈p / s⌉ + 1) ((top : Int) - 1) : Int) : ℚ) ≤
          (((top : Int) - ⌈p / s⌉ + 1 : Int) : ℚ) := Int.cast_le.mpr (min_le_left _ _)
      linarith)
  have r4 : r ≤ (((top : Int) - 1 : Int) : ℚ) + 1 :=
    le_trans r2 (by
      have : ((min ((top : Int) - ⌈p / s⌉ + 1) ((top : Int) - 1) : Int) : ℚ) ≤
          (((top : Int) - 1 : Int) : ℚ) := Int.cast_le.mpr (min_le_right _ _)
      linarith)
  push_cast at r1 r3 r4
  have r0 : (0 : ℚ) ≤ r := by
    have : (1 : ℚ) ≤ (⌈p / s⌉ : ℚ) := by exact_mod_cast hc1
    have : ((⌈p / s⌉ : Int) : ℚ) ≤ (top : ℚ) := by exact_mod_cast hc2
    linarith
  have f1 : (top : Int) + 1 - ⌈p / s⌉ ≤ ⌊r⌋ := Int.le_floor.mpr (by push_cast; linarith)
  have f2 : ⌊r⌋ ≤ (top : Int) + 2 - ⌈p / s⌉ := by
    have : ((⌊r⌋ : Int) : ℚ) ≤ (((top : Int) + 2 - ⌈p / s⌉ : Int) : ℚ) :=
      le_trans (Int.floor_le r) (by push_cast; linarith)
    exact_mod_cast this
  have f3 : ⌊r⌋ ≤ (top : Int) := by
    have : ((⌊r⌋ : Int) : ℚ) ≤ (((top : Int) : Int) : ℚ) :=
      le_trans (Int.floor_le r) (by push_cast; linarith)
    exact_mod_cast this
  have hpow : ((2 : Int) ^ w) = (top : Int) + 1 := by
    have : ((top + 1 : Nat) : Int) = ((2 ^ w : Nat) : Int) := by rw [htop]
    push_cast at this
    omega
  have hcast : castUnsigned w r = some ⌊r⌋.toNat := by
    unfold castUnsigned
    rw [truncQ_of_nonneg r r0, if_pos ⟨by omega, by rw [hpow]; omega⟩]
  refine ⟨⌊r⌋.toNat, ?_, ?_, ?_, ?_, hx1, hxt⟩
  · rw [hr]
    exact hcast
  · rw [Int.toNat_of_nonneg (by omega)]
    omega
  · omega
  · omega

/-- An integer of magnitude below 2^53 divided by 2^k, k <= 1074, is the result of its own
conversion. -/
theorem toDouble_small (m : Int) (k : Nat) (hm : |m| < 2 ^ 53) (hk : k ≤ 1074) :
    toDouble ((m : ℚ) / 2 ^ k) = some ((m : ℚ) / 2 ^ k) ∧
    roundDouble ((m : ℚ) / 2 ^ k) = (m : ℚ) / 2 ^ k := by
  have e : (m : ℚ) / 2 ^ k = (m : ℚ) * 2 ^ (-(k : Int)) := by
    rw [zpow_neg, zpow_natCast, div_eq_mul_inv]
  constructor
  · exact toDouble_dyadic _ m (-(k : Int)) e hm (by omega) (by omega)
  · rw [e]
    exact roundDouble_dyadic m (-(k : Int)) hm (by omega)

/-- A power of two up to 2^900 is a binary64 number. -/
theorem roundDouble_two_pow (k : Nat) : roundDouble ((2 : ℚ) ^ k) = 2 ^ k := by
  have e : (2 : ℚ) ^ k = ((1 : Int) : ℚ) * 2 ^ (k : Int) := by
    rw [zpow_natCast]; simp
  rw [e]
  exact roundDouble_dyadic 1 k (by norm_num) (by omega)

/-- A whole number of microseconds below 2^52 and a power-of-two prescale: the cycle
count is the exact quotient. -/
theorem timerCountsD_whole (n k : Nat) (hk : k ≤ 64) (hn : n < 2 ^ 52) :
    timerCountsD (n : ℚ) (2 ^ k) = some ((n : ℚ) / 2 ^ k) := by
  have hz : (n : Int) < 2 ^ 52 := by exact_mod_cast hn
  have p52 : (2 : Int) ^ 52 < 2 ^ 53 := by norm_num
  have hm : |(n : Int)| < 2 ^ 53 := by rw [abs_of_nonneg (by omega)]; omega
  have hp : roundDouble (n : ℚ) = n := by
    have := roundDouble_intCast (n : Int) hm
    simpa using this
  have hq : roundDouble ((n : ℚ) / 2 ^ k) = (n : ℚ) / 2 ^ k := by
    have := (toDouble_small (n : Int) k hm (by omega)).2
    simpa using this
  have hnq : (n : ℚ) < 2 ^ 52 := by
    have : ((n : Nat) : ℚ) < ((2 ^ 52 : Nat) : ℚ) := Nat.cast_lt.mpr hn
    push_cast at this
    exact this
  have big : (2 : ℚ) ^ 52 < 2 ^ 1000 := pow_lt_pow_right₀ (by norm_num) (by norm_num)
  have hn0 : (0 : ℚ) ≤ (n : ℚ) := Nat.cast_nonneg n
  have h2k : (1 : ℚ) ≤ 2 ^ k := one_le_pow₀ (by norm_num)
  have h2k2 : (2 : ℚ) ^ k ≤ 2 ^ 64 := pow_le_pow_right₀ (by norm_num) hk
  have big2 : (2 : ℚ) ^ 64 < 2 ^ 1000 := pow_lt_pow_right₀ (by norm_num) (by norm_num)
  apply timerCountsD_of_double (n : ℚ) (2 ^ k) _ hp (roundDouble_two_pow k)
    (by positivity) hq
  · rw [abs_of_nonneg hn0]; linarith
  · rw [abs_of_pos (by positivity)]; linarith
  · rw [abs_of_nonneg (div_nonneg hn0 (by positivity))]
    have : (n : ℚ) / 2 ^ k ≤ n := div_le_self hn0 h2k
    linarith

/-- A whole number of microseconds of at most `top` prescaled ticks and a power-of-two
prescale: the reload operand is the exact value `top + 1 - n / 2^k`. -/
theorem timerReloadD_whole (top n k : Nat) (hk : k ≤ 16) (htop : top < 2 ^ 32)
    (hn : n ≤ top * 2 ^ k) :
    timerReloadD (top : ℚ) (n : ℚ) (2 ^ k) = some ((top : ℚ) + 1 - (n : ℚ) / 2 ^ k) := by
  have h2k : (2 : Nat) ^ k ≤ 2 ^ 16 := Nat.pow_le_pow_right (by norm_num) hk
  have hprod : top * 2 ^ k < 2 ^ 32 * 2 ^ 16 :=
    lt_of_le_of_lt (Nat.mul_le_mul_left _ h2k) (Nat.mul_lt_mul_of_pos_right htop (by norm_num))
  have hn2 : n < 2 ^ 48 := by
    have : (2 : Nat) ^ 32 * 2 ^ 16 = 2 ^ 48 := by norm_num
    omega
  have hc := timerCountsD_whole n k (by omega) (by
    have : (2 : Nat) ^ 48 < 2 ^ 52 := by norm_num
    omega)
  have hpos : (0 : ℚ) < 2 ^ k := by positivity
  have m1 : |((top * 2 ^ k - n : Nat) : Int)| < 2 ^ 53 := by
    rw [abs_of_nonneg (Nat.cast_nonneg _)]
    have : (2 : Nat) ^ 32 * 2 ^ 16 < 2 ^ 53 := by norm_num
    have : top * 2 ^ k - n < 2 ^ 53 := by omega
    exact_mod_cast this
  have m2 : |((top * 2 ^ k - n + 2 ^ k : Nat) : Int)| < 2 ^ 53 := by
    rw [abs_of_nonneg (Nat.cast_nonneg _)]
    have : (2 : Nat) ^ 32 * 2 ^ 16 + 2 ^ 16 < 2 ^ 53 := by norm_num
    have : top * 2 ^ k - n + 2 ^ k < 2 ^ 53 := by omega
    exact_mod_cast this
  have a1 : (top : ℚ) - (n : ℚ) / 2 ^ k = (((top * 2 ^ k - n : Nat) : Int) : ℚ) / 2 ^ k := by
    rw [Int.cast_natCast, Nat.cast_sub hn]
    push_cast
    field_simp
  have a2 : (top : ℚ) - (n : ℚ) / 2 ^ k + 1 =
      (((top * 2 ^ k - n + 2 ^ k : Nat) : Int) : ℚ) / 2 ^ k := by
    rw [Int.cast_natCast, Nat.cast_add, Nat.cast_sub hn]
    push_cast
    field_simp
  have e1 : toDouble ((top : ℚ) - (n : ℚ) / 2 ^ k) = some ((top : ℚ) - (n : ℚ) / 2 ^ k) := by
    rw [a1]
    exact (toDouble_small _ k m1 (by omega)).1
  have e2 : toDouble ((top : ℚ) - (n : ℚ) / 2 ^ k + 1) =
      some ((top : ℚ) - (n : ℚ) / 2 ^ k + 1) := by
    rw [a2]
    exact (toDouble_small _ k m2 (by omega)).1
  unfold timerReloadD
  rw [hc]
  simp only [Option.some_bind]
  rw [e1]
  simp only [Option.some_bind]
  rw [e2]
  congr 1
  ring

/-- A static assertion on a value in 0..limit + 1 (excluded) passes. -/
theorem staticAssertLe_of_lt (x : ℚ) (limit : Nat) (h0 : 0 ≤ x) (h1 : x < (limit : ℚ) + 1)
    (hl : limit < 2 ^ 32) : staticAssertLe x limit = true := by
  unfold staticAssertLe
  have hlq : (limit : ℚ) + 1 ≤ 2 ^ 32 := by
    have : limit + 1 ≤ 2 ^ 32 := hl
    exact_mod_cast this
  rw [castUnsigned_of_range 32 x h0 (by linarith)]
  simp only [decide_eq_true_eq]
  have a0 : (0 : Int) ≤ ⌊x⌋ := Int.floor_nonneg.mpr h0
  have a1 : ⌊x⌋ < (limit : Int) + 1 := Int.floor_lt.mpr (by push_cast; exact h1)
  omega

/-- A whole number of microseconds and a power-of-two prescale whose quotient plus one
stays below `limit + 1` pass the static assertion. -/
theorem timerAssert_whole (limit n k : Nat) (hk : k ≤ 16) (hl : limit < 2 ^ 32)
    (hn : n < limit * 2 ^ k) : timerAssert (n : ℚ) (2 ^ k) limit = true := by
  have h2k : (2 : Nat) ^ k ≤ 2 ^ 16 := Nat.pow_le_pow_right (by norm_num) hk
  have hprod : limit * 2 ^ k < 2 ^ 32 * 2 ^ 16 :=
    lt_of_le_of_lt (Nat.mul_le_mul_left _ h2k) (Nat.mul_lt_mul_of_pos_right hl (by norm_num))
  have e48 : (2 : Nat) ^ 32 * 2 ^ 16 = 2 ^ 48 := by norm_num
  have l52 : (2 : Nat) ^ 48 < 2 ^ 52 := by norm_num
  have hc := timerCountsD_whole n k (by omega) (by omega)
  have hpos : (0 : ℚ) < 2 ^ k := by positivity
  have m1 : |((n + 2 ^ k : Nat) : Int)| < 2 ^ 53 := by
    rw [abs_of_nonneg (Nat.cast_nonneg _)]
    have : (2 : Nat) ^ 48 + 2 ^ 16 < 2 ^ 53 := by norm_num
    have : n + 2 ^ k < 2 ^ 53 := by omega
    exact_mod_cast this
  have a1 : (n : ℚ) / 2 ^ k + 1 = (((n + 2 ^ k : Nat) : Int) : ℚ) / 2 ^ k := by
    rw [Int.cast_natCast]
    push_cast
    field_simp
  have e1 : toDouble ((n : ℚ) / 2 ^ k + 1) = some ((n : ℚ) / 2 ^ k + 1) := by
    rw [a1]
    exact (toDouble_small _ k m1 (by omega)).1
  have hq : (n : ℚ) / 2 ^ k < (limit : ℚ) := by
    rw [div_lt_iff₀ hpos]
    exact_mod_cast hn
  unfold timerAssert
  rw [hc]
  simp only [Option.some_bind]
  rw [e1]
  exact staticAssertLe_of_lt _ limit (by positivity) (by linarith) hl

/-- A positive whole number of microseconds and a power-of-two prescale accepted with limit
`top = 2^w - 1`: the stored value is the integer part of `top + 1 - n / 2^k`, a value in
1..top. -/
theorem reload_whole (w top n k : Nat) (htop : top + 1 = 2 ^ w) (hw : w ≤ 32) (hk : k ≤ 16)
    (hn0 : 0 < n) (hacc : timerAssert (n : ℚ) (2 ^ k) top = true) :
    (timerReloadD (top : ℚ) (n : ℚ) (2 ^ k)).bind (castUnsigned w) =
      some ⌊(top : ℚ) + 1 - (n : ℚ) / 2 ^ k⌋.toNat ∧
    1 ≤ ⌊(top : ℚ) + 1 - (n : ℚ) / 2 ^ k⌋ ∧ ⌊(top : ℚ) + 1 - (n : ℚ) / 2 ^ k⌋ ≤ (top : Int) ∧
    (n : ℚ) / 2 ^ k < (top : ℚ) := by
  have hw2 : (2 : Nat) ^ w ≤ 2 ^ 32 := Nat.pow_le_pow_right (by norm_num) hw
  have htopn : top < 2 ^ 32 := by omega
  have l52 : (2 : Nat) ^ 32 < 2 ^ 52 := by norm_num
  have h2k : (2 : Nat) ^ k ≤ 2 ^ 16 := Nat.pow_le_pow_right (by norm_num) hk
  have hpos : (0 : ℚ) < 2 ^ k := by positivity
  obtain ⟨t, hc, ht⟩ := timerAssert_true (n : ℚ) (2 ^ k) top (by omega) hacc
  have hlt : n < top * 2 ^ k := by
    by_contra hge
    push_neg at hge
    have hprod : top * 2 ^ k < 2 ^ 32 * 2 ^ 16 :=
      lt_of_le_of_lt (Nat.mul_le_mul_left _ h2k)
        (Nat.mul_lt_mul_of_pos_right htopn (by norm_num))
    have e48 : (2 : Nat) ^ 32 * 2 ^ 16 < 2 ^ 52 := by norm_num
    have h0 := timerCountsD_whole (top * 2 ^ k) k (by omega) (by omega)
    have e0 : ((top * 2 ^ k : Nat) : ℚ) / 2 ^ k = (top : ℚ) := by
      push_cast
      field_simp
    rw [e0] at h0
    have hle : ((top * 2 ^ k : Nat) : ℚ) ≤ (n : ℚ) := by exact_mod_cast hge
    have := timerCountsD_mono _ _ _ _ _ hpos (Nat.cast_nonneg n) hle h0 hc
    linarith
  have hq : (n : ℚ) / 2 ^ k < (top : ℚ) := by
    rw [div_lt_iff₀ hpos]
    exact_mod_cast hlt
  have hq1 : (0 : ℚ) < (n : ℚ) / 2 ^ k := div_pos (by exact_mod_cast hn0) hpos
  have hr := timerReloadD_whole top n k hk htopn hlt.le
  have hpowq : ((2 : ℚ) ^ w) = (top : ℚ) + 1 := by
    have : ((top + 1 : Nat) : ℚ) = ((2 ^ w : Nat) : ℚ) := by rw [htop]
    push_cast at this
    linarith
  have hcast := castUnsigned_of_range w ((top : ℚ) + 1 - (n : ℚ) / 2 ^ k) (by linarith)
    (by rw [hpowq]; linarith)
  refine ⟨by rw [hr]; exact hcast, ?_, ?_, hq⟩
  · exact Int.le_floor.mpr (by push_cast; linarith)
  · have : ⌊(top : ℚ) + 1 - (n : ℚ) / 2 ^ k⌋ < (top : Int) + 1 :=
      Int.floor_lt.mpr (by push_cast; linarith)
    omega

/-- A defined reload operand is the rounded sum of the rounded difference and 1. -/
theorem timerReloadD_eq_some (top p s r : ℚ) (h : timerReloadD top p s = some r) :
    ∃ t, timerCountsD p s = some t ∧ r = roundDouble (roundDouble (top - t) + 1) := by
  unfold timerReloadD at h
  simp only [Option.bind_eq_some] at h
  obtain ⟨t, hc, v, hv, hr⟩ := h
  refine ⟨t, hc, ?_⟩
  rw [(toDouble_eq_some _ _ hr).1, (toDouble_eq_some _ _ hv).1]

/-- With a passing static assertion the three 16-bit macros store the converted reload
operand. -/
theorem setTimer16_eq (p s : ℚ) (ha : timerAssert p s 65535 = true) :
    setTimer1InterruptPeriod p s = (timerReloadD 65535 p s).bind (castUnsigned 16) ∧
    setTimer3InterruptPeriod p s = (timerReloadD 65535 p s).bind (castUnsigned 16) ∧
    setTimer0InterruptPeriod16 p s = (timerReloadD 65535 p s).bind (castUnsigned 16) := by
  unfold setTimer1InterruptPeriod setTimer3InterruptPeriod setTimer0InterruptPeriod16
    timerReload16
  rw [ha]
  exact ⟨rfl, rfl, rfl⟩

/-- With a passing static assertion the 8-bit macro stores the converted reload operand. -/
theorem setTimer8_eq (p s : ℚ) (ha : timerAssert p s 255 = true) :
    setTimer0InterruptPeriod8 p s = (timerReloadD 255 p s).bind (castUnsigned 8) := by
  unfold setTimer0InterruptPeriod8 timerReload8
  rw [ha]
  rfl

/-- With a failing static assertion the three 16-bit macros store nothing. -/
theorem setTimer16_none (p s : ℚ) (ha : timerAssert p s 65535 = false) :
    setTimer1InterruptPeriod p s = none ∧ setTimer3InterruptPeriod p s = none ∧
    setTimer0InterruptPeriod16 p s = none := by
  unfold setTimer1InterruptPeriod setTimer3InterruptPeriod setTimer0InterruptPeriod16
  rw [ha]
  exact ⟨rfl, rfl, rfl⟩

/-- With a failing static assertion the 8-bit macro stores nothing. -/
theorem setTimer8_none (p s : ℚ) (ha : timerAssert p s 255 = false) :
    setTimer0InterruptPeriod8 p s = none := by
  unfold setTimer0InterruptPeriod8
  rw [ha]
  rfl

/-- The constant 8 is a binary64 number. -/
theorem roundDouble_eight : roundDouble 8 = 8 := by
  have := roundDouble_two_pow 3
  norm_num at this
  exact this

/-- The reload value of the specification in terms of the number of prescaled ticks
rounded up, when the ticks do not exceed 2^w. -/
theorem specReload_eq (w top : Nat) (p s : ℚ) (htop : top + 1 = 2 ^ w)
    (h : p / s ≤ (top : ℚ) + 1) : specReload w p s = (top : Int) + 1 - ⌈p / s⌉ := by
  have hpowq : ((2 : ℚ) ^ w) = (top : ℚ) + 1 := by
    have : ((top + 1 : Nat) : ℚ) = ((2 ^ w : Nat) : ℚ) := by rw [htop]
    push_cast at this
    linarith
  unfold specReload
  rw [tickUs_eq, one_mul, hpowq]
  have e : (top : ℚ) + 1 - 1 - p / s + 1 = (((top : Int) + 1 : Int) : ℚ) - p / s := by
    push_cast; ring
  rw [truncQ_of_nonneg _ (by linarith), e, floor_int_sub_eq]

/-- The integer part of the ideal reload value in terms of the number of prescaled ticks
rounded up. -/
theorem idealReload_floor (w top : Nat) (p s : ℚ) (htop : top + 1 = 2 ^ w) :
    ⌊idealReload w p s⌋ = (top : Int) + 1 - ⌈p / s⌉ ∧
    idealReload w p s = (top : ℚ) + 1 - p / s := by
  have hpowq : ((2 : ℚ) ^ w) = (top : ℚ) + 1 := by
    have : ((top + 1 : Nat) : ℚ) = ((2 ^ w : Nat) : ℚ) := by rw [htop]
    push_cast at this
    linarith
  unfold idealReload
  rw [tickUs_eq, one_mul, hpowq]
  have e : (top : ℚ) + 1 - p / s = (((top : Int) + 1 : Int) : ℚ) - p / s := by
    push_cast; ring
  refine ⟨?_, rfl⟩
  rw [e, floor_int_sub_eq]

/-- A positive whole number of microseconds and a power-of-two prescale accepted with
limit `top = 2^w - 1`: the stored value is the reload value of the specification, in
1..top. -/
theorem reload_whole_spec (w top n k : Nat) (htop : top + 1 = 2 ^ w) (hw : w ≤ 32)
    (hk : k ≤ 16) (hn0 : 0 < n) (hacc : timerAssert (n : ℚ) (2 ^ k) top = true) :
    (timerReloadD (top : ℚ) (n : ℚ) (2 ^ k)).bind (castUnsigned w) =
      some (specReload w (n : ℚ) (2 ^ k)).toNat ∧
    1 ≤ specReload w (n : ℚ) (2 ^ k) ∧ specReload w (n : ℚ) (2 ^ k) ≤ (top : Int) := by
  obtain ⟨h1, h2, h3, h4⟩ := reload_whole w top n k htop hw hk hn0 hacc
  have e := specReload_eq w top (n : ℚ) (2 ^ k) htop (by linarith)
  have e2 : ⌊(top : ℚ) + 1 - (n : ℚ) / 2 ^ k⌋ = (top : Int) + 1 - ⌈(n : ℚ) / 2 ^ k⌉ := by
    have := floor_int_sub_eq ((top : Int) + 1) ((n : ℚ) / 2 ^ k)
    push_cast at this
    exact this
  rw [e, ← e2]
  exact ⟨h1, h2, h3⟩

/-- The stored value does not increase with the period: two periods p1 <= p2 with the
same positive prescale, the first accepted with limit `top = 2^w - 1`, both with a
defined conversion. -/
theorem reload_antitone (w top : Nat) (p1 p2 s : ℚ) (v1 v2 : Nat) (htop : top + 1 = 2 ^ w)
    (hw : w ≤ 32) (hs : 0 < s) (hp : p1 ≤ p2) (ha : timerAssert p1 s top = true)
    (h1 : (timerReloadD (top : ℚ) p1 s).bind (castUnsigned w) = some v1)
    (h2 : (timerReloadD (top : ℚ) p2 s).bind (castUnsigned w) = some v2) : v2 ≤ v1 := by
  have hw2 : (2 : Nat) ^ w ≤ 2 ^ 32 := Nat.pow_le_pow_right (by norm_num) hw
  have htopn : top < 2 ^ 52 := by
    have : (2 : Nat) ^ 32 < 2 ^ 52 := by norm_num
    omega
  have hz : ((top : Int)) < 2 ^ 52 := by exact_mod_cast htopn
  have p52 : (2 : Int) ^ 52 < 2 ^ 53 := by norm_num
  have hpow : ((2 : Int) ^ w) = (top : Int) + 1 := by
    have : ((top + 1 : Nat) : Int) = ((2 ^ w : Nat) : Int) := by rw [htop]
    push_cast at this
    omega
  simp only [Option.bind_eq_some] at h1 h2
  obtain ⟨r1, hr1, c1⟩ := h1
  obtain ⟨r2, hr2, c2⟩ := h2
  obtain ⟨t1, hc1, e1⟩ := timerReloadD_eq_some _ _ _ _ hr1
  obtain ⟨t2, hc2, e2⟩ := timerReloadD_eq_some _ _ _ _ hr2
  obtain ⟨t1', hc1', ht1⟩ := timerAssert_true p1 s top htopn ha
  rw [hc1] at hc1'
  simp only [Option.some.injEq] at hc1'
  subst hc1'
  have etop : roundDouble ((top : ℚ)) = top := by
    have := roundDouble_intCast (top : Int) (by rw [abs_of_nonneg (by omega)]; omega)
    push_cast at this
    exact this
  have etop1 : roundDouble ((top : ℚ) + 1) = (top : ℚ) + 1 := by
    have := roundDouble_intCast ((top : Int) + 1) (by rw [abs_of_nonneg (by omega)]; omega)
    push_cast at this
    exact this
  have htq : (0 : ℚ) ≤ (top : ℚ) := Nat.cast_nonneg top
  have hp2 : 0 ≤ p2 := by
    by_contra hneg
    push_neg at hneg
    have ht2 := timerCountsD_nonpos p2 s t2 hs hneg.le hc2
    have a1 : (top : ℚ) ≤ (top : ℚ) - t2 := by linarith
    have a2 := roundDouble_mono _ _ (by linarith) a1
    rw [etop] at a2
    have a3 : (top : ℚ) + 1 ≤ roundDouble ((top : ℚ) - t2) + 1 := by linarith
    have a4 := roundDouble_mono _ _ (by linarith) a3
    rw [etop1, ← e2] at a4
    obtain ⟨b1, b2⟩ := castUnsigned_eq_some w r2 v2 c2
    rw [truncQ_of_nonneg r2 (by linarith)] at b1
    have b3 : (top : Int) + 1 ≤ ⌊r2⌋ := Int.le_floor.mpr (by push_cast; exact a4)
    omega
  have ht := timerCountsD_mono p1 p2 s t1 t2 hs hp2 hp hc1 hc2
  have d1 : (top : ℚ) - t2 ≤ (top : ℚ) - t1 := by linarith
  have d0 : (0 : ℚ) ≤ (top : ℚ) - t1 := by linarith
  have d2 := roundDouble_mono _ _ d0 d1
  have d3 := roundDouble_nonneg _ d0
  have d4 : roundDouble ((top : ℚ) - t2) + 1 ≤ roundDouble ((top : ℚ) - t1) + 1 := by linarith
  have d5 := roundDouble_mono _ _ (by linarith) d4
  rw [← e1, ← e2] at d5
  exact castUnsigned_mono w r2 r1 v2 v1 d5 c2 c1

/-- The 16-bit reload expression is the conversion of a defined operand. -/
theorem timerReload16_of (p s r : ℚ) (hr : timerReloadD 65535 p s = some r) :
    timerReload16 p s = castUnsigned 16 r := by
  unfold timerReload16
  rw [hr]
  rfl

/-- The constant 600000 is a binary64 number. -/
theorem roundDouble_600000 : roundDouble 600000 = 600000 := by
  have := roundDouble_intCast 600000 (by norm_num)
  norm_num at this
  exact this

/-- The call `setTimer1InterruptPeriod(250000, 8)`: the static assertion passes. -/
theorem timer1_assert_250ms : timerAssert 250000 8 65535 = true := by
  have h := timerAssert_whole 65535 250000 3 (by norm_num) (by norm_num) (by norm_num)
  have e1 : ((250000 : Nat) : ℚ) = 250000 := by norm_num
  have e2 : (2 : ℚ) ^ 3 = 8 := by norm_num
  rw [e1, e2] at h
  exact h

/-- The formula of the specification for 250000 us and prescale 8 gives 34286. -/
theorem specReload_250ms : specReload 16 250000 8 = 34286 := by
  norm_num [specReload, truncQ, tickUs_eq]

/-- The call `setTimer1InterruptPeriod(250000, 8)` stores 34286. -/
theorem timer1_reload_250ms : setTimer1InterruptPeriod 250000 8 = some 34286 := by
  have h := reload_whole_spec 16 65535 250000 3 (by norm_num) (by norm_num) (by norm_num)
    (by norm_num)
  have e1 : ((250000 : Nat) : ℚ) = 250000 := by norm_num
  have e2 : (2 : ℚ) ^ 3 = 8 := by norm_num
  have e3 : ((65535 : Nat) : ℚ) = 65535 := by norm_num
  rw [e1, e2, e3] at h
  have h1 := (h timer1_assert_250ms).1
  rw [specReload_250ms] at h1
  rw [(setTimer16_eq _ _ timer1_assert_250ms).1]
  exact h1

/-- The call `setTimer1InterruptPeriod(500000, 8)` stores 3036. -/
theorem timer1_reload_500ms : setTimer1InterruptPeriod 500000 8 = some 3036 := by
  have ha := timerAssert_whole 65535 500000 3 (by norm_num) (by norm_num) (by norm_num)
  have h := reload_whole_spec 16 65535 500000 3 (by norm_num) (by norm_num) (by norm_num)
    (by norm_num)
  have e1 : ((500000 : Nat) : ℚ) = 500000 := by norm_num
  have e2 : (2 : ℚ) ^ 3 = 8 := by norm_num
  have e3 : ((65535 : Nat) : ℚ) = 65535 := by norm_num
  rw [e1, e2] at ha
  rw [e1, e2, e3] at h
  have h1 := (h ha).1
  have e4 : specReload 16 500000 8 = 3036 := by norm_num [specReload, truncQ, tickUs_eq]
  rw [e4] at h1
  rw [(setTimer16_eq _ _ ha).1]
  exact h1

/-! ## Lemmas on a period below the resolution of the reload expression -/

/-- C12, as stated, fails for period 0: with prescale 8 the static check passes, although
the ideal reload value 2^16 - 0 = 65536 does not fit 16 bits and its conversion to
`uint16_t` is not defined. -/
theorem static_check_counterexample :
    timerAssert 0 8 65535 = true ∧
    idealReload 16 0 8 = 65536 ∧ ¬ (idealReload 16 0 8 ≤ 2 ^ 16 - 1) ∧
    timerReload16 0 8 = none := by
  have e1 : ((0 : Nat) : ℚ) = 0 := by norm_num
  have e2 : (2 : ℚ) ^ 3 = 8 := by norm_num
  have e3 : ((65535 : Nat) : ℚ) = 65535 := by norm_num
  refine ⟨?_, ?_, ?_, ?_⟩
  · have h := timerAssert_whole 65535 0 3 (by norm_num) (by norm_num) (by norm_num)
    rw [e1, e2] at h
    exact h
  · norm_num [idealReload]
  · norm_num [idealReload]
  · have h := timerReloadD_whole 65535 0 3 (by norm_num) (by norm_num) (by norm_num)
    rw [e1, e2, e3] at h
    rw [timerReload16_of _ _ _ h]
    norm_num [castUnsigned, truncQ]

/-- C12, amended. For every `double` period and positive `double` prescale with the
period at least one prescaled tick, the static check of the 16-bit macros (of the 8-bit
macro) stops the build whenever the ideal reload value 2^w - period / (tick * prescale)
lies outside 0..2^w - 1; so for such arguments every accepted combination has its ideal
value in 0..2^w - 1 and stores a value in 1..2^w - 1 that is the integer part of the ideal
value or one more, neither wrapped nor saturated. -/
theorem static_check_rejects (period prescale : ℚ) (hp : roundDouble period = period)
    (hsd : roundDouble prescale = prescale) (hs : 0 < prescale)
    (htick : tickUs * prescale ≤ period) :
    ((idealReload 16 period prescale < 0 ∨ 2 ^ 16 - 1 < idealReload 16 period prescale) →
      timerAssert period prescale 65535 = false ∧
      setTimer1InterruptPeriod period prescale = none) ∧
    ((idealReload 8 period prescale < 0 ∨ 2 ^ 8 - 1 < idealReload 8 period prescale) →
      timerAssert period prescale 255 = false ∧
      setTimer0InterruptPeriod8 period prescale = none) ∧
    (timerAssert period prescale 65535 = true →
      ∃ v : Nat, setTimer1InterruptPeriod period prescale = some v ∧
        ⌊idealReload 16 period prescale⌋ ≤ (v : Int) ∧
        (v : Int) ≤ ⌊idealReload 16 period prescale⌋ + 1 ∧ 1 ≤ v ∧ v ≤ 65535 ∧
        0 ≤ idealReload 16 period prescale ∧ idealReload 16 period prescale ≤ 2 ^ 16 - 1) ∧
    (timerAssert period prescale 255 = true →
      ∃ v : Nat, setTimer0InterruptPeriod8 period prescale = some v ∧
        ⌊idealReload 8 period prescale⌋ ≤ (v : Int) ∧
        (v : Int) ≤ ⌊idealReload 8 period prescale⌋ + 1 ∧ 1 ≤ v ∧ v ≤ 255 ∧
        0 ≤ idealReload 8 period prescale ∧ idealReload 8 period prescale ≤ 2 ^ 8 - 1) := by
  rw [tickUs_eq, one_mul] at htick
  obtain ⟨f16, i16⟩ := idealReload_floor 16 65535 period prescale (by norm_num)
  obtain ⟨f8, i8⟩ := idealReload_floor 8 255 period prescale (by norm_num)
  simp only [Nat.cast_ofNat] at f16 i16 f8 i8
  have acc16 : timerAssert period prescale 65535 = true →
      ∃ v : Nat, setTimer1InterruptPeriod period prescale = some v ∧
        ⌊idealReload 16 period prescale⌋ ≤ (v : Int) ∧
        (v : Int) ≤ ⌊idealReload 16 period prescale⌋ + 1 ∧ 1 ≤ v ∧ v ≤ 65535 ∧
        0 ≤ idealReload 16 period prescale ∧ idealReload 16 period prescale ≤ 2 ^ 16 - 1 := by
    intro ha
    obtain ⟨v, h1, h2, h3, h4, h5, h6⟩ := reload_of_accepted 16 65535 period prescale
      (by norm_num) (by norm_num) hp hsd hs htick ha
    simp only [Nat.cast_ofNat] at h1 h2 h6
    refine ⟨v, ?_, ?_, ?_, h3, h4, ?_, ?_⟩
    · rw [(setTimer16_eq _ _ ha).1]; exact h1
    · rw [f16]; omega
    · rw [f16]; omega
    · rw [i16]; linarith
    · rw [i16]; norm_num; linarith
  have acc8 : timerAssert period prescale 255 = true →
      ∃ v : Nat, setTimer0InterruptPeriod8 period prescale = some v ∧
        ⌊idealReload 8 period prescale⌋ ≤ (v : Int) ∧
        (v : Int) ≤ ⌊idealReload 8 period prescale⌋ + 1 ∧ 1 ≤ v ∧ v ≤ 255 ∧
        0 ≤ idealReload 8 period prescale ∧ idealReload 8 period prescale ≤ 2 ^ 8 - 1 := by
    intro ha
    obtain ⟨v, h1, h2, h3, h4, h5, h6⟩ := reload_of_accepted 8 255 period prescale
      (by norm_num) (by norm_num) hp hsd hs htick ha
    simp only [Nat.cast_ofNat] at h1 h2 h6
    refine ⟨v, ?_, ?_, ?_, h3, h4, ?_, ?_⟩
    · rw [setTimer8_eq _ _ ha]; exact h1
    · rw [f8]; omega
    · rw [f8]; omega
    · rw [i8]; linarith
    · rw [i8]; norm_num; linarith
  refine ⟨?_, ?_, acc16, acc8⟩
  · intro hout
    have hrej : timerAssert period prescale 65535 = false := by
      by_contra hne
      have ha : timerAssert period prescale 65535 = true := by simpa using hne
      obtain ⟨v, _, _, _, _, _, b1, b2⟩ := acc16 ha
      rcases hout with h | h
      · linarith
      · linarith
    exact ⟨hrej, (setTimer16_none _ _ hrej).1⟩
  · intro hout
    have hrej : timerAssert period prescale 255 = false := by
      by_contra hne
      have ha : timerAssert period prescale 255 = true := by simpa using hne
      obtain ⟨v, _, _, _, _, _, b1, b2⟩ := acc8 ha
      rcases hout with h | h
      · linarith
      · linarith
    exact ⟨hrej, setTimer8_none _ _ hrej⟩

/-- C12, witness: a period of 600000 us with prescale 8 has the ideal reload value
65536 - 75000 < 0 and is rejected. -/
theorem static_check_rejects_witness : setTimer1InterruptPeriod 600000 8 = none :=
  ((static_check_rejects 600000 8 roundDouble_600000 roundDouble_eight (by norm_num)
    (by norm_num [tickUs_eq])).1 (Or.inl (by norm_num [idealReload, tickUs_eq]))).2

/-! ## C13: the reload value decreases with the period -/

/-- C13. For a fixed positive prescale and periods p1 <= p2 whose reload values are
representable (the macro stores a value for each), the value stored for p1 is at least
the value stored for p2; for the 16-bit macros and for the 8-bit macro. -/
theorem reload_monotone (p1 p2 prescale : ℚ) (hs : 0 < prescale) (hp : p1 ≤ p2) :
    (∀ v1 v2 : Nat, setTimer1InterruptPeriod p1 prescale = some v1 →
      setTimer1InterruptPeriod p2 prescale = some v2 → v2 ≤ v1) ∧
    (∀ v1 v2 : Nat, setTimer0InterruptPeriod8 p1 prescale = some v1 →
      setTimer0InterruptPeriod8 p2 prescale = some v2 → v2 ≤ v1) := by
  constructor
  · intro v1 v2 h1 h2
    unfold setTimer1InterruptPeriod at h1 h2
    split_ifs at h1 h2 with a1 a2
    unfold timerReload16 at h1 h2
    have e3 : ((65535 : Nat) : ℚ) = 65535 := by norm_num
    rw [← e3] at h1 h2
    exact reload_antitone 16 65535 p1 p2 prescale v1 v2 (by norm_num) (by norm_num) hs hp
      a1 h1 h2
  · intro v1 v2 h1 h2
    unfold setTimer0InterruptPeriod8 at h1 h2
    split_ifs at h1 h2 with a1 a2
    unfold timerReload8 at h1 h2
    have e3 : ((255 : Nat) : ℚ) = 255 := by norm_num
    rw [← e3] at h1 h2
    exact reload_antitone 8 255 p1 p2 prescale v1 v2 (by norm_num) (by norm_num) hs hp
      a1 h1 h2

/-- C13, witness: 250 ms and 500 ms with prescale 8 store 34286 and 3036. -/
theorem reload_monotone_witness :
    setTimer1InterruptPeriod 250000 8 = some 34286 ∧
    setTimer1InterruptPeriod 500000 8 = some 3036 ∧ (3036 : Nat) ≤ 34286 :=
  ⟨timer1_reload_250ms, timer1_reload_500ms,
    (reload_monotone 250000 500000 8 (by norm_num) (by norm_num)).1 34286 3036
      timer1_reload_250ms timer1_reload_500ms⟩

/-! ## C14: servo angle to pulse width -/

/-- C14. For every angle, `setCCP1ServoAngle(angle, prescale)` is
`setCCP1PwmDutyCycle` applied to the high time 450 + (angle / 180) * 2000 microseconds
(exact arithmetic); angle 0 gives 450, angle 90 gives 1450 and angle 180 gives 2450. -/
theorem servo_high_time (angle : Int) (prescale : ℚ) (a : App) :
    setCCP1ServoAngle angle prescale a =
      setCCP1PwmDutyCycle (450 + ((angle : ℚ) / 180) * 2000) prescale a ∧
    setCCP1ServoAngle 0 prescale a = setCCP1PwmDutyCycle 450 prescale a ∧
    setCCP1ServoAngle 90 prescale a = setCCP1PwmDutyCycle 1450 prescale a ∧
    setCCP1ServoAngle 180 prescale a = setCCP1PwmDutyCycle 2450 prescale a := by
  unfold setCCP1ServoAngle
  refine ⟨?_, ?_, ?_, ?_⟩
  · congr 1; ring
  · congr 1; norm_num
  · congr 1; norm_num
  · congr 1; norm_num

/-! ## C15: the duty split -/

/-- The duty value of the code is the duty value of the specification. -/
theorem pwmDutyValue_eq (length prescale : ℚ) (h0 : 0 ≤ specDuty length prescale)
    (h1 : specDuty length prescale ≤ 1023) :
    pwmDutyValue length prescale = (specDuty length prescale).toNat := by
  unfold pwmDutyValue
  unfold specDuty at h0 h1 ⊢
  rw [div_div]
  omega

/-- Splitting a 10-bit value into the two low bits and the upper eight. -/
theorem split_10bit (v : Nat) (h : v ≤ 1023) :
    ((v % 256) &&& 3) % 4 = v &&& 3 ∧ (v >>> 2) % 256 = v >>> 2 ∧
    4 * (v >>> 2) + (v &&& 3) = v ∧ v &&& 3 ≤ 3 ∧ v >>> 2 ≤ 255 := by
  have e1 : ∀ x : Nat, x &&& 3 = x % 4 := fun x => Nat.and_pow_two_sub_one_eq_mod x 2
  have e2 : v >>> 2 = v / 4 := Nat.shiftRight_eq_div_pow v 2
  rw [e1, e1, e2]
  omega

/-- Range of the C remainder by 181. -/
theorem tmod_181_range (x : Int) : -180 ≤ x.tmod 181 ∧ x.tmod 181 ≤ 180 := by
  cases x with
  | ofNat m =>
    have e : (Int.ofNat m).tmod 181 = ((m % 181 : Nat) : Int) := rfl
    rw [e]; omega
  | negSucc m =>
    have e : (Int.negSucc m).tmod 181 = -(((m + 1) % 181 : Nat) : Int) := rfl
    rw [e]; omega

/-- The angle computed from any line lies in 0..180. -/
theorem uartAngle_range (line : List Nat) : 0 ≤ uartAngle line ∧ uartAngle line ≤ 180 := by
  unfold uartAngle
  simp only
  generalize (if line.headD 0 = 45 then wrapInt (-atoi (List.drop 1 line)) else atoi line) = i
  obtain ⟨h1, h2⟩ := tmod_181_range (wrapInt (i + 90))
  generalize (wrapInt (i + 90)).tmod 181 = r at h1 h2 ⊢
  split_ifs with h
  · unfold wrapInt; omega
  · omega

/-- Duty value stored for a servo angle in 0..180 with prescale 16: at most 612. -/
theorem servo_duty_le (angle : Int) (a : App) (h0 : 0 ≤ angle) (h1 : angle ≤ 180) :
    dutyCCP1 (setCCP1ServoAngle angle 16 a) ≤ 612 ∧
    dutyCCP2 (setCCP1ServoAngle angle 16 a) = dutyCCP2 a := by
  have hq0 : (0 : ℚ) ≤ angle := by exact_mod_cast h0
  have hq1 : (angle : ℚ) ≤ 180 := by exact_mod_cast h1
  have hs0 : 0 ≤ specDuty (450 + ((2450 - 450) / 180) * (angle : ℚ)) 16 := by
    unfold specDuty XTAL_FREQ
    apply Int.floor_nonneg.mpr
    apply div_nonneg
    · nlinarith
    · norm_num
  have hs1 : specDuty (450 + ((2450 - 450) / 180) * (angle : ℚ)) 16 ≤ 612 := by
    unfold specDuty XTAL_FREQ
    have : ⌊(450 + ((2450 - 450) / 180) * (angle : ℚ)) / (1000000 / ((4000000 : ℕ) : ℚ) * 16)⌋
        < 613 := by
      rw [Int.floor_lt]
      push_cast
      rw [div_lt_iff₀ (by norm_num)]
      nlinarith
    omega
  have hv := pwmDutyValue_eq _ 16 hs0 (by omega)
  have hle : (specDuty (450 + ((2450 - 450) / 180) * (angle : ℚ)) 16).toNat ≤ 612 := by omega
  obtain ⟨s1, s2, s3, -, -⟩ := split_10bit _ (by omega : (specDuty (450 + ((2450 - 450) / 180) * (angle : ℚ)) 16).toNat ≤ 1023)
  constructor
  · simp only [dutyCCP1, setCCP1ServoAngle, setCCP1PwmDutyCycle, hv, s1, s2, s3]
    exact hle
  · rfl

/-! ## Lemmas on the conversion-complete handler -/

/-- Shape of the state after the blink block: only the four blink variables and the CCP2
duty registers can differ. -/
theorem ledFlashADC_shape (x : Nat) (a : App) :
    ∃ z c t st d l, ledFlashADC x a =
      { a with ledFlashZone := z, ledFlashCounter := c, ledFlashThreshold := t,
               ledFlashState := st, DC2B := d, CCPR2L := l } := by
  unfold ledFlashADC setCCP2PwmDutyCycle
  simp only
  split_ifs <;> exact ⟨_, _, _, _, _, _, rfl⟩

/-- The binary-display value is the integer quotient. -/
theorem binaryFromADC_eq (s : Nat) (h : s ≤ 1023) : binaryFromADC s = s * 15 / 1023 := by
  unfold binaryFromADC
  have e : (s : ℚ) * 15 / 1023 = ((s * 15 : ℕ) : ℚ) / ((1023 : ℕ) : ℚ) := by push_cast; ring
  have h0 : (0 : ℚ) ≤ (s : ℚ) * 15 / 1023 := by positivity
  rw [truncQ_of_nonneg _ h0, e, Rat.floor_natCast_div_natCast]
  have : s * 15 / 1023 ≤ 15 := by omega
  omega

/-- Outputs of `led4Bit`. -/
theorem led4Bit_bits (v : Nat) (a : App) :
    (led4Bit v a).RD0 = v / 2 ^ 0 % 2 ∧ (led4Bit v a).RD1 = v / 2 ^ 1 % 2 ∧
    (led4Bit v a).RD2 = v / 2 ^ 2 % 2 ∧ (led4Bit v a).RD3 = v / 2 ^ 3 % 2 := by
  simp only [led4Bit, Nat.shiftRight_eq_div_pow, Nat.and_one_is_mod, Nat.mod_mod]
  exact ⟨trivial, trivial, trivial, trivial⟩

/-- The mode blocks when, of the modes driving RD0..RD3, only the binary display is
enabled: the outputs are those of `led4Bit` on the binary-display value. -/
theorem adcModes_binary_leds (s cur : Nat) (a : App)
    (hb : a.enableLedBinaryADC = true) (h4 : a.enableLedMarqueeADC = false)
    (h6 : a.enableLedMarqueeADC_Single = false) (h7 : a.enable10StateFromADC = false)
    (h8 : a.enable7TodayStateFromADC = false) (h9 : a.enableEvenOddADC = false) :
    (adcModes s cur a).RD0 = (led4Bit (binaryFromADC s) a).RD0 ∧
    (adcModes s cur a).RD1 = (led4Bit (binaryFromADC s) a).RD1 ∧
    (adcModes s cur a).RD2 = (led4Bit (binaryFromADC s) a).RD2 ∧
    (adcModes s cur a).RD3 = (led4Bit (binaryFromADC s) a).RD3 := by
  unfold adcModes
  cases h1 : a.enableServoADC <;> cases h3 : a.enableLedPwmADC <;>
    cases h5 : a.enableLedFlashADC <;>
    simp [hb, h4, h6, h7, h8, h9, h1, h3, h5, servoADC, ledBinaryADC, ledPwmADC,
      setCCP1ServoAngle, setCCP1PwmDutyCycle, setCCP2PwmDutyCycle, led4Bit] <;>
    (obtain ⟨z, c, t, st, d, l, e⟩ := ledFlashADC_shape s _
     rw [e]
     simp [hb, h4, h6, h7, h8, h9])

/-- A high time in 0..4096 us with prescale 16 gives a duty value of at most 1023; the
two 10-bit registers then hold it exactly. -/
theorem duty_of_length (length : ℚ) (a : App) (h0 : 0 ≤ length) (h1 : length < 4096) :
    dutyCCP1 (setCCP1PwmDutyCycle length 16 a) ≤ 1023 ∧
    dutyCCP2 (setCCP1PwmDutyCycle length 16 a) = dutyCCP2 a ∧
    dutyCCP2 (setCCP2PwmDutyCycle length 16 a) ≤ 1023 ∧
    dutyCCP1 (setCCP2PwmDutyCycle length 16 a) = dutyCCP1 a := by
  have hs0 : 0 ≤ specDuty length 16 := by
    unfold specDuty XTAL_FREQ
    apply Int.floor_nonneg.mpr
    apply div_nonneg h0
    norm_num
  have hs1 : specDuty length 16 ≤ 1023 := by
    unfold specDuty XTAL_FREQ
    have : ⌊length / (1000000 / ((4000000 : ℕ) : ℚ) * 16)⌋ < 1024 := by
      rw [Int.floor_lt]
      push_cast
      rw [div_lt_iff₀ (by norm_num)]
      linarith
    omega
  have hv := pwmDutyValue_eq length 16 hs0 hs1
  obtain ⟨s1, s2, s3, -, -⟩ := split_10bit (specDuty length 16).toNat (by omega)
  refine ⟨?_, rfl, ?_, rfl⟩
  · simp only [dutyCCP1, setCCP1PwmDutyCycle, hv, s1, s2, s3]; omega
  · simp only [dutyCCP2, setCCP2PwmDutyCycle, hv, s1, s2, s3]; omega

/-- Integer part of a scaled sample: bounds of `(int)(ADC * k / 1024)`. -/
theorem scaled_sample_range (s k : Nat) (hs : s ≤ 1023) (hk : k ≤ 4100) :
    0 ≤ wrapInt (truncQ ((s : ℚ) * k / 1024)) ∧
    wrapInt (truncQ ((s : ℚ) * k / 1024)) ≤ (s * k / 1024 : Nat) ∧
    (s * k / 1024 : Nat) ≤ 4095 := by
  have e : (s : ℚ) * k / 1024 = ((s * k : ℕ) : ℚ) / ((1024 : ℕ) : ℚ) := by push_cast; ring
  have h0 : (0 : ℚ) ≤ (s : ℚ) * k / 1024 := by positivity
  rw [truncQ_of_nonneg _ h0, e, Rat.floor_natCast_div_natCast]
  have hb : s * k ≤ 1023 * 4100 := Nat.mul_le_mul hs hk
  have h3 : s * k / 1024 ≤ 4095 := by omega
  unfold wrapInt
  omega

/-- Servo-from-sample block: duty at most 1023, channel 2 untouched. -/
theorem servoADC_duty (s : Nat) (a : App) (hs : s ≤ 1023) :
    dutyCCP1 (servoADC s a) ≤ 1023 ∧ dutyCCP2 (servoADC s a) = dutyCCP2 a := by
  obtain ⟨r0, r1, r2⟩ := scaled_sample_range s 180 hs (by norm_num)
  simp only [Nat.cast_ofNat] at r0 r1
  have hb : s * 180 / 1024 ≤ 179 := by omega
  have q0 : (0 : ℚ) ≤ (wrapInt (truncQ ((s : ℚ) * 180 / 1024)) : ℚ) := by exact_mod_cast r0
  have q1 : (wrapInt (truncQ ((s : ℚ) * 180 / 1024)) : ℚ) ≤ 179 := by
    have : wrapInt (truncQ ((s : ℚ) * 180 / 1024)) ≤ 179 := by omega
    exact_mod_cast this
  have h := duty_of_length (450 + ((2450 - 450) / 180) *
    (wrapInt (truncQ ((s : ℚ) * 180 / 1024)) : ℚ)) a (by nlinarith) (by nlinarith)
  exact ⟨h.1, h.2.1⟩

/-- Brightness-from-sample block: duty at most 1023, channel 1 untouched. -/
theorem ledPwmADC_duty (s : Nat) (a : App) (hs : s ≤ 1023) :
    dutyCCP2 (ledPwmADC s a) ≤ 1023 ∧ dutyCCP1 (ledPwmADC s a) = dutyCCP1 a := by
  obtain ⟨r0, r1, r2⟩ := scaled_sample_range s 4100 hs (by norm_num)
  simp only [Nat.cast_ofNat] at r0 r1
  have q0 : (0 : ℚ) ≤ (wrapInt (truncQ ((s : ℚ) * 4100 / 1024)) : ℚ) := by exact_mod_cast r0
  have q1 : (wrapInt (truncQ ((s : ℚ) * 4100 / 1024)) : ℚ) ≤ 4095 := by
    have : wrapInt (truncQ ((s : ℚ) * 4100 / 1024)) ≤ 4095 := by omega
    exact_mod_cast this
  have h := duty_of_length (wrapInt (truncQ ((s : ℚ) * 4100 / 1024)) : ℚ) a q0 (by linarith)
  exact ⟨h.2.2.1, h.2.2.2⟩

/-- Blink block: channel 1 untouched; channel 2 keeps its duty or takes the duty of a
high time of 1024 us or of 0. -/
theorem ledFlashADC_duty (x : Nat) (a : App) :
    dutyCCP1 (ledFlashADC x a) = dutyCCP1 a ∧
    (dutyCCP2 (ledFlashADC x a) = dutyCCP2 a ∨
     dutyCCP2 (ledFlashADC x a) = dutyCCP2 (setCCP2PwmDutyCycle 1024 16 a) ∨
     dutyCCP2 (ledFlashADC x a) = dutyCCP2 (setCCP2PwmDutyCycle 0 16 a)) := by
  unfold ledFlashADC
  simp only
  split_ifs
  all_goals first
    | exact ⟨rfl, Or.inl rfl⟩
    | exact ⟨rfl, Or.inr (Or.inl rfl)⟩
    | exact ⟨rfl, Or.inr (Or.inr rfl)⟩

/-- Writing the LEDs leaves both duty values alone. -/
theorem led4Bit_duty (v : Nat) (a : App) :
    dutyCCP1 (led4Bit v a) = dutyCCP1 a ∧ dutyCCP2 (led4Bit v a) = dutyCCP2 a :=
  ⟨rfl, rfl⟩

/-- The mode blocks keep both duty values at most 1024 for a smoothed sample in
0..1023. -/
theorem adcModes_duty (s cur : Nat) (a : App) (hs : s ≤ 1023)
    (h : dutyCCP1 a ≤ 1024 ∧ dutyCCP2 a ≤ 1024) :
    dutyCCP1 (adcModes s cur a) ≤ 1024 ∧ dutyCCP2 (adcModes s cur a) ≤ 1024 := by
  unfold adcModes
  simp only
  have h1 : dutyCCP1 (if a.enableServoADC then servoADC s a else a) ≤ 1024 ∧
      dutyCCP2 (if a.enableServoADC then servoADC s a else a) ≤ 1024 := by
    split_ifs
    · obtain ⟨e1, e2⟩ := servoADC_duty s a hs
      rw [e2]; exact ⟨by omega, h.2⟩
    · exact h
  generalize (if a.enableServoADC then servoADC s a else a) = a1 at h1 ⊢
  have h2 : dutyCCP1 (if a1.enableLedBinaryADC then ledBinaryADC s a1 else a1) ≤ 1024 ∧
      dutyCCP2 (if a1.enableLedBinaryADC then ledBinaryADC s a1 else a1) ≤ 1024 := by
    split_ifs
    · exact h1
    · exact h1
  generalize (if a1.enableLedBinaryADC then ledBinaryADC s a1 else a1) = a2 at h2 ⊢
  have h3 : dutyCCP1 (if a2.enableLedPwmADC then ledPwmADC s a2 else a2) ≤ 1024 ∧
      dutyCCP2 (if a2.enableLedPwmADC then ledPwmADC s a2 else a2) ≤ 1024 := by
    split_ifs
    · obtain ⟨e1, e2⟩ := ledPwmADC_duty s a2 hs
      rw [e2]; exact ⟨h2.1, by omega⟩
    · exact h2
  generalize (if a2.enableLedPwmADC then ledPwmADC s a2 else a2) = a3 at h3 ⊢
  have h4 : dutyCCP1 (if a3.enableLedMarqueeADC then ledMarqueeADC s a3 else a3) ≤ 1024 ∧
      dutyCCP2 (if a3.enableLedMarqueeADC then ledMarqueeADC s a3 else a3) ≤ 1024 := by
    split_ifs
    · exact h3
    · exact h3
  generalize (if a3.enableLedMarqueeADC then ledMarqueeADC s a3 else a3) = a4 at h4 ⊢
  have h5 : dutyCCP1 (if a4.enableLedFlashADC then ledFlashADC s a4 else a4) ≤ 1024 ∧
      dutyCCP2 (if a4.enableLedFlashADC then ledFlashADC s a4 else a4) ≤ 1024 := by
    split_ifs
    · obtain ⟨e1, e2⟩ := ledFlashADC_duty s a4
      have d1 := (duty_of_length 1024 a4 (by norm_num) (by norm_num)).2.2.1
      have d0 := (duty_of_length 0 a4 (by norm_num) (by norm_num)).2.2.1
      rw [e1]
      refine ⟨h4.1, ?_⟩
      rcases e2 with e | e | e <;> rw [e] <;> omega
    · exact h4
  generalize (if a4.enableLedFlashADC then ledFlashADC s a4 else a4) = a5 at h5 ⊢
  have h6 : dutyCCP1 (if a5.enableLedMarqueeADC_Single then ledMarqueeADC_Single s a5 else a5)
        ≤ 1024 ∧
      dutyCCP2 (if a5.enableLedMarqueeADC_Single then ledMarqueeADC_Single s a5 else a5)
        ≤ 1024 := by
    unfold ledMarqueeADC_Single
    simp only
    split_ifs <;> exact h5
  generalize (if a5.enableLedMarqueeADC_Single then ledMarqueeADC_Single s a5 else a5) = a6
    at h6 ⊢
  have h7 : dutyCCP1 (if a6.enable10StateFromADC then tenStateFromADC s a6 else a6) ≤ 1024 ∧
      dutyCCP2 (if a6.enable10StateFromADC then tenStateFromADC s a6 else a6) ≤ 1024 := by
    split_ifs
    · exact h6
    · exact h6
  generalize (if a6.enable10StateFromADC then tenStateFromADC s a6 else a6) = a7 at h7 ⊢
  have h8 : dutyCCP1 (if a7.enable7TodayStateFromADC then sevenTodayStateFromADC s a7 else a7)
        ≤ 1024 ∧
      dutyCCP2 (if a7.enable7TodayStateFromADC then sevenTodayStateFromADC s a7 else a7)
        ≤ 1024 := by
    split_ifs
    · exact h7
    · exact h7
  generalize (if a7.enable7TodayStateFromADC then sevenTodayStateFromADC s a7 else a7) = a8
    at h8 ⊢
  unfold evenOddADC
  simp only
  split_ifs <;> exact h8

/-- The line callback keeps both duty values at most 1024. -/
theorem onReadLine_duty (line : List Nat) (len : Nat) (a : App)
    (h : dutyCCP1 a ≤ 1024 ∧ dutyCCP2 a ≤ 1024) :
    dutyCCP1 (onReadLine line len a).1 ≤ 1024 ∧ dutyCCP2 (onReadLine line len a).1 ≤ 1024 := by
  unfold onReadLine
  by_cases hr : line.headD 0 = 114
  · rw [if_pos hr]
    unfold resetCommand
    simp only
    split_ifs <;> exact h
  · rw [if_neg hr]
    simp only
    have hu : dutyCCP1 (uartServoAngle line a).1 ≤ 1024 ∧
        dutyCCP2 (uartServoAngle line a).1 ≤ 1024 := by
      obtain ⟨r0, r1⟩ := uartAngle_range line
      obtain ⟨e1, e2⟩ := servo_duty_le (uartAngle line)
        { a with currentServoAngle := uartAngle line } r0 r1
      exact ⟨by unfold uartServoAngle; simp only; omega,
        by unfold uartServoAngle; simp only; rw [e2]; exact h.2⟩
    cases hs : a.enableSetServoAngleUart
    · simp only [Bool.false_eq_true, if_false]
      split_ifs <;> exact h
    · simp only [if_true]
      split_ifs <;> exact hu

/-! ## C16: the duty never exceeds the period -/

/-- C16. With the configuration of `main` (FOSC 4 MHz, Timer2 prescale 16,
`setTimer2InterruptPeriod(4100, 16, 1)` storing PR2 = 255, hence a 10-bit period of
4 * (PR2 + 1) = 1024), every duty value 4 * coarse + fine written by a control path is at
most the period: the servo macro for an angle in 0..180 (the UART, button and foreground
paths), the servo and brightness blocks of the conversion handler for a smoothed sample
in 0..1023, and the blink values for on and off.  The conversion handler, for samples in
0..1023, and the line callback, for every line, keep both duty values within the
period. -/
theorem duty_within_period :
    setTimer2InterruptPeriod 4100 16 1 = some 255 ∧
    (∀ (angle : Int) (a : App), 0 ≤ angle → angle ≤ 180 →
      dutyCCP1 (setCCP1ServoAngle angle 16 a) ≤ 4 * (255 + 1)) ∧
    (∀ (s : Nat) (a : App), s ≤ 1023 → dutyCCP1 (servoADC s a) ≤ 4 * (255 + 1)) ∧
    (∀ (s : Nat) (a : App), s ≤ 1023 → dutyCCP2 (ledPwmADC s a) ≤ 4 * (255 + 1)) ∧
    (∀ a : App, dutyCCP2 (setCCP2PwmDutyCycle 1024 16 a) ≤ 4 * (255 + 1) ∧
      dutyCCP2 (setCCP2PwmDutyCycle 0 16 a) ≤ 4 * (255 + 1)) ∧
    (∀ (r : Nat) (a : App), r ≤ 1023 → a.lastADC ≤ 1023 →
      dutyCCP1 a ≤ 4 * (255 + 1) → dutyCCP2 a ≤ 4 * (255 + 1) →
      dutyCCP1 (adcBlock r a) ≤ 4 * (255 + 1) ∧ dutyCCP2 (adcBlock r a) ≤ 4 * (255 + 1)) ∧
    (∀ (line : List Nat) (len : Nat) (a : App),
      dutyCCP1 a ≤ 4 * (255 + 1) → dutyCCP2 a ≤ 4 * (255 + 1) →
      dutyCCP1 (onReadLine line len a).1 ≤ 4 * (255 + 1) ∧
      dutyCCP2 (onReadLine line len a).1 ≤ 4 * (255 + 1)) := by
  refine ⟨?_, ?_, ?_, ?_, ?_, ?_, ?_⟩
  · norm_num [setTimer2InterruptPeriod, staticAssertLe, castUnsigned, truncQ, timerCounts_eq]
    rfl
  · intro angle a h0 h1
    have := (servo_duty_le angle a h0 h1).1
    omega
  · intro s a hs
    have := (servoADC_duty s a hs).1
    omega
  · intro s a hs
    have := (ledPwmADC_duty s a hs).1
    omega
  · intro a
    have d1 := (duty_of_length 1024 a (by norm_num) (by norm_num)).2.2.1
    have d0 := (duty_of_length 0 a (by norm_num) (by norm_num)).2.2.1
    constructor <;> omega
  · intro r a hr hp h1 h2
    have hs : adcSmoothed a.lastADC r ≤ 1023 := by unfold adcSmoothed; omega
    exact adcModes_duty (adcSmoothed a.lastADC r) r a hs ⟨h1, h2⟩
  · intro line len a h1 h2
    exact onReadLine_duty line len a ⟨h1, h2⟩

/-- C16, witness: angle 180 from the start-up state writes coarse 153 and fine 0, a duty
value of 612, below the period of 1024. -/
theorem duty_within_period_witness :
    dutyCCP1 (setCCP1ServoAngle 180 16 (mainStart 0 0)) ≤ 4 * (255 + 1) :=
  duty_within_period.2.1 180 (mainStart 0 0) (by decide) (by decide)

/-! ## C17: the servo frame -/

/-- C17, the code at the configuration of `main`: `setTimer2InterruptPeriod(4100, 16, 1)`
stores PR2 = 255, so the PWM period (PR2 + 1) * 4 * 16 / FOSC is 4096 us and not the
20000 us of a 20 ms frame; a request for 20000 us with prescale 16 does not pass the
static check. -/
theorem servo_frame_is_4096us :
    setTimer2InterruptPeriod 4100 16 1 = some 255 ∧
    pwmPeriodUs 255 16 = 4096 ∧ pwmPeriodUs 255 16 ≠ 20000 ∧
    setTimer2InterruptPeriod 20000 16 1 = none := by
  refine ⟨?_, ?_, ?_, ?_⟩
  · norm_num [setTimer2InterruptPeriod, staticAssertLe, castUnsigned, truncQ, timerCounts_eq]
    rfl
  · norm_num [pwmPeriodUs, XTAL_FREQ]
  · norm_num [pwmPeriodUs, XTAL_FREQ]
  · norm_num [setTimer2InterruptPeriod, staticAssertLe, castUnsigned, truncQ, timerCounts_eq]

/-! ## C18: the sample filter -/

/-- C18. On a conversion-complete event with raw sample r and stored previous sample p,
both in 0..1023, the handler runs every mode block on floor((p + r) / 2): the sum does
not overflow 16 bits, the value lies between min(p, r) and max(p, r), and after the event
the stored previous sample is r. -/
theorem sample_filter (r : Nat) (a : App) (hr : r ≤ 1023) (hp : a.lastADC ≤ 1023) :
    a.lastADC + r < 65536 ∧
    adcSmoothed a.lastADC r = (a.lastADC + r) / 2 ∧
    min a.lastADC r ≤ adcSmoothed a.lastADC r ∧
    adcSmoothed a.lastADC r ≤ max a.lastADC r ∧
    adcBlock r a = { adcModes ((a.lastADC + r) / 2) r a with lastADC := r } ∧
    (adcBlock r a).lastADC = r := by
  have e : adcSmoothed a.lastADC r = (a.lastADC + r) / 2 := by
    unfold adcSmoothed
    rw [Nat.mod_eq_of_lt (by omega)]
  refine ⟨by omega, e, by rw [e]; omega, by rw [e]; omega, ?_, rfl⟩
  unfold adcBlock
  rw [e]

/-- C18, witness: previous sample 0 at start-up, raw sample 682: the smoothed value is
341. -/
theorem sample_filter_witness :
    adcSmoothed (mainStart 0 0).lastADC 682 = ((mainStart 0 0).lastADC + 682) / 2 ∧
    (adcBlock 682 (mainStart 0 0)).lastADC = 682 :=
  have h := sample_filter 682 (mainStart 0 0) (by decide) (by decide)
  ⟨h.2.1, h.2.2.2.2.2⟩

/-! ## C19: binary display from the sample -/

/-- C19. With the binary display the only enabled mode among those driving RD0..RD3, for
every smoothed value s in 0..1023 the value passed to `led4Bit` is floor(s * 15 / 1023),
it lies in 0..15, and after the mode blocks output RDk carries bit k of it. -/
theorem binary_from_sample (s cur : Nat) (a : App) (hs : s ≤ 1023)
    (hb : a.enableLedBinaryADC = true)
    (hoff : a.enableLedMarqueeADC = false ∧ a.enableLedMarqueeADC_Single = false ∧
      a.enable10StateFromADC = false ∧ a.enable7TodayStateFromADC = false ∧
      a.enableEvenOddADC = false) :
    binaryFromADC s = s * 15 / 1023 ∧ s * 15 / 1023 ≤ 15 ∧
    (adcModes s cur a).RD0 = (s * 15 / 1023) / 2 ^ 0 % 2 ∧
    (adcModes s cur a).RD1 = (s * 15 / 1023) / 2 ^ 1 % 2 ∧
    (adcModes s cur a).RD2 = (s * 15 / 1023) / 2 ^ 2 % 2 ∧
    (adcModes s cur a).RD3 = (s * 15 / 1023) / 2 ^ 3 % 2 := by
  obtain ⟨h4, h6, h7, h8, h9⟩ := hoff
  obtain ⟨m0, m1, m2, m3⟩ := adcModes_binary_leds s cur a hb h4 h6 h7 h8 h9
  obtain ⟨b0, b1, b2, b3⟩ := led4Bit_bits (binaryFromADC s) a
  have e := binaryFromADC_eq s hs
  rw [e] at b0 b1 b2 b3 m0 m1 m2 m3
  exact ⟨e, by omega, m0.trans b0, m1.trans b1, m2.trans b2, m3.trans b3⟩

/-- C19, witness: smoothed value 341 with only the binary display enabled shows 5,
RD0 = 1, RD1 = 0, RD2 = 1, RD3 = 0. -/
theorem binary_from_sample_witness :
    binaryFromADC 341 = 341 * 15 / 1023 ∧
    (adcModes 341 682 { mainStart 0 0 with enableLedBinaryADC := true }).RD0 =
      (341 * 15 / 1023) / 2 ^ 0 % 2 ∧
    (adcModes 341 682 { mainStart 0 0 with enableLedBinaryADC := true }).RD1 =
      (341 * 15 / 1023) / 2 ^ 1 % 2 :=
  have h := binary_from_sample 341 682 { mainStart 0 0 with enableLedBinaryADC := true }
    (by decide) (by decide) (by decide)
  ⟨h.1, h.2.2.1, h.2.2.2.1⟩

/-! ## C20: the binary-display examples -/

/-- C20, as stated, fails at 682: the binary-display mapping sends it to 10, not 9, and
the outputs RD3..RD0 show 1010, not 1001. -/
theorem binary_examples_counterexample :
    binaryFromADC 682 = 10 ∧ binaryFromADC 682 ≠ 9 ∧
    ((ledBinaryADC 682 (mainStart 0 0)).RD3, (ledBinaryADC 682 (mainStart 0 0)).RD2,
     (ledBinaryADC 682 (mainStart 0 0)).RD1, (ledBinaryADC 682 (mainStart 0 0)).RD0) =
      (1, 0, 1, 0) := by
  have e : binaryFromADC 682 = 10 := by rw [binaryFromADC_eq 682 (by norm_num)]
  refine ⟨e, by rw [e]; decide, ?_⟩
  unfold ledBinaryADC
  rw [e]
  rfl

/-- C20, amended. The binary-display mapping sends sample 0 to 0, shown as 0000, sample
1023 to 15, shown as 1111, and sample 682 to 10, shown as 1010 (outputs listed as
RD3, RD2, RD1, RD0). -/
theorem binary_examples (a : App) :
    binaryFromADC 0 = 0 ∧
    ((ledBinaryADC 0 a).RD3, (ledBinaryADC 0 a).RD2, (ledBinaryADC 0 a).RD1,
      (ledBinaryADC 0 a).RD0) = (0, 0, 0, 0) ∧
    binaryFromADC 1023 = 15 ∧
    ((ledBinaryADC 1023 a).RD3, (ledBinaryADC 1023 a).RD2, (ledBinaryADC 1023 a).RD1,
      (ledBinaryADC 1023 a).RD0) = (1, 1, 1, 1) ∧
    binaryFromADC 682 = 10 ∧
    ((ledBinaryADC 682 a).RD3, (ledBinaryADC 682 a).RD2, (ledBinaryADC 682 a).RD1,
      (ledBinaryADC 682 a).RD0) = (1, 0, 1, 0) := by
  have e0 : binaryFromADC 0 = 0 := by rw [binaryFromADC_eq 0 (by norm_num)]
  have e1 : binaryFromADC 1023 = 15 := by rw [binaryFromADC_eq 1023 (by norm_num)]
  have e2 : binaryFromADC 682 = 10 := by rw [binaryFromADC_eq 682 (by norm_num)]
  unfold ledBinaryADC
  rw [e0, e1, e2]
  exact ⟨rfl, rfl, rfl, rfl, rfl, rfl⟩

/-! ## Lemmas on guarded blocks -/

/-- The mode blocks run as the list of guarded blocks. -/
theorem adcModes_eq_runBlocks (s c : Nat) (a : App) :
    adcModes s c a = runBlocks (adcBlockList s c) a := rfl

/-- Running a concatenation of guarded blocks. -/
theorem runBlocks_append (xs ys : List ((App → Bool) × (App → App))) (a : App) :
    runBlocks (xs ++ ys) a = runBlocks ys (runBlocks xs a) := by
  unfold runBlocks
  rw [List.foldl_append]

/-- A property kept by every guarded block of a list is kept by the run. -/
theorem runBlocks_inv (P : App → Prop) (bs : List ((App → Bool) × (App → App)))
    (h : ∀ fb ∈ bs, ∀ x, P x → P (if fb.1 x then fb.2 x else x)) :
    ∀ a, P a → P (runBlocks bs a) := by
  induction bs with
  | nil => intro a ha; exact ha
  | cons b bs ih =>
    intro a ha
    have hb := h b (List.mem_cons_self _ _) a ha
    exact ih (fun fb hfb => h fb (List.mem_cons_of_mem _ hfb)) _ hb

/-- A view of the state that no block of a list changes is the same after the run. -/
theorem runBlocks_proj {β : Type} (π : App → β) (bs : List ((App → Bool) × (App → App)))
    (h : ∀ fb ∈ bs, ∀ x, π (fb.2 x) = π x) (a : App) :
    π (runBlocks bs a) = π a := by
  refine runBlocks_inv (fun x => π x = π a) bs ?_ a rfl
  intro fb hfb x hx
  show π (if fb.1 x then fb.2 x else x) = π a
  split_ifs
  · rw [h fb hfb x, hx]
  · exact hx

/-- Shape of the state after the direction-parity block. -/
theorem evenOddADC_shape (s c : Nat) (a : App) :
    ∃ v i, evenOddADC s c a = led4Bit v { a with adcIncreasing := i } := by
  unfold evenOddADC
  simp only
  split_ifs <;> exact ⟨_, _, rfl⟩

/-- Shape of the state after the single-LED marquee block. -/
theorem ledMarqueeADC_Single_shape (s : Nat) (a : App) :
    ∃ v, ledMarqueeADC_Single s a = led4Bit v a := by
  unfold ledMarqueeADC_Single
  simp only
  split_ifs <;> exact ⟨_, rfl⟩

/-- No mode block changes a feature flag or the stored previous sample. -/
theorem adcBlockList_flags (s c : Nat) :
    ∀ fb ∈ adcBlockList s c, ∀ x,
      (fun y => (flagsOf y, y.lastADC)) (fb.2 x) = (fun y => (flagsOf y, y.lastADC)) x := by
  intro fb hfb x
  simp only [adcBlockList, List.mem_cons, List.mem_singleton, List.not_mem_nil, or_false] at hfb
  rcases hfb with rfl | rfl | rfl | rfl | rfl | rfl | rfl | rfl | rfl
  · rfl
  · rfl
  · rfl
  · rfl
  · obtain ⟨z, k, t, st, d, l, e⟩ := ledFlashADC_shape s x
    simp only [e]; rfl
  · obtain ⟨v, e⟩ := ledMarqueeADC_Single_shape s x
    simp only [e]; rfl
  · rfl
  · rfl
  · obtain ⟨v, i, e⟩ := evenOddADC_shape s c x
    simp only [e]; rfl

/-- Components of equal flag lists. -/
theorem flags_components (a b : App) (h : flagsOf a = flagsOf b) :
    a.enableLedBinaryADC = b.enableLedBinaryADC ∧ a.enableServoADC = b.enableServoADC ∧
    a.enableLedPwmADC = b.enableLedPwmADC ∧ a.enableLedMarqueeADC = b.enableLedMarqueeADC ∧
    a.enableLedFlashADC = b.enableLedFlashADC ∧
    a.enableLedMarqueeADC_Single = b.enableLedMarqueeADC_Single ∧
    a.enable10StateFromADC = b.enable10StateFromADC ∧
    a.enable7TodayStateFromADC = b.enable7TodayStateFromADC ∧
    a.enableEvenOddADC = b.enableEvenOddADC := by
  simp only [flagsOf, List.cons.injEq, and_true] at h
  obtain ⟨h1, h2, h3, h4, -, -, -, -, h9, h10, h11, h12, h13, -, -, -⟩ := h
  exact ⟨h1, h2, h3, h4, h9, h10, h11, h12, h13⟩

/-! ## Lemmas on the blink mode -/

/-- The blink variables after the blink block, for a smoothed value in 0..1023. -/
theorem ledFlashADC_vars (s : Nat) (a : App) (hs : s ≤ 1023) :
    flashVars (ledFlashADC s a) =
      (s / 256 + 1,
       (if 50 * (s / 256 + 1) ≤
            ((if s / 256 + 1 ≠ a.ledFlashZone then 0 else a.ledFlashCounter) + 1) % 65536
          then 0
          else ((if s / 256 + 1 ≠ a.ledFlashZone then 0 else a.ledFlashCounter) + 1) % 65536),
       50 * (s / 256 + 1),
       (if 50 * (s / 256 + 1) ≤
            ((if s / 256 + 1 ≠ a.ledFlashZone then 0 else a.ledFlashCounter) + 1) % 65536
          then !a.ledFlashState else a.ledFlashState)) := by
  have hz : (if s < 256 then 1 else if s < 512 then 2 else if s < 768 then 3 else 4) =
      s / 256 + 1 := by split_ifs <;> omega
  have ht : (if s < 256 then 50 else if s < 512 then 100 else if s < 768 then 150 else 200) =
      50 * (s / 256 + 1) := by split_ifs <;> omega
  unfold ledFlashADC flashVars
  simp only [hz, ht, ge_iff_le]
  by_cases hzone : s / 256 + 1 = a.ledFlashZone
  · simp only [ne_eq, hzone, not_true_eq_false, if_false]
    split_ifs <;> simp [setCCP2PwmDutyCycle]
  · simp only [ne_eq, hzone, not_false_eq_true, if_true]
    split_ifs <;> rfl

/-- The blink variables after the blink block depend on the blink variables only. -/
theorem ledFlashADC_vars_congr (s : Nat) (a b : App) (hs : s ≤ 1023)
    (h : flashVars a = flashVars b) : flashVars (ledFlashADC s a) = flashVars (ledFlashADC s b) := by
  rw [ledFlashADC_vars s a hs, ledFlashADC_vars s b hs]
  simp only [flashVars, Prod.mk.injEq] at h
  obtain ⟨h1, h2, -, h4⟩ := h
  rw [h1, h2, h4]

/-- The blocks before and after the blink block leave the blink variables alone. -/
theorem adcBlockList_flashVars (s c : Nat) :
    ∀ fb ∈ (adcBlockList s c).take 4 ++ (adcBlockList s c).drop 5, ∀ x,
      flashVars (fb.2 x) = flashVars x := by
  intro fb hfb x
  simp only [adcBlockList, List.take, List.drop, List.cons_append, List.nil_append,
    List.mem_cons, List.mem_singleton, List.not_mem_nil, or_false] at hfb
  rcases hfb with rfl | rfl | rfl | rfl | rfl | rfl | rfl | rfl
  · rfl
  · rfl
  · rfl
  · rfl
  · obtain ⟨v, e⟩ := ledMarqueeADC_Single_shape s x
    simp only [e]; rfl
  · rfl
  · rfl
  · obtain ⟨v, i, e⟩ := evenOddADC_shape s c x
    simp only [e]; rfl

/-- The mode blocks split around the blink block. -/
theorem adcModes_split_flash (s c : Nat) (a : App) :
    adcModes s c a =
      runBlocks ((adcBlockList s c).drop 5)
        (if (runBlocks ((adcBlockList s c).take 4) a).enableLedFlashADC
          then ledFlashADC s (runBlocks ((adcBlockList s c).take 4) a)
          else runBlocks ((adcBlockList s c).take 4) a) := rfl

/-- With the blink mode enabled, the blink variables after the mode blocks are those the
blink block computes from the blink variables at entry. -/
theorem adcModes_flashVars (s c : Nat) (a : App) (hs : s ≤ 1023)
    (hf : a.enableLedFlashADC = true) :
    flashVars (adcModes s c a) = flashVars (ledFlashADC s a) ∧
    flagsOf (adcModes s c a) = flagsOf a := by
  have hflags : flagsOf (adcModes s c a) = flagsOf a := by
    have := runBlocks_proj (fun y => (flagsOf y, y.lastADC)) (adcBlockList s c)
      (adcBlockList_flags s c) a
    rw [adcModes_eq_runBlocks]
    exact (Prod.mk.inj this).1
  refine ⟨?_, hflags⟩
  rw [adcModes_split_flash]
  have hpre_flags := runBlocks_proj (fun y => (flagsOf y, y.lastADC))
    ((adcBlockList s c).take 4)
    (fun fb hfb => adcBlockList_flags s c fb (List.mem_of_mem_take hfb)) a
  have hpre_vars := runBlocks_proj flashVars ((adcBlockList s c).take 4)
    (fun fb hfb => adcBlockList_flashVars s c fb (List.mem_append_left _ hfb)) a
  have hflag : (runBlocks ((adcBlockList s c).take 4) a).enableLedFlashADC = true := by
    have := (flags_components _ _ (Prod.mk.inj hpre_flags).1).2.2.2.2.1
    rw [this, hf]
  rw [hflag, if_pos rfl]
  rw [runBlocks_proj flashVars ((adcBlockList s c).drop 5)
    (fun fb hfb => adcBlockList_flashVars s c fb (List.mem_append_right _ hfb))]
  exact ledFlashADC_vars_congr s _ _ hs hpre_vars

/-- One event inside the stored zone: the counter advances modulo the threshold and the
state toggles exactly when it wraps. -/
theorem flash_event (z r : Nat) (a : App) (hz : 1 ≤ z ∧ z ≤ 4)
    (hf : a.enableLedFlashADC = true) (hzone : a.ledFlashZone = z)
    (hc : a.ledFlashCounter < 50 * z)
    (hs : adcSmoothed a.lastADC r ≤ 1023 ∧ adcSmoothed a.lastADC r / 256 + 1 = z) :
    flashVars (adcBlock r a) =
      (z, (a.ledFlashCounter + 1) % (50 * z), 50 * z,
       xor a.ledFlashState (decide (a.ledFlashCounter + 1 = 50 * z))) ∧
    (adcBlock r a).enableLedFlashADC = true ∧ (adcBlock r a).lastADC = r := by
  obtain ⟨hv, hfl⟩ := adcModes_flashVars (adcSmoothed a.lastADC r) r a hs.1 hf
  have hflag : (adcBlock r a).enableLedFlashADC = true := by
    have := (flags_components _ _ hfl).2.2.2.2.1
    show (adcModes (adcSmoothed a.lastADC r) r a).enableLedFlashADC = true
    rw [this, hf]
  refine ⟨?_, hflag, rfl⟩
  have e : flashVars (adcBlock r a) = flashVars (adcModes (adcSmoothed a.lastADC r) r a) := rfl
  rw [e, hv, ledFlashADC_vars _ a hs.1, hs.2, hzone]
  simp only [ne_eq, not_true_eq_false, if_false]
  have h1 : (a.ledFlashCounter + 1) % 65536 = a.ledFlashCounter + 1 := by omega
  rw [h1]
  by_cases hw : a.ledFlashCounter + 1 = 50 * z
  · have h2 : 50 * z ≤ a.ledFlashCounter + 1 := by omega
    rw [if_pos h2, if_pos h2]
    simp [hw]
  · have h2 : ¬ 50 * z ≤ a.ledFlashCounter + 1 := by omega
    have h3 : (a.ledFlashCounter + 1) % (50 * z) = a.ledFlashCounter + 1 :=
      Nat.mod_eq_of_lt (by omega)
    rw [if_neg h2, if_neg h2]
    simp [hw, h3]

/-- A run inside the stored zone: closed form of the blink variables. -/
theorem flash_run (z : Nat) (hz : 1 ≤ z ∧ z ≤ 4) (rs : List Nat) :
    ∀ a : App, a.enableLedFlashADC = true → a.ledFlashZone = z →
      a.ledFlashThreshold = 50 * z → a.ledFlashCounter < 50 * z →
      (∀ s ∈ smoothedRun rs a.lastADC, s ≤ 1023 ∧ s / 256 + 1 = z) →
      flashVars (adcRun rs a) =
        (z, (a.ledFlashCounter + rs.length) % (50 * z), 50 * z,
         xor a.ledFlashState
           (decide ((a.ledFlashCounter + rs.length) / (50 * z) % 2 = 1))) := by
  have hT : 0 < 50 * z := by omega
  induction rs with
  | nil =>
    intro a _ hzone hthr hc _
    have h0 : a.ledFlashCounter / (50 * z) = 0 := Nat.div_eq_of_lt hc
    simp [adcRun, flashVars, hzone, hthr, Nat.mod_eq_of_lt hc, h0]
  | cons r rs ih =>
    intro a hf hzone hthr hc hin
    have hs := hin (adcSmoothed a.lastADC r) (by simp [smoothedRun])
    obtain ⟨e1, e2, e3⟩ := flash_event z r a hz hf hzone hc hs
    simp only [flashVars, Prod.mk.injEq] at e1
    obtain ⟨v1, v2, v3, v4⟩ := e1
    have hc' : (adcBlock r a).ledFlashCounter < 50 * z := by
      rw [v2]; exact Nat.mod_lt _ hT
    have hin' : ∀ s ∈ smoothedRun rs (adcBlock r a).lastADC, s ≤ 1023 ∧ s / 256 + 1 = z := by
      intro s hsm
      rw [e3] at hsm
      exact hin s (by simp [smoothedRun, hsm])
    have := ih (adcBlock r a) e2 v1 v3 hc' hin'
    show flashVars (adcRun rs (adcBlock r a)) = _
    rw [this, v2, v4]
    simp only [List.length_cons, Prod.mk.injEq, true_and]
    by_cases hw : a.ledFlashCounter + 1 = 50 * z
    · have a1 : (a.ledFlashCounter + 1) % (50 * z) = 0 := by rw [hw, Nat.mod_self]
      have a2 : a.ledFlashCounter + (rs.length + 1) = 50 * z + rs.length := by omega
      have a3 : (50 * z + rs.length) / (50 * z) = rs.length / (50 * z) + 1 := by
        rw [Nat.add_div_left _ hT]
      simp only [a1, a2, Nat.zero_add, Nat.add_mod_left, a3, hw, decide_True, true_and]
      by_cases hp : rs.length / (50 * z) % 2 = 1
      · have hq : ¬ (rs.length / (50 * z) + 1) % 2 = 1 := by omega
        simp [hp, hq]
      · have hq : (rs.length / (50 * z) + 1) % 2 = 1 := by omega
        simp [hp, hq]
    · have a1 : (a.ledFlashCounter + 1) % (50 * z) = a.ledFlashCounter + 1 :=
        Nat.mod_eq_of_lt (by omega)
      have a2 : a.ledFlashCounter + (rs.length + 1) = a.ledFlashCounter + 1 + rs.length := by
        omega
      simp only [a1, a2, hw, decide_False, Bool.xor_false, and_self]

/-- Prefixes of a run have the prefixes of its smoothed values. -/
theorem smoothedRun_take (rs : List Nat) :
    ∀ (k p : Nat), smoothedRun (rs.take k) p = (smoothedRun rs p).take k := by
  induction rs with
  | nil => intro k p; simp [smoothedRun]
  | cons r rs ih =>
    intro k p
    cases k with
    | zero => simp [smoothedRun]
    | succ k => simp [smoothedRun, ih]

/-- The blink block in closed form, for a smoothed value in 0..1023. -/
theorem ledFlashADC_eq (s : Nat) (a : App) (hs : s ≤ 1023) :
    ledFlashADC s a =
      if 50 * (s / 256 + 1) ≤
          ((if s / 256 + 1 ≠ a.ledFlashZone then 0 else a.ledFlashCounter) + 1) % 65536 then
        setCCP2PwmDutyCycle (if (!a.ledFlashState) = true then 1024 else 0) 16
          { a with ledFlashZone := s / 256 + 1, ledFlashCounter := 0,
                   ledFlashThreshold := 50 * (s / 256 + 1),
                   ledFlashState := !a.ledFlashState }
      else
        { a with ledFlashZone := s / 256 + 1,
                 ledFlashCounter :=
                   ((if s / 256 + 1 ≠ a.ledFlashZone then 0 else a.ledFlashCounter) + 1) % 65536,
                 ledFlashThreshold := 50 * (s / 256 + 1) } := by
  have hz : (if s < 256 then 1 else if s < 512 then 2 else if s < 768 then 3 else 4) =
      s / 256 + 1 := by split_ifs <;> omega
  have ht : (if s < 256 then 50 else if s < 512 then 100 else if s < 768 then 150 else 200) =
      50 * (s / 256 + 1) := by split_ifs <;> omega
  unfold ledFlashADC
  simp only [hz, ht, ge_iff_le]
  by_cases hzone : s / 256 + 1 = a.ledFlashZone
  · simp only [ne_eq, hzone, not_true_eq_false, if_false]
  · simp only [ne_eq, hzone, not_false_eq_true, if_true]


/-! ## C21: the blink zones -/

/-- C21. With the blink mode enabled, for every smoothed value s in 0..1023 the mode
blocks store zone floor(s/256)+1 and threshold 50 times the zone, one of 50, 100, 150,
200; when the stored zone differs from the new one the counter is 1 after the event, the
blink state keeps its value and the blink block leaves the CCP2 duty registers alone. -/
theorem blink_zones (s cur : Nat) (a : App) (hs : s ≤ 1023)
    (hf : a.enableLedFlashADC = true) :
    (adcModes s cur a).ledFlashZone = s / 256 + 1 ∧
    (adcModes s cur a).ledFlashThreshold = 50 * (s / 256 + 1) ∧
    (adcModes s cur a).ledFlashThreshold ∈ [50, 100, 150, 200] ∧
    (a.ledFlashZone ≠ s / 256 + 1 →
      (adcModes s cur a).ledFlashCounter = 1 ∧
      (adcModes s cur a).ledFlashState = a.ledFlashState ∧
      (ledFlashADC s a).DC2B = a.DC2B ∧ (ledFlashADC s a).CCPR2L = a.CCPR2L) := by
  obtain ⟨hv, -⟩ := adcModes_flashVars s cur a hs hf
  rw [ledFlashADC_vars s a hs] at hv
  simp only [flashVars, Prod.mk.injEq] at hv
  obtain ⟨v1, v2, v3, v4⟩ := hv
  have hz : s / 256 + 1 = 1 ∨ s / 256 + 1 = 2 ∨ s / 256 + 1 = 3 ∨ s / 256 + 1 = 4 := by
    omega
  refine ⟨v1, v3, ?_, ?_⟩
  · rw [v3]
    rcases hz with h | h | h | h <;> rw [h] <;> simp
  · intro hne
    have hne' : s / 256 + 1 ≠ a.ledFlashZone := fun h => hne h.symm
    have h1 : ¬ 50 * (s / 256 + 1) ≤ (0 + 1) % 65536 := by omega
    rw [if_pos hne'] at v2 v4
    rw [if_neg h1] at v2 v4
    refine ⟨v2, v4, ?_, ?_⟩
    · rw [ledFlashADC_eq s a hs, if_pos hne', if_neg h1]
    · rw [ledFlashADC_eq s a hs, if_pos hne', if_neg h1]

/-- C21, witness: smoothed value 300 at start-up with the blink mode enabled: the stored
zone 1 gives way to zone 2 with threshold 100, and the counter restarts at 1. -/
theorem blink_zones_witness :
    (adcModes 300 600 { mainStart 0 0 with enableLedFlashADC := true }).ledFlashZone =
      300 / 256 + 1 ∧
    (adcModes 300 600 { mainStart 0 0 with enableLedFlashADC := true }).ledFlashThreshold =
      50 * (300 / 256 + 1) ∧
    (adcModes 300 600 { mainStart 0 0 with enableLedFlashADC := true }).ledFlashCounter = 1 :=
  have h := blink_zones 300 600 { mainStart 0 0 with enableLedFlashADC := true }
    (by decide) rfl
  ⟨h.1, h.2.1, (h.2.2.2 (by decide)).1⟩

/-- The blink variables after the first n events of a run that stays in the stored zone
and starts with counter 0. -/
theorem flash_take (z : Nat) (rs : List Nat) (a : App) (hz : 1 ≤ z ∧ z ≤ 4)
    (hf : a.enableLedFlashADC = true) (hzone : a.ledFlashZone = z)
    (hthr : a.ledFlashThreshold = 50 * z) (hc : a.ledFlashCounter = 0)
    (hin : ∀ s ∈ smoothedRun rs a.lastADC, s ≤ 1023 ∧ s / 256 + 1 = z)
    (n : Nat) (hn : n ≤ rs.length) :
    flashVars (adcRun (rs.take n) a) =
      (z, n % (50 * z), 50 * z, xor a.ledFlashState (decide (n / (50 * z) % 2 = 1))) := by
  have hin' : ∀ s ∈ smoothedRun (rs.take n) a.lastADC, s ≤ 1023 ∧ s / 256 + 1 = z := by
    intro s hs
    rw [smoothedRun_take] at hs
    exact hin s (List.mem_of_mem_take hs)
  have h := flash_run z hz (rs.take n) a hf hzone hthr (by omega) hin'
  rw [h, hc, List.length_take, Nat.min_eq_left hn, Nat.zero_add]

/-! ## C22: the blink period -/

/-- C22. With the blink mode enabled, from a state with counter 0, stored zone z and
threshold T = 50 z, along a run whose smoothed values all stay in zone z, the blink state
changes on event number k + 1 exactly when T divides k + 1, and after every event the
counter is (k + 1) mod T, below T. -/
theorem blink_period (z : Nat) (rs : List Nat) (a : App) (hz : 1 ≤ z ∧ z ≤ 4)
    (hf : a.enableLedFlashADC = true) (hzone : a.ledFlashZone = z)
    (hthr : a.ledFlashThreshold = 50 * z) (hc : a.ledFlashCounter = 0)
    (hin : ∀ s ∈ smoothedRun rs a.lastADC, s ≤ 1023 ∧ s / 256 + 1 = z)
    (k : Nat) (hk : k < rs.length) :
    ((adcRun (rs.take (k + 1)) a).ledFlashState ≠ (adcRun (rs.take k) a).ledFlashState ↔
      50 * z ∣ k + 1) ∧
    (adcRun (rs.take (k + 1)) a).ledFlashCounter = (k + 1) % (50 * z) ∧
    (adcRun (rs.take (k + 1)) a).ledFlashCounter < 50 * z := by
  have h0 := flash_take z rs a hz hf hzone hthr hc hin k (by omega)
  have h1 := flash_take z rs a hz hf hzone hthr hc hin (k + 1) (by omega)
  simp only [flashVars, Prod.mk.injEq] at h0 h1
  obtain ⟨-, -, -, s0⟩ := h0
  obtain ⟨-, c1, -, s1⟩ := h1
  have hT : 0 < 50 * z := by omega
  refine ⟨?_, c1, by rw [c1]; exact Nat.mod_lt _ hT⟩
  rw [s0, s1, Nat.dvd_iff_mod_eq_zero]
  have hz4 : z = 1 ∨ z = 2 ∨ z = 3 ∨ z = 4 := by omega
  by_cases hd : (k + 1) % (50 * z) = 0
  · have e : ((k + 1) / (50 * z) % 2 = 1) ↔ ¬ (k / (50 * z) % 2 = 1) := by
      rcases hz4 with rfl | rfl | rfl | rfl <;> omega
    by_cases hp : k / (50 * z) % 2 = 1
    · have hq : ¬ ((k + 1) / (50 * z) % 2 = 1) := fun h => (e.mp h) hp
      cases a.ledFlashState <;> simp [hp, hq, hd]
    · have hq : (k + 1) / (50 * z) % 2 = 1 := e.mpr hp
      cases a.ledFlashState <;> simp [hp, hq, hd]
  · have e : ((k + 1) / (50 * z) % 2 = 1) ↔ (k / (50 * z) % 2 = 1) := by
      rcases hz4 with rfl | rfl | rfl | rfl <;> omega
    by_cases hp : k / (50 * z) % 2 = 1
    · have hq : (k + 1) / (50 * z) % 2 = 1 := e.mpr hp
      cases a.ledFlashState <;> simp [hp, hq, hd]
    · have hq : ¬ ((k + 1) / (50 * z) % 2 = 1) := fun h => hp (e.mp h)
      cases a.ledFlashState <;> simp [hp, hq, hd]

set_option maxRecDepth 200000 in
/-- C22, witness: from start-up with the blink mode enabled (zone 1, threshold 50,
counter 0, previous sample 0), one hundred raw samples 0: the state changes on event 50
and not on event 49. -/
theorem blink_period_witness :
    ((adcRun ((List.replicate 100 0).take (49 + 1))
        { mainStart 0 0 with enableLedFlashADC := true }).ledFlashState ≠
      (adcRun ((List.replicate 100 0).take 49)
        { mainStart 0 0 with enableLedFlashADC := true }).ledFlashState ↔
      50 * 1 ∣ 49 + 1) ∧
    (adcRun ((List.replicate 100 0).take (49 + 1))
        { mainStart 0 0 with enableLedFlashADC := true }).ledFlashCounter =
      (49 + 1) % (50 * 1) :=
  have h := blink_period 1 (List.replicate 100 0)
    { mainStart 0 0 with enableLedFlashADC := true } (by decide) rfl rfl rfl rfl
    (by decide) 49 (by decide)
  ⟨h.1, h.2.1⟩

/-- The blocks after the blink block leave the CCP2 duty registers alone. -/
theorem adcBlockList_post_ccp2 (s c : Nat) :
    ∀ fb ∈ (adcBlockList s c).drop 5, ∀ x, dutyCCP2 (fb.2 x) = dutyCCP2 x := by
  intro fb hfb x
  simp only [adcBlockList, List.drop, List.mem_cons, List.mem_singleton, List.not_mem_nil,
    or_false] at hfb
  rcases hfb with rfl | rfl | rfl | rfl
  · obtain ⟨v, e⟩ := ledMarqueeADC_Single_shape s x
    simp only [e]; rfl
  · rfl
  · rfl
  · obtain ⟨v, i, e⟩ := evenOddADC_shape s c x
    simp only [e]; rfl

/-- The duty values written by the blink block: a high time of 1024 us is the duty value
256, a high time of 0 is the duty value 0. -/
theorem blink_duty_values (a : App) :
    dutyCCP2 (setCCP2PwmDutyCycle 1024 16 a) = 256 ∧
    dutyCCP2 (setCCP2PwmDutyCycle 0 16 a) = 0 := by
  have e1 : pwmDutyValue 1024 16 = 256 := by
    norm_num [pwmDutyValue, XTAL_FREQ]
    rfl
  have e0 : pwmDutyValue 0 16 = 0 := by
    norm_num [pwmDutyValue, XTAL_FREQ]
  unfold dutyCCP2 setCCP2PwmDutyCycle
  simp only [e1, e0]
  exact ⟨by decide, by decide⟩

/-- With the blink mode enabled, on an event where the counter reaches the threshold the
CCP2 duty value after the mode blocks is 256 when the state turns on and 0 when it turns
off. -/
theorem adcModes_blink_duty (s c : Nat) (a : App) (hs : s ≤ 1023)
    (hf : a.enableLedFlashADC = true) (hzone : a.ledFlashZone = s / 256 + 1)
    (hc : 50 * (s / 256 + 1) ≤ a.ledFlashCounter + 1) (hc2 : a.ledFlashCounter < 65535) :
    dutyCCP2 (adcModes s c a) = if a.ledFlashState then 0 else 256 := by
  rw [adcModes_split_flash]
  have hpre_flags := runBlocks_proj (fun y => (flagsOf y, y.lastADC))
    ((adcBlockList s c).take 4)
    (fun fb hfb => adcBlockList_flags s c fb (List.mem_of_mem_take hfb)) a
  have hpre_vars := runBlocks_proj flashVars ((adcBlockList s c).take 4)
    (fun fb hfb => adcBlockList_flashVars s c fb (List.mem_append_left _ hfb)) a
  have hflag : (runBlocks ((adcBlockList s c).take 4) a).enableLedFlashADC = true := by
    have := (flags_components _ _ (Prod.mk.inj hpre_flags).1).2.2.2.2.1
    rw [this, hf]
  rw [hflag, if_pos rfl, runBlocks_proj dutyCCP2 _ (adcBlockList_post_ccp2 s c)]
  simp only [flashVars, Prod.mk.injEq] at hpre_vars
  obtain ⟨p1, p2, -, p4⟩ := hpre_vars
  rw [ledFlashADC_eq _ _ hs, p1, p2, p4, hzone]
  have h1 : (a.ledFlashCounter + 1) % 65536 = a.ledFlashCounter + 1 := by omega
  simp only [ne_eq, not_true_eq_false, if_false, h1, hc, if_true]
  cases a.ledFlashState
  · simp only [Bool.not_false, if_true, Bool.false_eq_true, if_false]
    exact (blink_duty_values _).1
  · simp only [Bool.not_true, Bool.false_eq_true, if_false, if_true]
    exact (blink_duty_values _).2

/-! ## C23: the level of the blink output -/

/-- C23, the code: with the blink mode enabled, on a conversion-complete event where the
counter reaches the threshold the blink state is inverted and the duty value held by the
CCP2 registers is 0 when the state turns off and 256 when it turns on; `main` stores
PR2 = 255, a PWM period of 4 * (255 + 1) = 1024 duty units, so the output is high for a
quarter of the period and not for all of it. -/
theorem blink_output_level (r : Nat) (a : App)
    (hs : adcSmoothed a.lastADC r ≤ 1023) (hf : a.enableLedFlashADC = true)
    (hzone : a.ledFlashZone = adcSmoothed a.lastADC r / 256 + 1)
    (hc : a.ledFlashCounter + 1 = 50 * (adcSmoothed a.lastADC r / 256 + 1)) :
    (adcBlock r a).ledFlashState = (!a.ledFlashState) ∧
    dutyCCP2 (adcBlock r a) = (if a.ledFlashState then 0 else 256) ∧
    setTimer2InterruptPeriod 4100 16 1 = some 255 ∧
    dutyCCP2 (adcBlock r a) < 4 * (255 + 1) := by
  have hd : dutyCCP2 (adcBlock r a) = (if a.ledFlashState then 0 else 256) :=
    adcModes_blink_duty _ r a hs hf hzone (by omega) (by omega)
  have hst : (adcBlock r a).ledFlashState = (!a.ledFlashState) := by
    have hz : 1 ≤ adcSmoothed a.lastADC r / 256 + 1 ∧ adcSmoothed a.lastADC r / 256 + 1 ≤ 4 := by
      omega
    obtain ⟨e, -, -⟩ := flash_event _ r a hz hf hzone (by omega) ⟨hs, rfl⟩
    simp only [flashVars, Prod.mk.injEq] at e
    rw [e.2.2.2]
    simp [hc]
  refine ⟨hst, hd, ?_, ?_⟩
  · norm_num [setTimer2InterruptPeriod, staticAssertLe, castUnsigned, truncQ, timerCounts_eq]
    rfl
  · rw [hd]
    split_ifs <;> omega

/-- C23, the failing input: the blink mode enabled at start-up, counter 49, raw sample
0: the state turns on and the duty value written is 256, a quarter of the period of
1024. -/
theorem blink_output_level_witness :
    (adcBlock 0 { mainStart 0 0 with enableLedFlashADC := true,
                                     ledFlashCounter := 49 }).ledFlashState =
      (!({ mainStart 0 0 with enableLedFlashADC := true,
                              ledFlashCounter := 49 } : App).ledFlashState) ∧
    dutyCCP2 (adcBlock 0 { mainStart 0 0 with enableLedFlashADC := true,
                                              ledFlashCounter := 49 }) = 256 ∧
    dutyCCP2 (adcBlock 0 { mainStart 0 0 with enableLedFlashADC := true,
                                              ledFlashCounter := 49 }) < 4 * (255 + 1) :=
  have h := blink_output_level 0
    { mainStart 0 0 with enableLedFlashADC := true, ledFlashCounter := 49 }
    (by decide) rfl (by decide) (by decide)
  ⟨h.1, h.2.1, h.2.2.2⟩

/-! ## Lemmas on the displayed value -/

/-- The number shown after `led4Bit` is the value modulo 16. -/
theorem ledValue_led4Bit (v : Nat) (a : App) : ledValue (led4Bit v a) = v % 16 := by
  obtain ⟨h0, h1, h2, h3⟩ := led4Bit_bits v a
  unfold ledValue
  rw [h0, h1, h2, h3]
  norm_num
  omega

/-- The N-state blocks pass their local `state` to `led4Bit`. -/
theorem nState_blocks (s : Nat) (a : App) :
    tenStateFromADC s a = led4Bit (tenState s) a ∧
    sevenTodayStateFromADC s a = led4Bit (dateDigits.getD (sevenState s) 0) a :=
  ⟨rfl, rfl⟩

/-! ## C24: the N-state quantisation -/

/-- C24, as stated, fails at 205 and at 293: the formula of the claim gives state 2 for
both modes, with 1024/N taken exactly or as the integer quotient, while the code selects
state 1, displays 1 in the 10-state mode and the table entry 0 instead of 2 in the
7-state mode. -/
theorem n_state_counterexample :
    specNState 10 205 = 2 ∧ min (205 / (1024 / 10)) 9 = 2 ∧ tenState 205 = 1 ∧
    ledValue (tenStateFromADC 205 (mainStart 0 0)) = 1 ∧
    specNState 7 293 = 2 ∧ min (293 / (1024 / 7)) 6 = 2 ∧ sevenState 293 = 1 ∧
    ledValue (sevenTodayStateFromADC 293 (mainStart 0 0)) = 0 ∧
    dateDigits.getD 2 0 = 2 := by
  have e1 : specNState 10 205 = 2 := by
    unfold specNState
    have : ⌊((205 : ℕ) : ℚ) / (1024 / ((10 : ℕ) : ℚ))⌋ = 2 := by
      rw [Int.floor_eq_iff]; norm_num
    rw [this]; rfl
  have e2 : specNState 7 293 = 2 := by
    unfold specNState
    have : ⌊((293 : ℕ) : ℚ) / (1024 / ((7 : ℕ) : ℚ))⌋ = 2 := by
      rw [Int.floor_eq_iff]; norm_num
    rw [this]; rfl
  refine ⟨e1, by decide, by decide, ?_, e2, by decide, by decide, ?_, by decide⟩
  · rw [(nState_blocks 205 _).1, ledValue_led4Bit]; decide
  · rw [(nState_blocks 293 _).2, ledValue_led4Bit]; decide

/-- C24, amended. For every smoothed value s in 0..1023 the 10-state mode selects and
displays min(floor(s / 103), 9) and the 7-state mode selects index min(floor(s / 147), 6)
of its table and displays that entry. -/
theorem n_state_quantisation (s : Nat) (a : App) (hs : s ≤ 1023) :
    tenState s = min (s / 103) 9 ∧
    ledValue (tenStateFromADC s a) = min (s / 103) 9 ∧
    sevenState s = min (s / 147) 6 ∧
    sevenTodayStateFromADC s a = led4Bit (dateDigits.getD (min (s / 147) 6) 0) a ∧
    ledValue (sevenTodayStateFromADC s a) = dateDigits.getD (min (s / 147) 6) 0 := by
  have h10 : tenState s = min (s / 103) 9 := by
    unfold tenState
    simp only
    split_ifs <;> omega
  have h7 : sevenState s = min (s / 147) 6 := by
    unfold sevenState
    simp only
    split_ifs <;> omega
  have hd : ∀ i, i ≤ 6 → dateDigits.getD i 0 % 16 = dateDigits.getD i 0 := by
    intro i hi
    interval_cases i <;> decide
  refine ⟨h10, ?_, h7, ?_, ?_⟩
  · rw [(nState_blocks s a).1, ledValue_led4Bit, h10]; omega
  · rw [(nState_blocks s a).2, h7]
  · rw [(nState_blocks s a).2, ledValue_led4Bit, h7]
    exact hd _ (by omega)

/-- C24, witness of the amended claim: smoothed value 205 gives state 1 in the 10-state
mode. -/
theorem n_state_quantisation_witness :
    tenState 205 = min (205 / 103) 9 ∧
    ledValue (tenStateFromADC 205 (mainStart 0 0)) = min (205 / 103) 9 :=
  have h := n_state_quantisation 205 (mainStart 0 0) (by decide)
  ⟨h.1, h.2.1⟩

/-! ## Lemmas on the direction-parity mode -/

/-- The direction-parity block in closed form, for samples in 0..1023. -/
theorem evenOddADC_eq (s r : Nat) (a : App) (hs : s ≤ 1023) (hr : r ≤ 1023)
    (hp : a.lastADC ≤ 1023) :
    evenOddADC s r a =
      led4Bit (2 * min (s / 128) 7 +
          (if (if (r : Int) - (a.lastADC : Int) > 5 then true
               else if (r : Int) - (a.lastADC : Int) < -5 then false
               else a.adcIncreasing) = true then 1 else 0))
        { a with adcIncreasing :=
            (if (r : Int) - (a.lastADC : Int) > 5 then true
             else if (r : Int) - (a.lastADC : Int) < -5 then false else a.adcIncreasing) } := by
  have hd : wrapInt (wrapInt (r : Int) - wrapInt (a.lastADC : Int)) =
      (r : Int) - (a.lastADC : Int) := by
    unfold wrapInt
    omega
  have hst : (if (s >>> 7) % 256 > 7 then 7 else (s >>> 7) % 256) = min (s / 128) 7 := by
    rw [Nat.shiftRight_eq_div_pow]
    norm_num
    split_ifs <;> omega
  have hm : min (s / 128) 7 ≤ 7 := Nat.min_le_right _ _
  have v1 : (min (s / 128) 7 * 2 + 1) % 256 = 2 * min (s / 128) 7 + 1 := by omega
  have v0 : (min (s / 128) 7 * 2) % 256 = 2 * min (s / 128) 7 + 0 := by omega
  unfold evenOddADC
  simp only [hd, hst]
  by_cases h1 : (r : Int) - (a.lastADC : Int) > 5
  · simp only [h1, if_true, v1]
  · simp only [h1, if_false]
    by_cases h2 : (r : Int) - (a.lastADC : Int) < -5
    · simp only [h2, if_true, Bool.false_eq_true, if_false, v0]
    · simp only [h2, if_false]
      have hv : (if a.adcIncreasing = true then (min (s / 128) 7 * 2 + 1) % 256
            else (min (s / 128) 7 * 2) % 256) =
          2 * min (s / 128) 7 + (if a.adcIncreasing = true then 1 else 0) := by
        split_ifs <;> omega
      rw [hv]

/-- The direction-parity block for samples in 0..1023: the flag and the displayed
value. -/
theorem evenOddADC_spec (s r : Nat) (a : App) (hs : s ≤ 1023) (hr : r ≤ 1023)
    (hp : a.lastADC ≤ 1023) :
    (evenOddADC s r a).adcIncreasing =
      (if (r : Int) - (a.lastADC : Int) > 5 then true
       else if (r : Int) - (a.lastADC : Int) < -5 then false else a.adcIncreasing) ∧
    ledValue (evenOddADC s r a) =
      2 * min (s / 128) 7 + (if (evenOddADC s r a).adcIncreasing then 1 else 0) := by
  have e := evenOddADC_eq s r a hs hr hp
  have hflag : (evenOddADC s r a).adcIncreasing =
      (if (r : Int) - (a.lastADC : Int) > 5 then true
       else if (r : Int) - (a.lastADC : Int) < -5 then false else a.adcIncreasing) := by
    rw [e]; rfl
  refine ⟨hflag, ?_⟩
  rw [hflag]
  rw [e, ledValue_led4Bit]
  have hm : min (s / 128) 7 ≤ 7 := Nat.min_le_right _ _
  split_ifs <;> omega

/-- The blocks before the direction-parity block leave the direction flag, the feature
flags and the stored previous sample alone. -/
theorem adcBlockList_pre_evenOdd (s c : Nat) :
    ∀ fb ∈ (adcBlockList s c).take 8, ∀ x,
      (fun y => (flagsOf y, y.lastADC, y.adcIncreasing)) (fb.2 x) =
        (fun y => (flagsOf y, y.lastADC, y.adcIncreasing)) x := by
  intro fb hfb x
  simp only [adcBlockList, List.take, List.mem_cons, List.mem_singleton, List.not_mem_nil,
    or_false] at hfb
  rcases hfb with rfl | rfl | rfl | rfl | rfl | rfl | rfl | rfl
  · rfl
  · rfl
  · rfl
  · rfl
  · obtain ⟨z, k, t, st, d, l, e⟩ := ledFlashADC_shape s x
    simp only [e]; rfl
  · obtain ⟨v, e⟩ := ledMarqueeADC_Single_shape s x
    simp only [e]; rfl
  · rfl
  · rfl

/-- The mode blocks end with the direction-parity block. -/
theorem adcModes_split_evenOdd (s c : Nat) (a : App) :
    adcModes s c a =
      if (runBlocks ((adcBlockList s c).take 8) a).enableEvenOddADC
        then evenOddADC s c (runBlocks ((adcBlockList s c).take 8) a)
        else runBlocks ((adcBlockList s c).take 8) a := rfl

/-- One conversion-complete event with the direction-parity mode enabled. -/
theorem evenOdd_event (r : Nat) (a : App) (hr : r ≤ 1023) (hp : a.lastADC ≤ 1023)
    (hf : a.enableEvenOddADC = true) :
    (adcBlock r a).adcIncreasing =
      (if (r : Int) - (a.lastADC : Int) > 5 then true
       else if (r : Int) - (a.lastADC : Int) < -5 then false else a.adcIncreasing) ∧
    ledValue (adcBlock r a) =
      2 * min (adcSmoothed a.lastADC r / 128) 7 +
        (if (adcBlock r a).adcIncreasing then 1 else 0) ∧
    (adcBlock r a).enableEvenOddADC = true ∧ (adcBlock r a).lastADC = r := by
  have hs : adcSmoothed a.lastADC r ≤ 1023 := by
    unfold adcSmoothed
    omega
  have hpre := runBlocks_proj (fun y => (flagsOf y, y.lastADC, y.adcIncreasing))
    ((adcBlockList (adcSmoothed a.lastADC r) r).take 8)
    (adcBlockList_pre_evenOdd (adcSmoothed a.lastADC r) r) a
  simp only [Prod.mk.injEq] at hpre
  obtain ⟨p1, p2, p3⟩ := hpre
  have hflag := (flags_components _ _ p1).2.2.2.2.2.2.2.2
  have e : adcModes (adcSmoothed a.lastADC r) r a =
      evenOddADC (adcSmoothed a.lastADC r) r
        (runBlocks ((adcBlockList (adcSmoothed a.lastADC r) r).take 8) a) := by
    rw [adcModes_split_evenOdd, hflag, hf, if_pos rfl]
  obtain ⟨q1, q2⟩ := evenOddADC_spec (adcSmoothed a.lastADC r) r
    (runBlocks ((adcBlockList (adcSmoothed a.lastADC r) r).take 8) a) hs hr (by rw [p2]; exact hp)
  rw [p2, p3] at q1
  have e1 : (adcBlock r a).adcIncreasing =
      (adcModes (adcSmoothed a.lastADC r) r a).adcIncreasing := rfl
  have e2 : ledValue (adcBlock r a) = ledValue (adcModes (adcSmoothed a.lastADC r) r a) := rfl
  have e3 : (adcBlock r a).enableEvenOddADC =
      (adcModes (adcSmoothed a.lastADC r) r a).enableEvenOddADC := rfl
  have hfl : flagsOf (adcModes (adcSmoothed a.lastADC r) r a) = flagsOf a := by
    have := runBlocks_proj (fun y => (flagsOf y, y.lastADC))
      (adcBlockList (adcSmoothed a.lastADC r) r)
      (adcBlockList_flags (adcSmoothed a.lastADC r) r) a
    rw [adcModes_eq_runBlocks]
    exact (Prod.mk.inj this).1
  refine ⟨?_, ?_, ?_, rfl⟩
  · rw [e1, e, q1]
  · rw [e2, e1, e, q2]
  · rw [e3, (flags_components _ _ hfl).2.2.2.2.2.2.2.2, hf]

/-! ## C25: the direction-parity mapping -/

/-- C25. With the direction-parity mode enabled, on a conversion-complete event with raw
sample r and previous sample p, both in 0..1023, the direction flag becomes true if
r - p > 5, false if r - p < -5 and keeps its value otherwise; the displayed value is
2 min(floor(s / 128), 7) plus 1 if the updated flag is true, for the smoothed value s, and
lies in 0..15. -/
theorem direction_parity_mapping (r : Nat) (a : App) (hr : r ≤ 1023) (hp : a.lastADC ≤ 1023)
    (hf : a.enableEvenOddADC = true) :
    (adcBlock r a).adcIncreasing =
      (if (r : Int) - (a.lastADC : Int) > 5 then true
       else if (r : Int) - (a.lastADC : Int) < -5 then false else a.adcIncreasing) ∧
    ledValue (adcBlock r a) =
      2 * min (adcSmoothed a.lastADC r / 128) 7 +
        (if (adcBlock r a).adcIncreasing then 1 else 0) ∧
    ledValue (adcBlock r a) ≤ 15 := by
  obtain ⟨h1, h2, -, -⟩ := evenOdd_event r a hr hp hf
  refine ⟨h1, h2, ?_⟩
  rw [h2]
  have hm : min (adcSmoothed a.lastADC r / 128) 7 ≤ 7 := Nat.min_le_right _ _
  split_ifs <;> omega

/-- C25, witness: the direction-parity mode enabled at start-up, raw sample 1000 after the
previous sample 0: the flag is true and the displayed value is 2 * 3 + 1 = 7. -/
theorem direction_parity_mapping_witness :
    ledValue (adcBlock 1000 { mainStart 0 0 with enableEvenOddADC := true }) =
      2 * min (adcSmoothed
        ({ mainStart 0 0 with enableEvenOddADC := true } : App).lastADC 1000 / 128) 7 +
        (if (adcBlock 1000 { mainStart 0 0 with enableEvenOddADC := true }).adcIncreasing
          then 1 else 0) ∧
    ledValue (adcBlock 1000 { mainStart 0 0 with enableEvenOddADC := true }) ≤ 15 :=
  have h := direction_parity_mapping 1000 { mainStart 0 0 with enableEvenOddADC := true }
    (by decide) (by decide) rfl
  ⟨h.2.1, h.2.2⟩

/-- A run with the direction flag set in which no sample falls more than 5 below its
predecessor displays odd values only. -/
theorem odd_run (rs : List Nat) :
    ∀ a : App, a.enableEvenOddADC = true → a.adcIncreasing = true → a.lastADC ≤ 1023 →
      (∀ r ∈ rs, r ≤ 1023) → List.Chain (fun p r => p ≤ r + 5) a.lastADC rs →
      ∀ v ∈ displayRun rs a, v % 2 = 1 := by
  induction rs with
  | nil => intro a _ _ _ _ _ v hv; simp [displayRun] at hv
  | cons r rs ih =>
    intro a hf hinc hp hr hch v hv
    rw [List.chain_cons] at hch
    have hr1 : r ≤ 1023 := hr r (List.mem_cons_self _ _)
    obtain ⟨e1, e2, e3, e4⟩ := evenOdd_event r a hr1 hp hf
    have hflag : (adcBlock r a).adcIncreasing = true := by
      rw [e1, hinc]
      have : ¬ ((r : Int) - (a.lastADC : Int) < -5) := by omega
      simp only [this, if_false, ite_self]
    simp only [displayRun, List.mem_cons] at hv
    rcases hv with rfl | hv
    · rw [e2, hflag]
      simp only [if_true]
      omega
    · exact ih (adcBlock r a) e3 hflag (by rw [e4]; exact hr1)
        (fun x hx => hr x (List.mem_cons_of_mem _ hx)) (by rw [e4]; exact hch.2) v hv

/-- A run in which every sample falls more than 5 below its predecessor displays even
values only. -/
theorem even_run (rs : List Nat) :
    ∀ a : App, a.enableEvenOddADC = true → a.lastADC ≤ 1023 →
      (∀ r ∈ rs, r ≤ 1023) → List.Chain (fun p r => r + 5 < p) a.lastADC rs →
      ∀ v ∈ displayRun rs a, v % 2 = 0 := by
  induction rs with
  | nil => intro a _ _ _ _ v hv; simp [displayRun] at hv
  | cons r rs ih =>
    intro a hf hp hr hch v hv
    rw [List.chain_cons] at hch
    have hr1 : r ≤ 1023 := hr r (List.mem_cons_self _ _)
    obtain ⟨e1, e2, e3, e4⟩ := evenOdd_event r a hr1 hp hf
    have hflag : (adcBlock r a).adcIncreasing = false := by
      rw [e1]
      have h1 : ¬ ((r : Int) - (a.lastADC : Int) > 5) := by omega
      have h2 : (r : Int) - (a.lastADC : Int) < -5 := by omega
      simp only [h1, h2, if_false, if_true]
    simp only [displayRun, List.mem_cons] at hv
    rcases hv with rfl | hv
    · rw [e2, hflag]
      simp only [Bool.false_eq_true, if_false]
      omega
    · exact ih (adcBlock r a) e3 (by rw [e4]; exact hr1)
        (fun x hx => hr x (List.mem_cons_of_mem _ hx)) (by rw [e4]; exact hch.2) v hv

/-! ## C26: the direction-parity property -/

/-- C26, as stated, fails for the decreasing samples 1000, 900, 800 fed to the start-up
state with the direction-parity mode enabled: the displayed values are 7, 14, 12, the
first of them odd. -/
theorem direction_parity_counterexample :
    displayRun [1000, 900, 800] { mainStart 0 0 with enableEvenOddADC := true } =
      [7, 14, 12] ∧
    List.Chain' (fun p r => r + 5 < p) [1000, 900, 800] ∧
    ¬ (∀ v ∈ displayRun [1000, 900, 800] { mainStart 0 0 with enableEvenOddADC := true },
        v % 2 = 0) := by
  have e : displayRun [1000, 900, 800] { mainStart 0 0 with enableEvenOddADC := true } =
      [7, 14, 12] := by decide
  refine ⟨e, by simp, ?_⟩
  rw [e]
  decide

/-- C26, amended. From a state with the direction-parity mode enabled, the direction flag
true and the stored previous sample 0, as at start-up, for raw samples in 0..1023: when
every sample exceeds its predecessor by more than 5 all displayed values are odd; when
every sample is more than 5 below its predecessor the first displayed value is odd and
all later ones are even. -/
theorem direction_parity_runs (rs : List Nat) (a : App) (hf : a.enableEvenOddADC = true)
    (hinc : a.adcIncreasing = true) (hp : a.lastADC = 0) (hr : ∀ r ∈ rs, r ≤ 1023) :
    (List.Chain' (fun p r => p + 5 < r) rs → ∀ v ∈ displayRun rs a, v % 2 = 1) ∧
    (List.Chain' (fun p r => r + 5 < p) rs →
      (∀ v ∈ (displayRun rs a).head?, v % 2 = 1) ∧
      ∀ v ∈ (displayRun rs a).tail, v % 2 = 0) := by
  constructor
  · intro hch
    apply odd_run rs a hf hinc (by omega) hr
    cases rs with
    | nil => exact List.Chain.nil
    | cons r rs =>
      rw [List.chain_cons]
      refine ⟨by omega, ?_⟩
      exact List.Chain.imp (fun p q h => by omega) hch
  · intro hch
    cases rs with
    | nil => simp [displayRun]
    | cons r rs =>
      have hr1 : r ≤ 1023 := hr r (List.mem_cons_self _ _)
      obtain ⟨e1, e2, e3, e4⟩ := evenOdd_event r a hr1 (by omega) hf
      have hflag : (adcBlock r a).adcIncreasing = true := by
        rw [e1, hinc, hp]
        have : ¬ ((r : Int) - ((0 : Nat) : Int) < -5) := by omega
        simp only [this, if_false, ite_self]
      constructor
      · intro v hv
        simp only [displayRun, List.head?_cons, Option.mem_def, Option.some.injEq] at hv
        rw [← hv, e2, hflag]
        simp only [if_true]
        omega
      · intro v hv
        simp only [displayRun, List.tail_cons] at hv
        exact even_run rs (adcBlock r a) e3 (by rw [e4]; exact hr1)
          (fun x hx => hr x (List.mem_cons_of_mem _ hx)) (by rw [e4]; exact hch) v hv

/-- C26, witness of the amended claim: the samples 1000, 900, 800 at start-up with the
direction-parity mode enabled: every displayed value after the first is even. -/
theorem direction_parity_runs_witness :
    (displayRun [1000, 900, 800]
        { mainStart 0 0 with enableEvenOddADC := true }).tail.all
      (fun v => decide (v % 2 = 0)) = true :=
  List.all_eq_true.mpr (fun v hv => decide_eq_true
    (((direction_parity_runs [1000, 900, 800]
      { mainStart 0 0 with enableEvenOddADC := true }
      rfl rfl rfl (by decide)).2 (by simp)).2 v hv))

/-- The direction-parity block: the new flag and the outputs, from the raw difference,
the flag at entry and the smoothed value. -/
theorem evenOddADC_out (s c : Nat) (a : App) :
    (evenOddADC s c a).adcIncreasing =
      (if wrapInt (wrapInt (c : Int) - wrapInt (a.lastADC : Int)) > 5 then true
       else if wrapInt (wrapInt (c : Int) - wrapInt (a.lastADC : Int)) < -5 then false
       else a.adcIncreasing) ∧
    ledsOf (evenOddADC s c a) =
      ledsOf (led4Bit
        (if (if wrapInt (wrapInt (c : Int) - wrapInt (a.lastADC : Int)) > 5 then true
             else if wrapInt (wrapInt (c : Int) - wrapInt (a.lastADC : Int)) < -5 then false
             else a.adcIncreasing) = true
         then ((if (s >>> 7) % 256 > 7 then 7 else (s >>> 7) % 256) * 2 + 1) % 256
         else ((if (s >>> 7) % 256 > 7 then 7 else (s >>> 7) % 256) * 2) % 256)
        (mainStart 0 0)) := by
  unfold evenOddADC
  by_cases h1 : wrapInt (wrapInt (c : Int) - wrapInt (a.lastADC : Int)) > 5
  · simp only [h1, if_true]
    exact ⟨rfl, rfl⟩
  · by_cases h2 : wrapInt (wrapInt (c : Int) - wrapInt (a.lastADC : Int)) < -5
    · simp only [h1, h2, if_true, if_false]
      exact ⟨rfl, rfl⟩
    · simp only [h1, h2, if_false]
      exact ⟨rfl, rfl⟩

/-! ## C27: what each mapping reads -/

/-- C27, as stated, fails for the direction-parity mode: two events from start-up states
with the mode enabled that agree on the smoothed value 100 and on the direction flag, one
with raw sample 100 after 100, the other with raw sample 90 after 110, display 1 and
0. -/
theorem mapping_purity_counterexample :
    adcSmoothed 100 100 = adcSmoothed 110 90 ∧
    ({ mainStart 0 0 with enableEvenOddADC := true, lastADC := 100 } : App).adcIncreasing =
      ({ mainStart 0 0 with enableEvenOddADC := true, lastADC := 110 } : App).adcIncreasing ∧
    ledValue (adcBlock 100 { mainStart 0 0 with enableEvenOddADC := true, lastADC := 100 })
      = 1 ∧
    ledValue (adcBlock 90 { mainStart 0 0 with enableEvenOddADC := true, lastADC := 110 })
      = 0 := by
  refine ⟨by decide, rfl, by decide, by decide⟩

/-- C27, amended. The servo, binary, brightness, marquee, single-LED, 10-state and
7-state blocks write outputs that depend on the smoothed value alone; the blink block
produces blink variables and CCP2 duty registers that depend on the smoothed value, the
blink variables and the duty registers at entry; the direction-parity block produces a
flag and outputs that depend on the smoothed value, the flag at entry and the difference
between the raw sample and the previous one. -/
theorem mapping_purity (s r r' : Nat) (a b : App)
    (hflash : flashVars a = flashVars b)
    (hccp2 : a.DC2B = b.DC2B ∧ a.CCPR2L = b.CCPR2L)
    (hinc : a.adcIncreasing = b.adcIncreasing)
    (hdiff : wrapInt (wrapInt (r : Int) - wrapInt (a.lastADC : Int)) =
      wrapInt (wrapInt (r' : Int) - wrapInt (b.lastADC : Int))) :
    ((servoADC s a).DC1B, (servoADC s a).CCPR1L) =
      ((servoADC s b).DC1B, (servoADC s b).CCPR1L) ∧
    ledsOf (ledBinaryADC s a) = ledsOf (ledBinaryADC s b) ∧
    ((ledPwmADC s a).DC2B, (ledPwmADC s a).CCPR2L) =
      ((ledPwmADC s b).DC2B, (ledPwmADC s b).CCPR2L) ∧
    ledsOf (ledMarqueeADC s a) = ledsOf (ledMarqueeADC s b) ∧
    (flashVars (ledFlashADC s a) = flashVars (ledFlashADC s b) ∧
      ((ledFlashADC s a).DC2B, (ledFlashADC s a).CCPR2L) =
        ((ledFlashADC s b).DC2B, (ledFlashADC s b).CCPR2L)) ∧
    ledsOf (ledMarqueeADC_Single s a) = ledsOf (ledMarqueeADC_Single s b) ∧
    ledsOf (tenStateFromADC s a) = ledsOf (tenStateFromADC s b) ∧
    ledsOf (sevenTodayStateFromADC s a) = ledsOf (sevenTodayStateFromADC s b) ∧
    (ledsOf (evenOddADC s r a) = ledsOf (evenOddADC s r' b) ∧
      (evenOddADC s r a).adcIncreasing = (evenOddADC s r' b).adcIncreasing) := by
  refine ⟨rfl, rfl, rfl, rfl, ?_, ?_, rfl, rfl, ?_⟩
  · cases a
    cases b
    simp only [flashVars, Prod.mk.injEq] at hflash hccp2
    obtain ⟨h1, h2, h3, h4⟩ := hflash
    obtain ⟨h5, h6⟩ := hccp2
    subst h1 h2 h3 h4 h5 h6
    unfold ledFlashADC setCCP2PwmDutyCycle flashVars
    simp only [ge_iff_le]
    split_ifs <;> exact ⟨rfl, rfl⟩
  · unfold ledMarqueeADC_Single
    simp only
    split_ifs <;> rfl
  · obtain ⟨a1, a2⟩ := evenOddADC_out s r a
    obtain ⟨b1, b2⟩ := evenOddADC_out s r' b
    rw [a1, a2, b1, b2, hdiff, hinc]
    exact ⟨rfl, rfl⟩

/-- C27, witness of the amended claim: two states that differ in the stored previous
sample and in the outputs, with the same raw difference 10. -/
theorem mapping_purity_witness :
    ledsOf (evenOddADC 100 110 { mainStart 0 0 with lastADC := 100 }) =
      ledsOf (evenOddADC 100 60 { mainStart 0 0 with lastADC := 50, RD3 := 1 }) ∧
    flashVars (ledFlashADC 100 { mainStart 0 0 with lastADC := 100 }) =
      flashVars (ledFlashADC 100 { mainStart 0 0 with lastADC := 50, RD3 := 1 }) :=
  have h := mapping_purity 100 110 60 { mainStart 0 0 with lastADC := 100 }
    { mainStart 0 0 with lastADC := 50, RD3 := 1 } rfl ⟨rfl, rfl⟩ rfl (by decide)
  ⟨h.2.2.2.2.2.2.2.2.1, h.2.2.2.2.1.1⟩

/-! ## Lemmas on the modes that share the outputs RD0..RD3 -/

/-- The display blocks write outputs that do not depend on the state at entry. -/
theorem display_blocks_leds (s : Nat) (x y : App) :
    ledsOf (ledBinaryADC s x) = ledsOf (ledBinaryADC s y) ∧
    ledsOf (ledMarqueeADC s x) = ledsOf (ledMarqueeADC s y) ∧
    ledsOf (ledMarqueeADC_Single s x) = ledsOf (ledMarqueeADC_Single s y) ∧
    ledsOf (tenStateFromADC s x) = ledsOf (tenStateFromADC s y) ∧
    ledsOf (sevenTodayStateFromADC s x) = ledsOf (sevenTodayStateFromADC s y) := by
  refine ⟨rfl, rfl, ?_, rfl, rfl⟩
  unfold ledMarqueeADC_Single
  simp only
  split_ifs <;> rfl

/-- The servo, brightness and blink blocks leave RD0..RD3 alone. -/
theorem other_blocks_leds (s : Nat) (x : App) :
    ledsOf (servoADC s x) = ledsOf x ∧ ledsOf (ledPwmADC s x) = ledsOf x ∧
    ledsOf (ledFlashADC s x) = ledsOf x := by
  refine ⟨rfl, rfl, ?_⟩
  obtain ⟨z, k, t, st, d, l, e⟩ := ledFlashADC_shape s x
  rw [e]
  rfl

/-- The outputs of the direction-parity block depend on the state through the flag and
the stored previous sample only. -/
theorem evenOddADC_leds_congr (s c : Nat) (x y : App) (h1 : x.lastADC = y.lastADC)
    (h2 : x.adcIncreasing = y.adcIncreasing) :
    ledsOf (evenOddADC s c x) = ledsOf (evenOddADC s c y) := by
  rw [(evenOddADC_out s c x).2, (evenOddADC_out s c y).2, h1, h2]

/-- The first k mode blocks, k at most 8, leave the feature flags, the stored previous
sample and the direction flag alone. -/
theorem take_view (s c : Nat) (a : App) (k : Nat) (hk : k ≤ 8) :
    flagsOf (runBlocks ((adcBlockList s c).take k) a) = flagsOf a ∧
    (runBlocks ((adcBlockList s c).take k) a).lastADC = a.lastADC ∧
    (runBlocks ((adcBlockList s c).take k) a).adcIncreasing = a.adcIncreasing := by
  have e : (adcBlockList s c).take k = ((adcBlockList s c).take 8).take k := by
    rw [List.take_take, Nat.min_eq_left hk]
  have h := runBlocks_proj (fun y => (flagsOf y, y.lastADC, y.adcIncreasing))
    ((adcBlockList s c).take k)
    (fun fb hfb => adcBlockList_pre_evenOdd s c fb (by rw [e] at hfb; exact List.mem_of_mem_take hfb)) a
  simp only [Prod.mk.injEq] at h
  exact h

/-- One more guarded block at the end of a list. -/
theorem runBlocks_snoc (bs : List ((App → Bool) × (App → App))) (f : App → Bool)
    (g : App → App) (a : App) :
    runBlocks (bs ++ [(f, g)]) a =
      if f (runBlocks bs a) then g (runBlocks bs a) else runBlocks bs a := by
  rw [runBlocks_append]
  rfl

/-- After the mode blocks RD0..RD3 carry what the last enabled display mode in source
order writes; with no display mode enabled they are unchanged. -/
theorem adcModes_leds (s c : Nat) (a : App) :
    ledsOf (adcModes s c a) =
      if a.enableEvenOddADC then ledsOf (evenOddADC s c a)
      else if a.enable7TodayStateFromADC then ledsOf (sevenTodayStateFromADC s a)
      else if a.enable10StateFromADC then ledsOf (tenStateFromADC s a)
      else if a.enableLedMarqueeADC_Single then ledsOf (ledMarqueeADC_Single s a)
      else if a.enableLedMarqueeADC then ledsOf (ledMarqueeADC s a)
      else if a.enableLedBinaryADC then ledsOf (ledBinaryADC s a)
      else ledsOf a := by
  obtain ⟨f0, -, -⟩ := take_view s c a 0 (by omega)
  obtain ⟨f1, -, -⟩ := take_view s c a 1 (by omega)
  obtain ⟨f2, -, -⟩ := take_view s c a 2 (by omega)
  obtain ⟨f3, -, -⟩ := take_view s c a 3 (by omega)
  obtain ⟨f4, -, -⟩ := take_view s c a 4 (by omega)
  obtain ⟨f5, -, -⟩ := take_view s c a 5 (by omega)
  obtain ⟨f6, -, -⟩ := take_view s c a 6 (by omega)
  obtain ⟨f7, -, -⟩ := take_view s c a 7 (by omega)
  obtain ⟨f8, l8, i8⟩ := take_view s c a 8 (by omega)
  have g0 := (flags_components _ _ f0).2.1
  have g1 := (flags_components _ _ f1).1
  have g2 := (flags_components _ _ f2).2.2.1
  have g3 := (flags_components _ _ f3).2.2.2.1
  have g4 := (flags_components _ _ f4).2.2.2.2.1
  have g5 := (flags_components _ _ f5).2.2.2.2.2.1
  have g6 := (flags_components _ _ f6).2.2.2.2.2.2.1
  have g7 := (flags_components _ _ f7).2.2.2.2.2.2.2.1
  have g8 := (flags_components _ _ f8).2.2.2.2.2.2.2.2
  have s1 : ledsOf (runBlocks ((adcBlockList s c).take 1) a) = ledsOf a := by
    show ledsOf (runBlocks ((adcBlockList s c).take 0 ++ [(_, servoADC s)]) a) = _
    rw [runBlocks_snoc]
    split_ifs
    · exact (other_blocks_leds s _).1
    · rfl
  have s2 : ledsOf (runBlocks ((adcBlockList s c).take 2) a) =
      if a.enableLedBinaryADC then ledsOf (ledBinaryADC s a) else ledsOf a := by
    show ledsOf (runBlocks ((adcBlockList s c).take 1 ++ [(_, ledBinaryADC s)]) a) = _
    rw [runBlocks_snoc]
    simp only [g1]
    split_ifs
    · exact (display_blocks_leds s _ a).1
    · exact s1
  have s3 : ledsOf (runBlocks ((adcBlockList s c).take 3) a) =
      ledsOf (runBlocks ((adcBlockList s c).take 2) a) := by
    show ledsOf (runBlocks ((adcBlockList s c).take 2 ++ [(_, ledPwmADC s)]) a) = _
    rw [runBlocks_snoc]
    split_ifs
    · exact (other_blocks_leds s _).2.1
    · rfl
  have s4 : ledsOf (runBlocks ((adcBlockList s c).take 4) a) =
      if a.enableLedMarqueeADC then ledsOf (ledMarqueeADC s a)
      else ledsOf (runBlocks ((adcBlockList s c).take 3) a) := by
    show ledsOf (runBlocks ((adcBlockList s c).take 3 ++ [(_, ledMarqueeADC s)]) a) = _
    rw [runBlocks_snoc]
    simp only [g3]
    split_ifs
    · exact (display_blocks_leds s _ a).2.1
    · rfl
  have s5 : ledsOf (runBlocks ((adcBlockList s c).take 5) a) =
      ledsOf (runBlocks ((adcBlockList s c).take 4) a) := by
    show ledsOf (runBlocks ((adcBlockList s c).take 4 ++ [(_, ledFlashADC s)]) a) = _
    rw [runBlocks_snoc]
    split_ifs
    · exact (other_blocks_leds s _).2.2
    · rfl
  have s6 : ledsOf (runBlocks ((adcBlockList s c).take 6) a) =
      if a.enableLedMarqueeADC_Single then ledsOf (ledMarqueeADC_Single s a)
      else ledsOf (runBlocks ((adcBlockList s c).take 5) a) := by
    show ledsOf (runBlocks ((adcBlockList s c).take 5 ++ [(_, ledMarqueeADC_Single s)]) a) = _
    rw [runBlocks_snoc]
    simp only [g5]
    split_ifs
    · exact (display_blocks_leds s _ a).2.2.1
    · rfl
  have s7 : ledsOf (runBlocks ((adcBlockList s c).take 7) a) =
      if a.enable10StateFromADC then ledsOf (tenStateFromADC s a)
      else ledsOf (runBlocks ((adcBlockList s c).take 6) a) := by
    show ledsOf (runBlocks ((adcBlockList s c).take 6 ++ [(_, tenStateFromADC s)]) a) = _
    rw [runBlocks_snoc]
    simp only [g6]
    split_ifs
    · exact (display_blocks_leds s _ a).2.2.2.1
    · rfl
  have s8 : ledsOf (runBlocks ((adcBlockList s c).take 8) a) =
      if a.enable7TodayStateFromADC then ledsOf (sevenTodayStateFromADC s a)
      else ledsOf (runBlocks ((adcBlockList s c).take 7) a) := by
    show ledsOf (runBlocks ((adcBlockList s c).take 7 ++ [(_, sevenTodayStateFromADC s)]) a) = _
    rw [runBlocks_snoc]
    simp only [g7]
    split_ifs
    · exact (display_blocks_leds s _ a).2.2.2.2
    · rfl
  have s9 : ledsOf (adcModes s c a) =
      if a.enableEvenOddADC then ledsOf (evenOddADC s c a)
      else ledsOf (runBlocks ((adcBlockList s c).take 8) a) := by
    rw [adcModes_eq_runBlocks]
    show ledsOf (runBlocks ((adcBlockList s c).take 8 ++
      [(fun y => y.enableEvenOddADC, evenOddADC s c)]) a) = _
    rw [runBlocks_snoc]
    simp only [g8]
    split_ifs
    · exact evenOddADC_leds_congr s c _ a l8 i8
    · rfl
  rw [s9, s8, s7, s6, s5, s4, s3, s2]

/-- Function `onReadLine` with both numeric modes enabled, on a line that is not the
reset command: both blocks run, the angle block first. -/
theorem onReadLine_both (line : List Nat) (len : Nat) (a : App)
    (hr : line.headD 0 ≠ 114) (h1 : a.enableSetServoAngleUart = true)
    (h2 : a.enableUartToBinary = true) :
    onReadLine line len a =
      ((uartToBinary line (uartServoAngle line a).1).1,
       (uartServoAngle line a).2 ++ (uartToBinary line (uartServoAngle line a).1).2) := by
  have h3 : (uartServoAngle line a).1.enableUartToBinary = true := h2
  unfold onReadLine
  rw [if_neg hr]
  simp only [h1, if_true, h3]

/-! ## C28: overlapping activations -/

set_option maxRecDepth 200000 in
/-- C28, as stated, fails with both UART numeric modes enabled: the line "5" is taken by
both of them, the angle becomes 95, the outputs RD0..RD3 show 5 and both replies are
transmitted. -/
theorem overlapping_counterexample :
    (onReadLine (bytes "5") 1 { mainStart 0 0 with enableUartToBinary := true }).2 =
      bytes "Servo Angle:95\nBinary:5 -> 0101\n" ∧
    (onReadLine (bytes "5") 1
      { mainStart 0 0 with enableUartToBinary := true }).1.currentServoAngle = 95 ∧
    ledValue (onReadLine (bytes "5") 1
      { mainStart 0 0 with enableUartToBinary := true }).1 = 5 := by
  decide

/-- C28, amended. No activation is rejected: the conversion handler runs every enabled
mode block in source order, so that after an event RD0..RD3 carry what the last enabled
display mode in source order writes; with both UART numeric modes enabled a line that is
not the reset command sets the servo angle, writes RD0..RD3 from the clamped value and
transmits the angle reply followed by the binary reply. -/
theorem overlapping_modes (s c : Nat) (line : List Nat) (len : Nat) (a : App)
    (hr : line.headD 0 ≠ 114) (h1 : a.enableSetServoAngleUart = true)
    (h2 : a.enableUartToBinary = true) :
    adcModes s c a = runBlocks (adcBlockList s c) a ∧
    (ledsOf (adcModes s c a) =
      if a.enableEvenOddADC then ledsOf (evenOddADC s c a)
      else if a.enable7TodayStateFromADC then ledsOf (sevenTodayStateFromADC s a)
      else if a.enable10StateFromADC then ledsOf (tenStateFromADC s a)
      else if a.enableLedMarqueeADC_Single then ledsOf (ledMarqueeADC_Single s a)
      else if a.enableLedMarqueeADC then ledsOf (ledMarqueeADC s a)
      else if a.enableLedBinaryADC then ledsOf (ledBinaryADC s a)
      else ledsOf a) ∧
    (onReadLine line len a).1 = (uartToBinary line (uartServoAngle line a).1).1 ∧
    (onReadLine line len a).1.currentServoAngle = uartAngle line ∧
    ledsOf (onReadLine line len a).1 = ledsOf (led4Bit ((uartValue line).toNat % 256) a) ∧
    (onReadLine line len a).2 =
      bytes "Servo Angle:" ++ fmtD (uartAngle line) ++ bytes "\n" ++
        (uartToBinary line a).2 := by
  have e := onReadLine_both line len a hr h1 h2
  refine ⟨rfl, adcModes_leds s c a, ?_, ?_, ?_, ?_⟩
  · rw [e]
  · rw [e]; rfl
  · rw [e]; rfl
  · rw [e]; rfl

set_option maxRecDepth 200000 in
/-- C28, witness of the amended claim: both UART numeric modes and two display modes
enabled at start-up, the line "5". -/
theorem overlapping_modes_witness :
    (onReadLine (bytes "5") 1
      { mainStart 0 0 with enableUartToBinary := true, enableLedBinaryADC := true,
                           enable10StateFromADC := true }).2 =
      bytes "Servo Angle:" ++ fmtD (uartAngle (bytes "5")) ++ bytes "\n" ++
        (uartToBinary (bytes "5")
          { mainStart 0 0 with enableUartToBinary := true, enableLedBinaryADC := true,
                               enable10StateFromADC := true }).2 :=
  (overlapping_modes 1023 1023 (bytes "5") 1
    { mainStart 0 0 with enableUartToBinary := true, enableLedBinaryADC := true,
                         enable10StateFromADC := true } (by decide) rfl rfl).2.2.2.2.2

/-! ## C29: the dispatch of the high-priority handler -/

/-- C29. For every entry state, `H_ISR` enters the button, Timer1, Timer3 and conversion
blocks, in this order, exactly for the sources whose pending flag is set; on return the
four flags are clear; the application state is the result of the entered blocks and the
transmitted bytes are those of the button block; with no flag pending the whole state is
unchanged. -/
theorem high_priority_dispatch (x : Nat) (m : Machine) :
    (H_ISR x m).ran =
      m.ran ++ (if m.INT0IF then [Source.button] else []) ++
        (if m.TMR1IF then [Source.timer1] else []) ++
        (if m.TMR3IF then [Source.timer3] else []) ++
        (if m.ADIF then [Source.adc] else []) ∧
    (H_ISR x m).INT0IF = false ∧ (H_ISR x m).TMR1IF = false ∧
    (H_ISR x m).TMR3IF = false ∧ (H_ISR x m).ADIF = false ∧
    (H_ISR x m).app =
      (if m.ADIF then adcBlock x else id)
        ((if m.TMR1IF then timer1Block else id)
          (if m.INT0IF then (buttonBlock m.app).1 else m.app)) ∧
    (H_ISR x m).tx = m.tx ++ (if m.INT0IF then (buttonBlock m.app).2 else []) ∧
    (m.INT0IF = false → m.TMR1IF = false → m.TMR3IF = false → m.ADIF = false →
      H_ISR x m = m) := by
  obtain ⟨app, i0, t1, t3, ad, tmr, tx, ran⟩ := m
  cases i0 <;> cases t1 <;> cases t3 <;> cases ad <;> simp [H_ISR]

/-- C29, witness: a state with no flag pending is returned as it is. -/
theorem high_priority_dispatch_witness :
    H_ISR 0 { app := mainStart 0 0, INT0IF := false, TMR1IF := false, TMR3IF := false,
              ADIF := false, TMR1 := 0, tx := [], ran := [] } =
      { app := mainStart 0 0, INT0IF := false, TMR1IF := false, TMR3IF := false,
        ADIF := false, TMR1 := 0, tx := [], ran := [] } :=
  (high_priority_dispatch 0
      { app := mainStart 0 0, INT0IF := false, TMR1IF := false, TMR3IF := false,
        ADIF := false, TMR1 := 0, tx := [], ran := [] }).2.2.2.2.2.2.2
    rfl rfl rfl rfl

/-! ## Lemmas on the button block -/

/-- The press counter after the button block. -/
theorem buttonBlock_count (a : App) :
    (buttonBlock a).1.buttonClickCount = (a.buttonClickCount + 1) % 65536 := by
  unfold buttonBlock
  simp only
  split_ifs <;> rfl

/-- The characters printed by the button block: the count line, then one status line for
each enabled printing mode. -/
theorem buttonBlock_tx (a : App) :
    (buttonBlock a).2 =
      bytes "Button" ++ fmtD (wrapInt (a.buttonClickCount : Int)) ++ bytes "\n" ++
      (if a.enableServoTurnRangeSwitchButton then (servoTurnRangeSwitchButton a).2 else []) ++
      (if a.enableSequentialLedButton then (sequentialLedButton a).2 else []) ++
      (if a.enableSequentialLedButton_4 then
        (sequentialLedButton_4
          (if a.enableSequentialLedButton then (sequentialLedButton a).1 else a)).2
       else []) := by
  unfold buttonBlock
  simp only
  cases h1 : a.enableBinaryButtonCount <;> cases h2 : a.enableServoTurnRangeSwitchButton <;>
    cases h3 : a.enableServoTurnAngleButton <;> cases h4 : a.enableSequentialLedButton <;>
    cases h5 : a.enableSequentialLedButton_4 <;>
    simp [buttonCount, led4Bit, servoTurnRangeSwitchButton, servoTurnAngleButton,
      setCCP1ServoAngle, setCCP1PwmDutyCycle, sequentialLedButton, sequentialLedButton_4,
      h1, h2, h3, h4, h5]

/-- The Timer1 block leaves the press counter alone. -/
theorem timer1Block_count (a : App) :
    (timer1Block a).buttonClickCount = a.buttonClickCount := by
  have h3 : ∀ x : App, (timer1SequentialLed x).buttonClickCount = x.buttonClickCount := by
    intro x
    unfold timer1SequentialLed
    simp only
    split_ifs <;> rfl
  have h4 : ∀ x : App, (timer1SequentialLed_4 x).buttonClickCount = x.buttonClickCount := by
    intro x
    unfold timer1SequentialLed_4
    simp only
    split_ifs <;> rfl
  unfold timer1Block
  simp only
  split_ifs
  · rw [h4, h3]
  · rw [h3]
  · rw [h4]
  · rfl

/-- No mode block of the conversion handler changes the press counter. -/
theorem adcBlockList_count (s c : Nat) :
    ∀ fb ∈ adcBlockList s c, ∀ x, (fb.2 x).buttonClickCount = x.buttonClickCount := by
  intro fb hfb x
  simp only [adcBlockList, List.mem_cons, List.mem_singleton, List.not_mem_nil, or_false] at hfb
  rcases hfb with rfl | rfl | rfl | rfl | rfl | rfl | rfl | rfl | rfl
  · rfl
  · rfl
  · rfl
  · rfl
  · obtain ⟨z, k, t, st, d, l, e⟩ := ledFlashADC_shape s x
    simp only [e]
  · obtain ⟨v, e⟩ := ledMarqueeADC_Single_shape s x
    simp only [e]; rfl
  · rfl
  · rfl
  · obtain ⟨v, i, e⟩ := evenOddADC_shape s c x
    simp only [e]; rfl

/-- The conversion block leaves the press counter alone. -/
theorem adcBlock_count (r : Nat) (a : App) :
    (adcBlock r a).buttonClickCount = a.buttonClickCount := by
  have h := runBlocks_proj (fun y => y.buttonClickCount)
    (adcBlockList (adcSmoothed a.lastADC r) r) (adcBlockList_count _ r) a
  rw [← adcModes_eq_runBlocks] at h
  exact h

/-- The application state and the transmitted bytes after `H_ISR`. -/
theorem H_ISR_app_tx (x : Nat) (m : Machine) :
    (H_ISR x m).app =
      (if m.ADIF then adcBlock x else id)
        ((if m.TMR1IF then timer1Block else id)
          (if m.INT0IF then (buttonBlock m.app).1 else m.app)) ∧
    (H_ISR x m).tx = m.tx ++ (if m.INT0IF then (buttonBlock m.app).2 else []) ∧
    (H_ISR x m).INT0IF = false := by
  obtain ⟨app, i0, t1, t3, ad, tmr, tx, ran⟩ := m
  cases i0 <;> cases t1 <;> cases t3 <;> cases ad <;> simp [H_ISR]

/-- The press counter after `H_ISR` is the one left by the button block, if entered. -/
theorem H_ISR_count (x : Nat) (m : Machine) :
    (H_ISR x m).app.buttonClickCount =
      (if m.INT0IF then (buttonBlock m.app).1 else m.app).buttonClickCount := by
  rw [(H_ISR_app_tx x m).1]
  cases m.ADIF <;> cases m.TMR1IF <;>
    simp only [Bool.false_eq_true, if_false, if_true, id, adcBlock_count, timer1Block_count]

set_option maxRecDepth 200000 in
/-- The count line for a press counter of 32768: `%d` reads the 16 bits of the
`uint16_t` argument as a signed number. -/
theorem button_count_signed :
    (H_ISR 0 { app := { mainStart 0 0 with buttonClickCount := 32768 }, INT0IF := true,
               TMR1IF := false, TMR3IF := false, ADIF := false, TMR1 := 0, tx := [],
               ran := [] }).tx = bytes "Button-32768\n" := by
  decide

/-! ## C30: one press event per activation -/

set_option maxRecDepth 200000 in
/-- C30, as stated, fails with the range-switch mode enabled: one activation with the
button flag pending transmits two lines, the count line and a status line. -/
theorem button_press_counterexample :
    (H_ISR 0 { app := { mainStart 0 0 with enableServoTurnRangeSwitchButton := true },
               INT0IF := true, TMR1IF := false, TMR3IF := false, ADIF := false, TMR1 := 0,
               tx := [], ran := [] }).tx = bytes "Button0\nServo Range State:2\n" ∧
    bytes "Button0\nServo Range State:2\n" ≠ bytes "Button0\n" := by
  decide

/-- C30, amended. An activation of `H_ISR` with the button flag pending increases
`buttonClickCount` by 1 modulo 2^16 and returns with the button flag clear; for a count k
below 32768 before the increment it transmits the line "Button" k, then one status line
for each enabled printing mode of the button (range switch, 3-LED sequence, 4-LED
sequence), and this line alone when none of them is enabled.  An activation without the
button flag leaves `buttonClickCount` unchanged and transmits nothing. -/
theorem button_press (x : Nat) (m : Machine) :
    (m.INT0IF = true →
      (H_ISR x m).app.buttonClickCount = (m.app.buttonClickCount + 1) % 65536 ∧
      (H_ISR x m).INT0IF = false ∧
      (m.app.buttonClickCount < 32768 →
        (H_ISR x m).tx =
          m.tx ++ (bytes "Button" ++ fmtD (m.app.buttonClickCount : Int) ++ bytes "\n" ++
            (if m.app.enableServoTurnRangeSwitchButton
              then (servoTurnRangeSwitchButton m.app).2 else []) ++
            (if m.app.enableSequentialLedButton then (sequentialLedButton m.app).2 else []) ++
            (if m.app.enableSequentialLedButton_4 then
              (sequentialLedButton_4
                (if m.app.enableSequentialLedButton then (sequentialLedButton m.app).1
                 else m.app)).2
             else [])) ∧
        (m.app.enableServoTurnRangeSwitchButton = false →
          m.app.enableSequentialLedButton = false →
          m.app.enableSequentialLedButton_4 = false →
          (H_ISR x m).tx =
            m.tx ++ (bytes "Button" ++ fmtD (m.app.buttonClickCount : Int) ++ bytes "\n")))) ∧
    (m.INT0IF = false →
      (H_ISR x m).app.buttonClickCount = m.app.buttonClickCount ∧
      (H_ISR x m).tx = m.tx) := by
  obtain ⟨-, htx, hflag⟩ := H_ISR_app_tx x m
  have hcount := H_ISR_count x m
  constructor
  · intro h
    rw [h] at hcount htx
    simp only [if_true] at hcount htx
    refine ⟨by rw [hcount, buttonBlock_count], hflag, ?_⟩
    intro hk
    have hw : wrapInt (m.app.buttonClickCount : Int) = (m.app.buttonClickCount : Int) := by
      unfold wrapInt
      omega
    have e := buttonBlock_tx m.app
    rw [hw] at e
    refine ⟨by rw [htx, e], ?_⟩
    intro h2 h4 h5
    rw [htx, e, h2, h4, h5]
    simp
  · intro h
    rw [h] at hcount htx
    simp only [Bool.false_eq_true, if_false, List.append_nil] at hcount htx
    exact ⟨hcount, htx⟩

/-- C30, witness of the amended claim: the first press after start-up. -/
theorem button_press_witness :
    (H_ISR 0 { app := mainStart 0 0, INT0IF := true, TMR1IF := false, TMR3IF := false,
               ADIF := false, TMR1 := 0, tx := [], ran := [] }).app.buttonClickCount =
      ((mainStart 0 0).buttonClickCount + 1) % 65536 ∧
    (H_ISR 0 { app := mainStart 0 0, INT0IF := true, TMR1IF := false, TMR3IF := false,
               ADIF := false, TMR1 := 0, tx := [], ran := [] }).tx =
      [] ++ (bytes "Button" ++ fmtD ((mainStart 0 0).buttonClickCount : Int) ++ bytes "\n") :=
  have h := (button_press 0
      { app := mainStart 0 0, INT0IF := true, TMR1IF := false, TMR3IF := false,
        ADIF := false, TMR1 := 0, tx := [], ran := [] }).1 rfl
  ⟨h.1, (h.2.2 (by decide)).2 rfl rfl rfl⟩

/-! ## C31: the four-LED display -/

/-- C31. For every value v, `led4Bit` sets RDk to bit k of v for k in 0..3, gives the same
state for v and for v mod 16, gives RD0 = 1, RD1 = 0, RD2 = 1, RD3 = 0 for v = 5, and
changes nothing but the four outputs. -/
theorem led4Bit_effect (v : Nat) (a : App) :
    (led4Bit v a).RD0 = v / 2 ^ 0 % 2 ∧ (led4Bit v a).RD1 = v / 2 ^ 1 % 2 ∧
    (led4Bit v a).RD2 = v / 2 ^ 2 % 2 ∧ (led4Bit v a).RD3 = v / 2 ^ 3 % 2 ∧
    led4Bit v a = led4Bit (v % 16) a ∧
    ((led4Bit 5 a).RD0, (led4Bit 5 a).RD1, (led4Bit 5 a).RD2, (led4Bit 5 a).RD3) =
      (1, 0, 1, 0) ∧
    led4Bit v a =
      { a with RD0 := v / 2 ^ 0 % 2, RD1 := v / 2 ^ 1 % 2, RD2 := v / 2 ^ 2 % 2,
               RD3 := v / 2 ^ 3 % 2 } := by
  obtain ⟨h0, h1, h2, h3⟩ := led4Bit_bits v a
  have hframe : led4Bit v a =
      { a with RD0 := v / 2 ^ 0 % 2, RD1 := v / 2 ^ 1 % 2, RD2 := v / 2 ^ 2 % 2,
               RD3 := v / 2 ^ 3 % 2 } := by
    simp only [led4Bit, Nat.shiftRight_eq_div_pow, Nat.and_one_is_mod, Nat.mod_mod]
  have hframe16 : led4Bit (v % 16) a =
      { a with RD0 := v / 2 ^ 0 % 2, RD1 := v / 2 ^ 1 % 2, RD2 := v / 2 ^ 2 % 2,
               RD3 := v / 2 ^ 3 % 2 } := by
    have e0 : v % 16 / 2 ^ 0 % 2 = v / 2 ^ 0 % 2 := by norm_num
    have e1 : v % 16 / 2 ^ 1 % 2 = v / 2 ^ 1 % 2 := by norm_num; omega
    have e2 : v % 16 / 2 ^ 2 % 2 = v / 2 ^ 2 % 2 := by norm_num; omega
    have e3 : v % 16 / 2 ^ 3 % 2 = v / 2 ^ 3 % 2 := by norm_num; omega
    simp only [led4Bit, Nat.shiftRight_eq_div_pow, Nat.and_one_is_mod, Nat.mod_mod,
      e0, e1, e2, e3]
  exact ⟨h0, h1, h2, h3, by rw [hframe, hframe16], rfl, hframe⟩

/-! ## C37: the quantised modes stay in range -/

/-- The single-LED marquee block passes its local `ledPosition` on. -/
theorem ledMarqueeADC_Single_eq (s : Nat) (a : App) :
    ledMarqueeADC_Single s a =
      if singleLedPosition s = 0 ∨ singleLedPosition s = 5 then led4Bit 0 a
      else led4Bit ((1 <<< (singleLedPosition s - 1)) % 256) a := rfl

/-- C37. For every smoothed value the 10-state mode displays a value in 0..9, the
7-state mode indexes its table of 7 entries with an index in 0..6, and the single-LED
marquee computes a position in 0..5 and leaves at most one of RD0..RD3 high. -/
theorem quantised_in_range (s : Nat) (a : App) :
    tenState s ≤ 9 ∧ ledValue (tenStateFromADC s a) ≤ 9 ∧
    sevenState s ≤ 6 ∧ sevenState s < dateDigits.length ∧
    singleLedPosition s ≤ 5 ∧
    (ledMarqueeADC_Single s a).RD0 + (ledMarqueeADC_Single s a).RD1 +
      (ledMarqueeADC_Single s a).RD2 + (ledMarqueeADC_Single s a).RD3 ≤ 1 := by
  have h10 : tenState s ≤ 9 := by
    unfold tenState
    simp only
    split_ifs <;> omega
  have h7 : sevenState s ≤ 6 := by
    unfold sevenState
    simp only
    split_ifs <;> omega
  have hp : singleLedPosition s ≤ 5 := by
    unfold singleLedPosition
    simp only
    split_ifs <;> omega
  refine ⟨h10, ?_, h7, ?_, hp, ?_⟩
  · rw [(nState_blocks s a).1, ledValue_led4Bit]
    omega
  · have : dateDigits.length = 7 := rfl
    omega
  · rw [ledMarqueeADC_Single_eq]
    generalize singleLedPosition s = p at hp
    interval_cases p <;> simp [led4Bit]

/-! ## Lemmas on the angle blocks -/

/-- The angle computed from a line, from the local `i`. -/
theorem uartAngle_eq (line : List Nat) :
    uartAngle line =
      if Int.tmod (wrapInt (uartInput line + 90)) 181 < 0
        then wrapInt (Int.tmod (wrapInt (uartInput line + 90)) 181 + 180)
        else Int.tmod (wrapInt (uartInput line + 90)) 181 := rfl

/-- The angle block of `onReadLine`, whatever the binary mode does after it. -/
theorem onReadLine_servo (line : List Nat) (len : Nat) (a : App)
    (hr : line.headD 0 ≠ 114) (h1 : a.enableSetServoAngleUart = true) :
    (onReadLine line len a).1.currentServoAngle = uartAngle line ∧
    dutyCCP1 (onReadLine line len a).1 =
      dutyCCP1 (setCCP1ServoAngle (uartAngle line) 16 a) := by
  unfold onReadLine
  rw [if_neg hr]
  simp only [h1, if_true]
  have h3 : (uartServoAngle line a).1.enableUartToBinary = a.enableUartToBinary := rfl
  cases h2 : a.enableUartToBinary
  · rw [h2] at h3
    simp only [h3, Bool.false_eq_true, if_false]
    exact ⟨rfl, rfl⟩
  · rw [h2] at h3
    simp only [h3, if_true]
    exact ⟨rfl, rfl⟩

/-! ## C39: the angle from the serial line -/

set_option maxRecDepth 200000 in
/-- C39, as stated, fails for the line "--5": `atoi` parses it as 0, but the angle block
skips the first '-' and negates `atoi` of the rest, -5, so the angle is 95 and not 90. -/
theorem uart_angle_counterexample :
    atoi (bytes "--5") = 0 ∧ (bytes "--5").headD 0 ≠ 114 ∧
    uartInput (bytes "--5") = 5 ∧ uartAngle (bytes "--5") = 95 ∧
    (onReadLine (bytes "--5") 3 (mainStart 0 0)).1.currentServoAngle = 95 := by
  decide

/-- C39, amended. With the angle mode enabled, for every line that is not the reset
command the angle stored and passed to the servo lies in 0..180 and the duty value
written is at most 612 (a high time of at most 2450 us); when i + 90 fits a 16-bit `int`,
for the parsed integer i (`atoi` of the line, or minus `atoi` of the rest after a leading
'-'), the angle is the truncating remainder of i + 90 by 181, plus 180 when negative; a
line with i = 0 yields 90. -/
theorem uart_angle_range (line : List Nat) (len : Nat) (a : App)
    (hr : line.headD 0 ≠ 114) (h1 : a.enableSetServoAngleUart = true) :
    (onReadLine line len a).1.currentServoAngle = uartAngle line ∧
    0 ≤ uartAngle line ∧ uartAngle line ≤ 180 ∧
    dutyCCP1 (onReadLine line len a).1 ≤ 612 ∧
    (-32768 ≤ uartInput line + 90 ∧ uartInput line + 90 ≤ 32767 →
      uartAngle line =
        if Int.tmod (uartInput line + 90) 181 < 0
          then Int.tmod (uartInput line + 90) 181 + 180
          else Int.tmod (uartInput line + 90) 181) ∧
    (uartInput line = 0 → uartAngle line = 90) := by
  obtain ⟨e1, e2⟩ := onReadLine_servo line len a hr h1
  obtain ⟨r0, r1⟩ := uartAngle_range line
  refine ⟨e1, r0, r1, ?_, ?_, ?_⟩
  · rw [e2]
    exact (servo_duty_le (uartAngle line) a r0 r1).1
  · intro hrep
    have hw : wrapInt (uartInput line + 90) = uartInput line + 90 := by
      unfold wrapInt
      omega
    rw [uartAngle_eq, hw]
    obtain ⟨t0, t1⟩ := tmod_181_range (uartInput line + 90)
    split_ifs with h
    · unfold wrapInt
      omega
    · rfl
  · intro h0
    rw [uartAngle_eq, h0]
    decide

set_option maxRecDepth 200000 in
/-- C39, witness of the amended claim: the empty line with the configuration of `main`
yields the angle 90. -/
theorem uart_angle_range_witness :
    (onReadLine [] 0 (mainStart 0 0)).1.currentServoAngle = uartAngle [] ∧
    uartAngle [] = 90 :=
  have h := uart_angle_range [] 0 (mainStart 0 0) (by decide) rfl
  ⟨h.1, h.2.2.2.2.2 (by decide)⟩

/-! ## C40: what triggers the reset -/

/-- Function `onReadLine` on a line that is not the reset command: the reply is not the
reset reply and the variables the reset assigns are unchanged. -/
theorem onReadLine_no_reset (line : List Nat) (len : Nat) (a : App)
    (hr : line.headD 0 ≠ 114) :
    (onReadLine line len a).2 ≠ bytes "Reset OK\n" ∧
    (onReadLine line len a).1.buttonClickCount = a.buttonClickCount ∧
    (onReadLine line len a).1.servoAngleState = a.servoAngleState ∧
    (onReadLine line len a).1.servoTurnRangeState = a.servoTurnRangeState ∧
    (onReadLine line len a).1.seqLedSpeedState = a.seqLedSpeedState ∧
    (onReadLine line len a).1.seqLedPosition = a.seqLedPosition ∧
    (onReadLine line len a).1.seqLedCounter = a.seqLedCounter ∧
    (onReadLine line len a).1.seqLedThreshold = a.seqLedThreshold := by
  have hR : (bytes "Reset OK\n").head? = some 82 := by decide
  have hS : ∀ t : List Nat, (bytes "Servo Angle:" ++ t).head? = some 83 := fun t => rfl
  have hB : ∀ t : List Nat, (bytes "Binary:" ++ t).head? = some 66 := fun t => rfl
  have h3 : (uartServoAngle line a).1.enableUartToBinary = a.enableUartToBinary := rfl
  cases h1 : a.enableSetServoAngleUart <;> cases h2 : a.enableUartToBinary
  · have e : onReadLine line len a = (a, []) := by
      unfold onReadLine
      rw [if_neg hr]
      simp only [h1, h2, Bool.false_eq_true, if_false, List.append_nil]
    rw [e]
    refine ⟨?_, rfl, rfl, rfl, rfl, rfl, rfl, rfl⟩
    intro h
    have := congrArg List.head? h
    rw [hR] at this
    simp at this
  · rw [onReadLine_binary line len a hr h1 h2]
    refine ⟨?_, rfl, rfl, rfl, rfl, rfl, rfl, rfl⟩
    intro h
    have := congrArg List.head? h
    rw [hR] at this
    unfold uartToBinary at this
    simp only [List.append_assoc] at this
    rw [hB] at this
    exact absurd this (by decide)
  · have e : onReadLine line len a = uartServoAngle line a := by
      rw [h2] at h3
      unfold onReadLine
      rw [if_neg hr]
      simp only [h1, h3, Bool.false_eq_true, if_false, if_true, List.append_nil]
    rw [e]
    refine ⟨?_, rfl, rfl, rfl, rfl, rfl, rfl, rfl⟩
    intro h
    have := congrArg List.head? h
    rw [hR] at this
    unfold uartServoAngle at this
    simp only [List.append_assoc] at this
    rw [hS] at this
    exact absurd this (by decide)
  · rw [onReadLine_both line len a hr h1 h2]
    refine ⟨?_, rfl, rfl, rfl, rfl, rfl, rfl, rfl⟩
    intro h
    have := congrArg List.head? h
    rw [hR] at this
    unfold uartServoAngle at this
    simp only [List.append_assoc] at this
    rw [hS] at this
    exact absurd this (by decide)

/-- C40. `onReadLine` runs the reset block and nothing else exactly when the first
character of the line is 'r': in that case the reply is "Reset OK", neither
`currentServoAngle` nor the servo duty registers change, whatever follows the 'r', as for
"r", "reset" and "r90", the seven variables of the reset take the values 0, 0, 1, 1, 0, 0,
1, and the four LEDs show 0 when the button counter display is enabled and are untouched
otherwise; in the other case the reply is not the reset reply and the variables the reset
assigns keep their values; an empty line, whose first character is the terminating NUL,
does not reset. -/
theorem reset_trigger (line : List Nat) (len : Nat) (a : App) :
    (line.headD 0 = 114 →
      onReadLine line len a = resetCommand a ∧
      (onReadLine line len a).2 = bytes "Reset OK\n" ∧
      (onReadLine line len a).1.currentServoAngle = a.currentServoAngle ∧
      (onReadLine line len a).1.DC1B = a.DC1B ∧
      (onReadLine line len a).1.CCPR1L = a.CCPR1L ∧
      (onReadLine line len a).1.buttonClickCount = 0 ∧
      (onReadLine line len a).1.servoAngleState = 0 ∧
      (onReadLine line len a).1.servoTurnRangeState = 1 ∧
      (onReadLine line len a).1.seqLedSpeedState = 1 ∧
      (onReadLine line len a).1.seqLedPosition = 0 ∧
      (onReadLine line len a).1.seqLedCounter = 0 ∧
      (onReadLine line len a).1.seqLedThreshold = 1 ∧
      (a.enableBinaryButtonCount = true →
        (onReadLine line len a).1.RD0 = 0 ∧ (onReadLine line len a).1.RD1 = 0 ∧
        (onReadLine line len a).1.RD2 = 0 ∧ (onReadLine line len a).1.RD3 = 0) ∧
      (a.enableBinaryButtonCount = false →
        (onReadLine line len a).1.RD0 = a.RD0 ∧ (onReadLine line len a).1.RD1 = a.RD1 ∧
        (onReadLine line len a).1.RD2 = a.RD2 ∧ (onReadLine line len a).1.RD3 = a.RD3)) ∧
    (line.headD 0 ≠ 114 →
      onReadLine line len a ≠ resetCommand a ∧
      (onReadLine line len a).2 ≠ bytes "Reset OK\n" ∧
      (onReadLine line len a).1.buttonClickCount = a.buttonClickCount ∧
      (onReadLine line len a).1.servoAngleState = a.servoAngleState ∧
      (onReadLine line len a).1.servoTurnRangeState = a.servoTurnRangeState ∧
      (onReadLine line len a).1.seqLedSpeedState = a.seqLedSpeedState ∧
      (onReadLine line len a).1.seqLedPosition = a.seqLedPosition ∧
      (onReadLine line len a).1.seqLedCounter = a.seqLedCounter ∧
      (onReadLine line len a).1.seqLedThreshold = a.seqLedThreshold) ∧
    (bytes "r").headD 0 = 114 ∧ (bytes "reset").headD 0 = 114 ∧
    (bytes "r90").headD 0 = 114 ∧
    ([] : List Nat).headD 0 ≠ 114 ∧ (List.replicate 64 0).headD 0 ≠ 114 := by
  refine ⟨?_, ?_, by decide, by decide, by decide, by decide, by decide⟩
  · intro hr
    have e : onReadLine line len a = resetCommand a := by
      unfold onReadLine
      rw [if_pos hr]
    obtain ⟨_, r1, r2, r3, r4, r5, r6, r7, _⟩ := resetCommand_effect line len a hr
    refine ⟨e, ?_, ?_, ?_, ?_, r1, r2, r3, r4, r5, r6, r7, ?_, ?_⟩
    · rw [e]; rfl
    · rw [e]; unfold resetCommand; simp only; split_ifs <;> rfl
    · rw [e]; unfold resetCommand; simp only; split_ifs <;> rfl
    · rw [e]; unfold resetCommand; simp only; split_ifs <;> rfl
    · intro hb
      rw [e]
      unfold resetCommand
      simp [hb, led4Bit]
    · intro hb
      rw [e]
      unfold resetCommand
      simp [hb]
  · intro hr
    obtain ⟨n1, n2⟩ := onReadLine_no_reset line len a hr
    refine ⟨?_, n1, n2⟩
    intro h
    apply n1
    rw [h]
    rfl

set_option maxRecDepth 200000 in
/-- C40, witness: the line "r90" with the configuration of `main` after the angle was set
to 180: the reply is "Reset OK" and the angle stays 180. -/
theorem reset_trigger_witness :
    (onReadLine (bytes "r90") 3 { mainStart 0 0 with currentServoAngle := 180 }).2 =
      bytes "Reset OK\n" ∧
    (onReadLine (bytes "r90") 3
      { mainStart 0 0 with currentServoAngle := 180 }).1.currentServoAngle =
      ({ mainStart 0 0 with currentServoAngle := 180 } : App).currentServoAngle :=
  have h := (reset_trigger (bytes "r90") 3
      { mainStart 0 0 with currentServoAngle := 180 }).1 (by decide)
  ⟨h.2.1, h.2.2.1⟩

/-! ## Lemmas on the button-angle mode -/

/-- The angle and the step state after the button-angle block, for an angle in 0..180 and
a step state in 0..2. -/
theorem servoTurnAngleButton_spec (a : App)
    (ha : 0 ≤ a.currentServoAngle ∧ a.currentServoAngle ≤ 180) (hs : a.servoAngleState ≤ 2) :
    (servoTurnAngleButton a).currentServoAngle =
      (a.currentServoAngle +
        (if a.servoAngleState = 0 then 45 else if a.servoAngleState = 1 then 90 else 180))
        % 180 ∧
    (servoTurnAngleButton a).servoAngleState = (a.servoAngleState + 1) % 3 := by
  have htm : ∀ x : Int, 0 ≤ x → Int.tmod x 180 = x % 180 := by
    intro x hx
    cases x with
    | ofNat m => rfl
    | negSucc m => exact absurd hx (by simp)
  have hst : ((a.servoAngleState + 1) % 65536) % 3 = (a.servoAngleState + 1) % 3 := by
    omega
  constructor
  · show Int.tmod (if a.servoAngleState = 0 then wrapInt (a.currentServoAngle + 45)
        else if a.servoAngleState = 1 then wrapInt (a.currentServoAngle + 90)
        else if a.servoAngleState = 2 then wrapInt (a.currentServoAngle + 180)
        else a.currentServoAngle) 180 = _
    have h2 : a.servoAngleState = 0 ∨ a.servoAngleState = 1 ∨ a.servoAngleState = 2 := by
      omega
    rcases h2 with h | h | h
    · simp only [h, if_true]
      have : wrapInt (a.currentServoAngle + 45) = a.currentServoAngle + 45 := by
        unfold wrapInt; omega
      rw [this, htm _ (by omega)]
    · simp only [h, if_true, one_ne_zero, if_false]
      have : wrapInt (a.currentServoAngle + 90) = a.currentServoAngle + 90 := by
        unfold wrapInt; omega
      rw [this, htm _ (by omega)]
    · simp only [h, if_true, OfNat.ofNat_ne_zero, OfNat.ofNat_ne_one, if_false]
      have : wrapInt (a.currentServoAngle + 180) = a.currentServoAngle + 180 := by
        unfold wrapInt; omega
      rw [this, htm _ (by omega)]
  · show ((a.servoAngleState + 1) % 65536) % 3 = _
    exact hst

/-- The angle and the step state after the button block with the button-angle mode
enabled are those left by the button-angle block. -/
theorem buttonBlock_angle (a : App) (hf : a.enableServoTurnAngleButton = true) :
    (buttonBlock a).1.currentServoAngle = (servoTurnAngleButton a).currentServoAngle ∧
    (buttonBlock a).1.servoAngleState = (servoTurnAngleButton a).servoAngleState := by
  unfold buttonBlock
  simp only
  cases h1 : a.enableBinaryButtonCount <;> cases h2 : a.enableServoTurnRangeSwitchButton <;>
    cases h4 : a.enableSequentialLedButton <;>
    cases h5 : a.enableSequentialLedButton_4 <;>
    simp [buttonCount, led4Bit, servoTurnRangeSwitchButton, servoTurnAngleButton,
      setCCP1ServoAngle, setCCP1PwmDutyCycle, sequentialLedButton, sequentialLedButton_4,
      h1, h2, hf, h4, h5]

/-- The Timer1 block leaves the angle and the step state alone. -/
theorem timer1Block_angle (a : App) :
    (timer1Block a).currentServoAngle = a.currentServoAngle ∧
    (timer1Block a).servoAngleState = a.servoAngleState := by
  have h3 : ∀ x : App, (timer1SequentialLed x).currentServoAngle = x.currentServoAngle ∧
      (timer1SequentialLed x).servoAngleState = x.servoAngleState := by
    intro x
    unfold timer1SequentialLed
    simp only
    split_ifs <;> exact ⟨rfl, rfl⟩
  have h4 : ∀ x : App, (timer1SequentialLed_4 x).currentServoAngle = x.currentServoAngle ∧
      (timer1SequentialLed_4 x).servoAngleState = x.servoAngleState := by
    intro x
    unfold timer1SequentialLed_4
    simp only
    split_ifs <;> exact ⟨rfl, rfl⟩
  unfold timer1Block
  simp only
  split_ifs
  · exact ⟨by rw [(h4 _).1, (h3 _).1], by rw [(h4 _).2, (h3 _).2]⟩
  · exact h3 a
  · exact h4 a
  · exact ⟨rfl, rfl⟩

/-- No mode block of the conversion handler changes the angle or the step state. -/
theorem adcBlockList_angle (s c : Nat) :
    ∀ fb ∈ adcBlockList s c, ∀ x,
      (fun y => (y.currentServoAngle, y.servoAngleState)) (fb.2 x) =
        (fun y => (y.currentServoAngle, y.servoAngleState)) x := by
  intro fb hfb x
  simp only [adcBlockList, List.mem_cons, List.mem_singleton, List.not_mem_nil, or_false] at hfb
  rcases hfb with rfl | rfl | rfl | rfl | rfl | rfl | rfl | rfl | rfl
  · rfl
  · rfl
  · rfl
  · rfl
  · obtain ⟨z, k, t, st, d, l, e⟩ := ledFlashADC_shape s x
    simp only [e]
  · obtain ⟨v, e⟩ := ledMarqueeADC_Single_shape s x
    simp only [e]; rfl
  · rfl
  · rfl
  · obtain ⟨v, i, e⟩ := evenOddADC_shape s c x
    simp only [e]; rfl

/-- The conversion block leaves the angle and the step state alone. -/
theorem adcBlock_angle (r : Nat) (a : App) :
    (adcBlock r a).currentServoAngle = a.currentServoAngle ∧
    (adcBlock r a).servoAngleState = a.servoAngleState := by
  have h := runBlocks_proj (fun y => (y.currentServoAngle, y.servoAngleState))
    (adcBlockList (adcSmoothed a.lastADC r) r) (adcBlockList_angle _ r) a
  rw [← adcModes_eq_runBlocks] at h
  simp only [Prod.mk.injEq] at h
  exact h

/-- The angle and the step state after `H_ISR` are those left by the button block, if
entered. -/
theorem H_ISR_angle (x : Nat) (m : Machine) :
    (H_ISR x m).app.currentServoAngle =
      (if m.INT0IF then (buttonBlock m.app).1 else m.app).currentServoAngle ∧
    (H_ISR x m).app.servoAngleState =
      (if m.INT0IF then (buttonBlock m.app).1 else m.app).servoAngleState := by
  rw [(H_ISR_app_tx x m).1]
  cases m.ADIF <;> cases m.TMR1IF <;>
    simp only [Bool.false_eq_true, if_false, if_true, id, adcBlock_angle, timer1Block_angle,
      and_self]

/-! ## C38: the button angle stepping -/

/-- C38. With the button-angle mode enabled, from a state with `currentServoAngle` in
0..180 and `servoAngleState` in 0..2, an activation of `H_ISR` with the button flag
pending leaves `currentServoAngle` in 0..179 and `servoAngleState` advanced cyclically;
the new angle is the old one plus 45, 90 or 180 in states 0, 1, 2, reduced modulo 180, so
that in state 2 it is the old angle modulo 180. -/
theorem button_angle_stepping (x : Nat) (m : Machine) (hi : m.INT0IF = true)
    (hf : m.app.enableServoTurnAngleButton = true)
    (ha : 0 ≤ m.app.currentServoAngle ∧ m.app.currentServoAngle ≤ 180)
    (hs : m.app.servoAngleState ≤ 2) :
    0 ≤ (H_ISR x m).app.currentServoAngle ∧ (H_ISR x m).app.currentServoAngle ≤ 179 ∧
    (H_ISR x m).app.servoAngleState = (m.app.servoAngleState + 1) % 3 ∧
    (H_ISR x m).app.currentServoAngle =
      (m.app.currentServoAngle +
        (if m.app.servoAngleState = 0 then 45
         else if m.app.servoAngleState = 1 then 90 else 180)) % 180 ∧
    (m.app.servoAngleState = 2 →
      (H_ISR x m).app.currentServoAngle = m.app.currentServoAngle % 180) := by
  obtain ⟨e1, e2⟩ := H_ISR_angle x m
  rw [hi] at e1 e2
  simp only [if_true] at e1 e2
  obtain ⟨b1, b2⟩ := buttonBlock_angle m.app hf
  obtain ⟨s1, s2⟩ := servoTurnAngleButton_spec m.app ha hs
  rw [b1, s1] at e1
  rw [b2, s2] at e2
  refine ⟨?_, ?_, e2, e1, ?_⟩
  · rw [e1]; omega
  · rw [e1]; omega
  · intro h2
    rw [e1, h2]
    simp only [OfNat.ofNat_ne_zero, OfNat.ofNat_ne_one, if_false]
    omega

/-- C38, witness: the button-angle mode enabled at start-up, first press: the angle goes
from 0 to 45 and the step state from 0 to 1. -/
theorem button_angle_stepping_witness :
    (H_ISR 0 { app := { mainStart 0 0 with enableServoTurnAngleButton := true },
               INT0IF := true, TMR1IF := false, TMR3IF := false, ADIF := false, TMR1 := 0,
               tx := [], ran := [] }).app.servoAngleState =
      (({ mainStart 0 0 with enableServoTurnAngleButton := true } : App).servoAngleState + 1)
        % 3 ∧
    (H_ISR 0 { app := { mainStart 0 0 with enableServoTurnAngleButton := true },
               INT0IF := true, TMR1IF := false, TMR3IF := false, ADIF := false, TMR1 := 0,
               tx := [], ran := [] }).app.currentServoAngle ≤ 179 :=
  have h := button_angle_stepping 0
      { app := { mainStart 0 0 with enableServoTurnAngleButton := true },
        INT0IF := true, TMR1IF := false, TMR3IF := false, ADIF := false, TMR1 := 0,
        tx := [], ran := [] } rfl rfl (by decide) (by decide)
  ⟨h.2.2.1, h.2.1⟩

/-! ## Lemmas on the sequential-LED mode -/

/-- The sequence variables after the button block with only the 3-LED sequence of the
two sequence modes enabled. -/
theorem buttonBlock_seq (a : App) (h3 : a.enableSequentialLedButton = true)
    (h4 : a.enableSequentialLedButton_4 = false) :
    (buttonBlock a).1.seqLedSpeedState = ((a.seqLedSpeedState % 3) + 1) % 256 ∧
    (buttonBlock a).1.seqLedThreshold =
      (if ((a.seqLedSpeedState % 3) + 1) % 256 = 1 then 1
       else if ((a.seqLedSpeedState % 3) + 1) % 256 = 2 then 2
       else if ((a.seqLedSpeedState % 3) + 1) % 256 = 3 then 4 else a.seqLedThreshold) ∧
    (buttonBlock a).1.seqLedCounter = 0 ∧
    (buttonBlock a).1.seqLedPosition = a.seqLedPosition ∧
    (buttonBlock a).1.enableSequentialLedButton = true ∧
    (buttonBlock a).1.enableSequentialLedButton_4 = false := by
  unfold buttonBlock
  simp only
  cases h1 : a.enableBinaryButtonCount <;> cases h2 : a.enableServoTurnRangeSwitchButton <;>
    cases h5 : a.enableServoTurnAngleButton <;>
    simp [buttonCount, led4Bit, servoTurnRangeSwitchButton, servoTurnAngleButton,
      setCCP1ServoAngle, setCCP1PwmDutyCycle, sequentialLedButton, sequentialLedButton_4,
      h1, h2, h3, h4, h5]

/-- One Timer1 event with only the 3-LED sequence enabled, the counter below a threshold
of at most 255. -/
theorem timer1_event (a : App) (h3 : a.enableSequentialLedButton = true)
    (h4 : a.enableSequentialLedButton_4 = false)
    (hc : a.seqLedCounter < a.seqLedThreshold) (ht : a.seqLedThreshold ≤ 255) :
    (timer1Block a).enableSequentialLedButton = true ∧
    (timer1Block a).enableSequentialLedButton_4 = false ∧
    (timer1Block a).seqLedThreshold = a.seqLedThreshold ∧
    (a.seqLedCounter + 1 = a.seqLedThreshold →
      (timer1Block a).seqLedCounter = 0 ∧
      (timer1Block a).seqLedPosition = (a.seqLedPosition + 1) % 3 ∧
      (timer1Block a).RD0 = (if (a.seqLedPosition + 1) % 3 = 0 then 1 else 0) ∧
      (timer1Block a).RD1 = (if (a.seqLedPosition + 1) % 3 = 1 then 1 else 0) ∧
      (timer1Block a).RD2 = (if (a.seqLedPosition + 1) % 3 = 2 then 1 else 0)) ∧
    (a.seqLedCounter + 1 ≠ a.seqLedThreshold →
      (timer1Block a).seqLedCounter = a.seqLedCounter + 1 ∧
      (timer1Block a).seqLedPosition = a.seqLedPosition ∧
      ledsOf (timer1Block a) = ledsOf a) := by
  have hm : (a.seqLedCounter + 1) % 256 = a.seqLedCounter + 1 := by omega
  have hp : ((a.seqLedPosition + 1) % 3) % 256 = (a.seqLedPosition + 1) % 3 := by omega
  have e : timer1Block a = timer1SequentialLed a := by
    have h5 : (timer1SequentialLed a).enableSequentialLedButton_4 = false := by
      unfold timer1SequentialLed
      simp only
      split_ifs <;> exact h4
    unfold timer1Block
    simp only [h3, if_true, h5, Bool.false_eq_true, if_false]
  rw [e]
  unfold timer1SequentialLed
  simp only [hm, hp, ge_iff_le]
  by_cases hw : a.seqLedCounter + 1 = a.seqLedThreshold
  · have h1 : a.seqLedThreshold ≤ a.seqLedCounter + 1 := by omega
    rw [if_pos h1]
    exact ⟨h3, h4, rfl, fun _ => ⟨rfl, rfl, rfl, rfl, rfl⟩, fun h => absurd hw h⟩
  · have h1 : ¬ a.seqLedThreshold ≤ a.seqLedCounter + 1 := by omega
    rw [if_neg h1]
    exact ⟨h3, h4, rfl, fun h => absurd h hw, fun _ => ⟨rfl, rfl, rfl⟩⟩

/-- The last of n + 1 Timer1 events. -/
theorem timer1Run_succ (n : Nat) : ∀ a : App,
    timer1Run (n + 1) a = timer1Block (timer1Run n a) := by
  induction n with
  | zero => intro a; rfl
  | succ n ih =>
    intro a
    show timer1Run (n + 1) (timer1Block a) = timer1Block (timer1Run (n + 1) a)
    rw [ih (timer1Block a)]
    rfl

/-- A run of Timer1 events with only the 3-LED sequence enabled and a threshold of 1, 2
or 4: the counter and the position in closed form. -/
theorem timer1_run (T : Nat) (hT : T = 1 ∨ T = 2 ∨ T = 4) (n : Nat) :
    ∀ a : App, a.enableSequentialLedButton = true → a.enableSequentialLedButton_4 = false →
      a.seqLedThreshold = T → a.seqLedCounter < T → a.seqLedPosition < 3 →
      (timer1Run n a).enableSequentialLedButton = true ∧
      (timer1Run n a).enableSequentialLedButton_4 = false ∧
      (timer1Run n a).seqLedThreshold = T ∧
      (timer1Run n a).seqLedCounter = (a.seqLedCounter + n) % T ∧
      (timer1Run n a).seqLedPosition = (a.seqLedPosition + (a.seqLedCounter + n) / T) % 3 := by
  induction n with
  | zero =>
    intro a h3 h4 ht hc hp
    refine ⟨h3, h4, ht, ?_, ?_⟩
    · show a.seqLedCounter = _
      rw [Nat.add_zero, Nat.mod_eq_of_lt hc]
    · show a.seqLedPosition = _
      rw [Nat.add_zero, Nat.div_eq_of_lt hc, Nat.add_zero, Nat.mod_eq_of_lt hp]
  | succ n ih =>
    intro a h3 h4 ht hc hp
    obtain ⟨e3, e4, et, eadv, estay⟩ := timer1_event a h3 h4 (by omega) (by omega)
    show _ ∧ _ ∧ (timer1Run n (timer1Block a)).seqLedThreshold = T ∧
      (timer1Run n (timer1Block a)).seqLedCounter = _ ∧
      (timer1Run n (timer1Block a)).seqLedPosition = _
    by_cases hw : a.seqLedCounter + 1 = a.seqLedThreshold
    · obtain ⟨c0, p0, -, -, -⟩ := eadv hw
      obtain ⟨i1, i2, i3, i4, i5⟩ := ih (timer1Block a) e3 e4 (by rw [et, ht])
        (by rw [c0]; omega) (by rw [p0]; omega)
      refine ⟨i1, i2, i3, ?_, ?_⟩
      · rw [i4, c0]
        rcases hT with rfl | rfl | rfl <;> omega
      · rw [i5, c0, p0]
        rcases hT with rfl | rfl | rfl <;> omega
    · obtain ⟨c0, p0, -⟩ := estay hw
      obtain ⟨i1, i2, i3, i4, i5⟩ := ih (timer1Block a) e3 e4 (by rw [et, ht])
        (by rw [c0]; omega) (by rw [p0]; exact hp)
      refine ⟨i1, i2, i3, ?_, ?_⟩
      · rw [i4, c0]
        rcases hT with rfl | rfl | rfl <;> omega
      · rw [i5, c0, p0]
        rcases hT with rfl | rfl | rfl <;> omega

/-- The Timer1 block of `H_ISR` reloads the counter with the value for 250 ms. -/
theorem H_ISR_TMR1 (x : Nat) (m : Machine) (h : m.TMR1IF = true) :
    (H_ISR x m).TMR1 = 34286 := by
  have e : (H_ISR x m).TMR1 = (setTimer1InterruptPeriod 250000 8).getD m.TMR1 := by
    obtain ⟨app, i0, t1, t3, ad, tmr, tx, ran⟩ := m
    simp only at h
    subst h
    cases i0 <;> cases t3 <;> cases ad <;> simp [H_ISR]
  rw [e, timer1_reload_250ms]
  rfl

/-! ## C34: the speeds of the LED sequence -/

/-- C34. With the 3-LED sequence enabled and the 4-LED sequence disabled, from a
position in 0..2: a button press moves the speed state s to s mod 3 + 1, that is 1 to 2,
2 to 3, 3 to 1, sets the threshold to 1, 2, 4 for the new states 1, 2, 3 and the counter
to 0;
after the press, the position after k Timer1 events is the old one plus floor(k / T)
modulo 3 for the threshold T, it changes on event k + 1 exactly when T divides k + 1, and
after such an event exactly the output among RD0..RD2 indexed by the position is high.
Timer1 is reloaded with 34286, that is 31250 counts of 8 us, 250 ms. -/
theorem sequential_led_speeds (a : App) (k x : Nat) (m : Machine)
    (h3 : a.enableSequentialLedButton = true) (h4 : a.enableSequentialLedButton_4 = false)
    (hp : a.seqLedPosition < 3) :
    (buttonBlock a).1.seqLedSpeedState = a.seqLedSpeedState % 3 + 1 ∧
    (buttonBlock a).1.seqLedThreshold =
      (if a.seqLedSpeedState % 3 + 1 = 1 then 1
       else if a.seqLedSpeedState % 3 + 1 = 2 then 2 else 4) ∧
    (buttonBlock a).1.seqLedCounter = 0 ∧
    (timer1Run k (buttonBlock a).1).seqLedPosition =
      (a.seqLedPosition + k / (buttonBlock a).1.seqLedThreshold) % 3 ∧
    (timer1Run k (buttonBlock a).1).seqLedCounter = k % (buttonBlock a).1.seqLedThreshold ∧
    ((timer1Run (k + 1) (buttonBlock a).1).seqLedPosition ≠
        (timer1Run k (buttonBlock a).1).seqLedPosition ↔
      (buttonBlock a).1.seqLedThreshold ∣ k + 1) ∧
    ((buttonBlock a).1.seqLedThreshold ∣ k + 1 →
      (timer1Run (k + 1) (buttonBlock a).1).seqLedPosition =
        ((timer1Run k (buttonBlock a).1).seqLedPosition + 1) % 3 ∧
      (timer1Run (k + 1) (buttonBlock a).1).RD0 =
        (if (timer1Run (k + 1) (buttonBlock a).1).seqLedPosition = 0 then 1 else 0) ∧
      (timer1Run (k + 1) (buttonBlock a).1).RD1 =
        (if (timer1Run (k + 1) (buttonBlock a).1).seqLedPosition = 1 then 1 else 0) ∧
      (timer1Run (k + 1) (buttonBlock a).1).RD2 =
        (if (timer1Run (k + 1) (buttonBlock a).1).seqLedPosition = 2 then 1 else 0) ∧
      (timer1Run (k + 1) (buttonBlock a).1).RD0 + (timer1Run (k + 1) (buttonBlock a).1).RD1 +
        (timer1Run (k + 1) (buttonBlock a).1).RD2 = 1) ∧
    setTimer1InterruptPeriod 250000 8 = some 34286 ∧
    ((65536 : ℚ) - 34286) * (tickUs * 8) = 250000 ∧
    (m.TMR1IF = true → (H_ISR x m).TMR1 = 34286) := by
  obtain ⟨b1, b2, b3, b4, b5, b6⟩ := buttonBlock_seq a h3 h4
  have hs : ((a.seqLedSpeedState % 3) + 1) % 256 = a.seqLedSpeedState % 3 + 1 := by omega
  rw [hs] at b1 b2
  have hthr : (buttonBlock a).1.seqLedThreshold =
      (if a.seqLedSpeedState % 3 + 1 = 1 then 1
       else if a.seqLedSpeedState % 3 + 1 = 2 then 2 else 4) := by
    rw [b2]
    split_ifs <;> first | rfl | omega
  have hT : (buttonBlock a).1.seqLedThreshold = 1 ∨ (buttonBlock a).1.seqLedThreshold = 2 ∨
      (buttonBlock a).1.seqLedThreshold = 4 := by
    rw [hthr]
    split_ifs <;> simp
  generalize hTT : (buttonBlock a).1.seqLedThreshold = T at hT hthr ⊢
  obtain ⟨r1, r2, r3, r4, r5⟩ := timer1_run T hT k (buttonBlock a).1 b5 b6 hTT
    (by rw [b3]; rcases hT with rfl | rfl | rfl <;> omega) (by rw [b4]; exact hp)
  obtain ⟨q1, q2, q3, q4, q5⟩ := timer1_run T hT (k + 1) (buttonBlock a).1 b5 b6 hTT
    (by rw [b3]; rcases hT with rfl | rfl | rfl <;> omega) (by rw [b4]; exact hp)
  rw [b3, Nat.zero_add] at r4 r5 q4 q5
  rw [b4] at r5 q5
  obtain ⟨-, -, -, eadv, -⟩ := timer1_event (timer1Run k (buttonBlock a).1) r1 r2
    (by rw [r3, r4]; rcases hT with rfl | rfl | rfl <;> omega)
    (by rw [r3]; rcases hT with rfl | rfl | rfl <;> omega)
  rw [← timer1Run_succ] at eadv
  refine ⟨b1, hthr, b3, r5, r4, ?_, ?_, timer1_reload_250ms, ?_, H_ISR_TMR1 x m⟩
  · rw [q5, r5, Nat.dvd_iff_mod_eq_zero]
    rcases hT with rfl | rfl | rfl <;> omega
  · intro hd
    rw [Nat.dvd_iff_mod_eq_zero] at hd
    have hw : (timer1Run k (buttonBlock a).1).seqLedCounter + 1 =
        (timer1Run k (buttonBlock a).1).seqLedThreshold := by
      rw [r3, r4]
      rcases hT with rfl | rfl | rfl <;> omega
    obtain ⟨-, a2, a3, a4, a5⟩ := eadv hw
    rw [a3, a4, a5, a2]
    have : ((timer1Run k (buttonBlock a).1).seqLedPosition + 1) % 3 < 3 :=
      Nat.mod_lt _ (by omega)
    refine ⟨rfl, rfl, rfl, rfl, ?_⟩
    generalize ((timer1Run k (buttonBlock a).1).seqLedPosition + 1) % 3 = p at this
    interval_cases p <;> rfl
  · rw [tickUs_eq]
    norm_num

/-- C34, witness: the 3-LED sequence enabled at start-up, one press (speed state 1 to 2,
threshold 2), then Timer1 events: the position changes on the second event. -/
theorem sequential_led_speeds_witness :
    (buttonBlock { mainStart 0 0 with enableSequentialLedButton := true }).1.seqLedSpeedState =
      ({ mainStart 0 0 with enableSequentialLedButton := true } : App).seqLedSpeedState % 3
        + 1 ∧
    (timer1Run 1
        (buttonBlock { mainStart 0 0 with enableSequentialLedButton := true }).1).seqLedCounter
      = 1 % (buttonBlock
        { mainStart 0 0 with enableSequentialLedButton := true }).1.seqLedThreshold :=
  have h := sequential_led_speeds { mainStart 0 0 with enableSequentialLedButton := true }
    1 0 { app := mainStart 0 0, INT0IF := false, TMR1IF := true, TMR3IF := false,
          ADIF := false, TMR1 := 0, tx := [], ran := [] } rfl rfl (by decide)
  ⟨h.1, h.2.2.2.2.1⟩

/-! ## Lemmas on DEL -/

/-- Effect of DEL on a buffer that is not empty. -/
theorem step_del {α : Type} (cb : Callbacks α) (r : RxByte) (s : Serial α)
    (hf : r.ferr = false) (hc : r.c = 0x7f) (h0 : 0 < s.serialBufferLen)
    (hl : s.serialBufferLen ≤ 255) :
    (step cb r s).serialBufferLen = s.serialBufferLen - 1 ∧
    (step cb r s).serialBuffer = s.serialBuffer.set (s.serialBufferLen - 1) 0 ∧
    (step cb r s).tx = s.tx ++ [8, 32, 8] ∧
    (step cb r s).lines = s.lines ∧
    (step cb r s).app = s.app := by
  obtain ⟨c, fe, o⟩ := r
  simp only at hf hc
  subst hf hc
  have hne : s.serialBufferLen ≠ 0 := by omega
  have hm : (s.serialBufferLen + 255) % 256 = s.serialBufferLen - 1 := by omega
  cases o <;> simp [step, processSerialReceive, dispatch, serialWrite, bufStore, hne, hm]

/-- Effect of DEL on an empty buffer. -/
theorem step_del_empty {α : Type} (cb : Callbacks α) (r : RxByte) (s : Serial α)
    (hf : r.ferr = false) (hc : r.c = 0x7f) (h0 : s.serialBufferLen = 0) :
    (step cb r s).serialBufferLen = s.serialBufferLen ∧
    (step cb r s).serialBuffer = s.serialBuffer ∧
    (step cb r s).tx = s.tx ∧
    (step cb r s).lines = s.lines ∧
    (step cb r s).app = s.app := by
  obtain ⟨c, fe, o⟩ := r
  simp only at hf hc
  subst hf hc
  cases o <;> simp [step, processSerialReceive, dispatch, h0]

/-! ## C33: append then erase -/

/-- C33. With a character callback that is null or prints nothing, for every engine state
with fewer than 63 buffered characters and every ordinary byte c, receiving c and then DEL,
both without framing error, restores the length, leaves the buffered characters
unchanged (the cell after them holds 0), calls the line callback not at all and transmits
exactly c, backspace, space, backspace; DEL on an empty buffer transmits nothing and
changes neither the buffer nor the length. -/
theorem append_erase_round_trip {α : Type} (cb : Callbacks α) (c : Nat) (o1 o2 o3 : Bool)
    (s : Serial α) (hord : isOrdinary c)
    (hq : ∀ g, cb.serialOnReadChar = some g → ∀ x a, (g x a).2 = []) :
    (s.serialBufferLen < 63 →
      (feed cb [⟨c, false, o1⟩, ⟨0x7f, false, o2⟩] s).serialBufferLen = s.serialBufferLen ∧
      (feed cb [⟨c, false, o1⟩, ⟨0x7f, false, o2⟩] s).serialBuffer.take s.serialBufferLen =
        s.serialBuffer.take s.serialBufferLen ∧
      (feed cb [⟨c, false, o1⟩, ⟨0x7f, false, o2⟩] s).serialBuffer =
        s.serialBuffer.set s.serialBufferLen 0 ∧
      (feed cb [⟨c, false, o1⟩, ⟨0x7f, false, o2⟩] s).lines = s.lines ∧
      (feed cb [⟨c, false, o1⟩, ⟨0x7f, false, o2⟩] s).tx = s.tx ++ [c, 8, 32, 8]) ∧
    (s.serialBufferLen = 0 →
      (step cb ⟨0x7f, false, o3⟩ s).tx = s.tx ∧
      (step cb ⟨0x7f, false, o3⟩ s).serialBuffer = s.serialBuffer ∧
      (step cb ⟨0x7f, false, o3⟩ s).serialBufferLen = s.serialBufferLen ∧
      (step cb ⟨0x7f, false, o3⟩ s).lines = s.lines) := by
  constructor
  · intro hl
    obtain ⟨e1, e2, e3, -, -, e6, -⟩ := step_ordinary cb ⟨c, false, o1⟩ s rfl hord hl
    rw [callReadChar_tx cb c s hq] at e6
    obtain ⟨d1, d2, d3, d4, -⟩ := step_del cb ⟨0x7f, false, o2⟩ (step cb ⟨c, false, o1⟩ s)
      rfl rfl (by rw [e1]; omega) (by rw [e1]; omega)
    have hfe : feed cb [⟨c, false, o1⟩, ⟨0x7f, false, o2⟩] s =
        step cb ⟨0x7f, false, o2⟩ (step cb ⟨c, false, o1⟩ s) := rfl
    rw [hfe]
    rw [e1, e2] at d2
    rw [e1] at d1
    rw [e6] at d3
    rw [e3] at d4
    have hbufeq : (step cb ⟨0x7f, false, o2⟩ (step cb ⟨c, false, o1⟩ s)).serialBuffer =
        s.serialBuffer.set s.serialBufferLen 0 := by
      rw [d2]
      simp [List.set_set]
    refine ⟨by rw [d1]; omega, ?_, hbufeq, d4, ?_⟩
    · rw [hbufeq]
      apply List.ext_getElem
      · simp
      · intro i h1 h2
        simp only [List.length_take, List.length_set, lt_min_iff] at h1
        rw [List.getElem_take, List.getElem_take, List.getElem_set_ne (by omega)]
    · rw [d3]
      simp
  · intro h0
    obtain ⟨d1, d2, d3, d4, -⟩ := step_del_empty cb ⟨0x7f, false, o3⟩ s rfl rfl h0
    exact ⟨d3, d2, d1, d4⟩

/-- C33, witness: 'a' then DEL in the start-up state with the callbacks of `main`. -/
theorem append_erase_round_trip_witness :
    (feed mainCallbacks [⟨97, false, false⟩, ⟨0x7f, false, false⟩]
        (Serial.start (mainStart 0 0))).serialBufferLen =
      (Serial.start (mainStart 0 0)).serialBufferLen ∧
    (feed mainCallbacks [⟨97, false, false⟩, ⟨0x7f, false, false⟩]
        (Serial.start (mainStart 0 0))).tx =
      (Serial.start (mainStart 0 0)).tx ++ [97, 8, 32, 8] :=
  have h := (append_erase_round_trip mainCallbacks 97 false false false
    (Serial.start (mainStart 0 0)) (by decide)
    (by intro g hg x a; cases hg; rfl)).1 (by decide)
  ⟨h.1, h.2.2.2.2⟩

/-! ## C35: the default baud rate -/

/-- C35. With FOSC = 4 MHz, `serialBegin(9600, p)` selects the asynchronous mode with
BRG16 = 1 and BRGH = 1 and writes the generator value n = floor(floor(FOSC / 9600) / 4) =
104 to SPBRGH:SPBRG (0 and 104); the line rate FOSC / (4 (n + 1)) differs from 9600 by
less than 1 %. -/
theorem default_baud_rate (p : Nat) :
    (serialBegin 9600 p).SYNC = false ∧ (serialBegin 9600 p).BRG16 = true ∧
    (serialBegin 9600 p).BRGH = true ∧
    (serialBegin 9600 p).SPBRGH = 0 ∧ (serialBegin 9600 p).SPBRG = 104 ∧
    256 * (serialBegin 9600 p).SPBRGH + (serialBegin 9600 p).SPBRG = XTAL_FREQ / 9600 / 4 ∧
    |(XTAL_FREQ : ℚ) / (4 * ((256 * (serialBegin 9600 p).SPBRGH +
        (serialBegin 9600 p).SPBRG : Nat) + 1)) - 9600| < 9600 / 100 ∧
    (serialBegin 9600 p).RCIP = p % 2 := by
  have hg : baudRateGenerator 9600 = 104 := by decide
  have h1 : (serialBegin 9600 p).SPBRGH = 0 := by
    show ((baudRateGenerator 9600 / 256) % 256).toNat = 0
    rw [hg]
    decide
  have h2 : (serialBegin 9600 p).SPBRG = 104 := by
    show (baudRateGenerator 9600 % 256).toNat = 104
    rw [hg]
    decide
  have h3 : (serialBegin 9600 p).BRGH = true := by
    show decide ((9600 : Int) > 2400) = true
    decide
  refine ⟨rfl, rfl, h3, h1, h2, ?_, ?_, rfl⟩
  · rw [h1, h2]
    decide
  · rw [h1, h2]
    norm_num [XTAL_FREQ, abs_lt]

/-! ## C36: the realised timer period -/

end PIC18
